import Mathlib

/-!
# Optima: canonical-form KKT solving engine

A shallow embedding of the linear-algebra core of Optima
(`LinearSolverNullspace.cpp`, `Math/CanonicalMatrix.cpp`, `Core/OptimumStepper.cpp`,
`ResidualFunction.cpp`, `ResidualVector.cpp`, `IpSaddlePointMatrix.cpp`,
`Math/BlockDiagonalMatrix.hpp`) and of three methods of the filter solver
(`IPFilter/IPFilterSolver.cpp`), together with theorems about it.

Conventions of the embedding.

* `double` is modelled by `ℚ` (exact arithmetic); division by zero follows `ℚ`. Where
  infinite bounds matter (`ResidualFunction`), a `double` is a finite value, an infinity or
  not-a-number.
* An Eigen vector is a function from an index type to `ℚ`; an Eigen matrix is a
  Mathlib `Matrix`.
* A contiguous segmentation of an index range `[0, k₁ + k₂)` is the sum type
  `Fin k₁ ⊕ Fin k₂`: `head`/`topRows`/`leftCols` select the `Sum.inl` part and
  `tail`/`bottomRows`/`rightCols` the `Sum.inr` part.
* Index arrays (`VectorXi`, `Indices`) whose entries are not constrained by a type in the
  source are lists of natural numbers.
* Where a dense matrix is written through views given by offsets (`IpSaddlePointMatrix`,
  `BlockDiagonalMatrix`), its coefficients are a function of a row and a column position;
  a vector whose size is not known in advance is the list of its entries.
-/

open Matrix

namespace Optima

/-! ## Eigen block views -/

section Blocks

variable {m₁ m₂ n₁ n₂ m n : Type}

/-- Rows of the first segment: `A.topRows(k₁)`. -/
def topRows (A : Matrix (m₁ ⊕ m₂) n ℚ) : Matrix m₁ n ℚ := fun i j => A (Sum.inl i) j

/-- Rows of the second segment: `A.bottomRows(k₂)`. -/
def bottomRows (A : Matrix (m₁ ⊕ m₂) n ℚ) : Matrix m₂ n ℚ := fun i j => A (Sum.inr i) j

/-- Columns of the first segment: `A.leftCols(k₁)`. -/
def leftCols (A : Matrix m (n₁ ⊕ n₂) ℚ) : Matrix m n₁ ℚ := fun i j => A i (Sum.inl j)

/-- Columns of the second segment: `A.rightCols(k₂)`. -/
def rightCols (A : Matrix m (n₁ ⊕ n₂) ℚ) : Matrix m n₂ ℚ := fun i j => A i (Sum.inr j)

/-- First segment of a vector: `v.head(k₁)`. -/
def head (v : m₁ ⊕ m₂ → ℚ) : m₁ → ℚ := fun i => v (Sum.inl i)

/-- Second segment of a vector: `v.tail(k₂)`. -/
def tail (v : m₁ ⊕ m₂ → ℚ) : m₂ → ℚ := fun i => v (Sum.inr i)

/-- Vertical concatenation of two row blocks. -/
def vcat (A : Matrix m₁ n ℚ) (B : Matrix m₂ n ℚ) : Matrix (m₁ ⊕ m₂) n ℚ :=
  fun i j => Sum.elim (fun a => A a j) (fun b => B b j) i

/-- Horizontal concatenation of two column blocks (the comma initialiser `<< A, B`). -/
def hcat (A : Matrix m n₁ ℚ) (B : Matrix m n₂ ℚ) : Matrix m (n₁ ⊕ n₂) ℚ :=
  fun i j => Sum.elim (fun a => A i a) (fun b => B i b) j

/-- Concatenation of two vector segments (the comma initialiser `<< v, w`). -/
def vjoin (v : m₁ → ℚ) (w : m₂ → ℚ) : m₁ ⊕ m₂ → ℚ := Sum.elim v w

end Blocks

/-! ## `LinearSolverNullspace` -/

/-- Index range of the basic stable variables, `[be | bi]`, of length `nbs = nbe + nbi`. -/
abbrev IdxBS (nbe nbi : ℕ) : Type := Fin nbe ⊕ Fin nbi

/-- Index range of the stable variables, `[bs | ns] = [be | bi | ns]`, of length `ns`. -/
abbrev IdxS (nbe nbi nns : ℕ) : Type := IdxBS nbe nbi ⊕ Fin nns

/-- Index range of the reduced system, `[be | ns | p | be]`, of length
`t = nbe + nns + np + nbe`. -/
abbrev IdxT (nbe nns np : ℕ) : Type := Fin nbe ⊕ (Fin nns ⊕ (Fin np ⊕ Fin nbe))

/-- The canonical matrix handed to the solver (`CanonicalMatrix` of `MasterMatrix.hpp`,
whose declaration is not among the sources): the blocks read by `decompose` and `solve`,
with the dimensions `nbe`, `nbi`, `nns`, `np` of `dims`. -/
structure CanonicalMatrix (nbe nbi nns np : ℕ) where
  Hss : Matrix (IdxS nbe nbi nns) (IdxS nbe nbi nns) ℚ
  Hsp : Matrix (IdxS nbe nbi nns) (Fin np) ℚ
  Vps : Matrix (Fin np) (IdxS nbe nbi nns) ℚ
  Vpp : Matrix (Fin np) (Fin np) ℚ
  Sbsns : Matrix (IdxBS nbe nbi) (Fin nns) ℚ
  Sbsp : Matrix (IdxBS nbe nbi) (Fin np) ℚ

/-- A canonical vector (`CanonicalVector` / `CanonicalVectorRef`): segments `xs`, `p`, `wbs`. -/
structure CanonicalVector (nbe nbi nns np : ℕ) where
  xs : IdxS nbe nbi nns → ℚ
  p : Fin np → ℚ
  wbs : IdxBS nbe nbi → ℚ

/-- The dense solver `LU` of `LU.hpp`, whose source is not available: it is taken as a
parameter. `decompose` consumes a square matrix and either raises an error or yields a
factorisation; `solve` maps a factorisation and a right-hand side to the vector that
overwrites it; `init` is the default-constructed solver. -/
structure LU (T : Type) where
  Fact : Type
  init : Fact
  decompose : Matrix T T ℚ → Except String Fact
  solve : Fact → (T → ℚ) → (T → ℚ)

/-- The members of `LinearSolverNullspace::Impl`. The workspaces are represented by their
active leading parts (`Hxx.topLeftCorner(ns, ns)`, `Hxp.topRows(ns)`, `Vpx.leftCols(ns)`,
`Mw.topLeftCorner(t, t)`, `ax.head(ns)`, `aw.head(nbs)`, `rw.head(t)`). -/
structure Impl {nbe nns np : ℕ} (lu : LU (IdxT nbe nns np)) (nbi : ℕ) where
  ax : IdxS nbe nbi nns → ℚ
  ap : Fin np → ℚ
  aw : IdxBS nbe nbi → ℚ
  Hxx : Matrix (IdxS nbe nbi nns) (IdxS nbe nbi nns) ℚ
  Hxp : Matrix (IdxS nbe nbi nns) (Fin np) ℚ
  Vpx : Matrix (Fin np) (IdxS nbe nbi nns) ℚ
  Vpp : Matrix (Fin np) (Fin np) ℚ
  Mw : Matrix (IdxT nbe nns np) (IdxT nbe nns np) ℚ
  rw : IdxT nbe nns np → ℚ
  lu : lu.Fact

section Solver

variable {nbe nbi nns np : ℕ}

/-- The reduced matrix `M` assembled by `decompose` (lines 145-148), from the workspace
blocks after the in-place updates of lines 131-143. -/
def assembleM
    (Hbebe : Matrix (Fin nbe) (Fin nbe) ℚ) (Hbens : Matrix (Fin nbe) (Fin nns) ℚ)
    (Hbep : Matrix (Fin nbe) (Fin np) ℚ)
    (Hnsbe : Matrix (Fin nns) (Fin nbe) ℚ) (Hnsns : Matrix (Fin nns) (Fin nns) ℚ)
    (Hnsp : Matrix (Fin nns) (Fin np) ℚ)
    (Vpbe : Matrix (Fin np) (Fin nbe) ℚ) (Vpns : Matrix (Fin np) (Fin nns) ℚ)
    (Vpp : Matrix (Fin np) (Fin np) ℚ)
    (Sbens : Matrix (Fin nbe) (Fin nns) ℚ) (Sbep : Matrix (Fin nbe) (Fin np) ℚ) :
    Matrix (IdxT nbe nns np) (IdxT nbe nns np) ℚ :=
  let Ibebe : Matrix (Fin nbe) (Fin nbe) ℚ := 1
  let Opbe : Matrix (Fin np) (Fin nbe) ℚ := 0
  let Obebe : Matrix (Fin nbe) (Fin nbe) ℚ := 0
  let M1 := hcat Hbebe (hcat Hbens (hcat Hbep Ibebe))
  let M2 := hcat Hnsbe (hcat Hnsns (hcat Hnsp Sbensᵀ))
  let M3 := hcat Vpbe (hcat Vpns (hcat Vpp Opbe))
  let M4 := hcat Ibebe (hcat Sbens (hcat Sbep Obebe))
  vcat M1 (vcat M2 (vcat M3 M4))

/-- The workspaces `(Hxx, Hxp, Vpx, Vpp, Mw)` as left by lines 72-148 of `decompose`. -/
def decomposeWorkspace (J : CanonicalMatrix nbe nbi nns np) :
    Matrix (IdxS nbe nbi nns) (IdxS nbe nbi nns) ℚ × Matrix (IdxS nbe nbi nns) (Fin np) ℚ ×
    Matrix (Fin np) (IdxS nbe nbi nns) ℚ × Matrix (Fin np) (Fin np) ℚ ×
    Matrix (IdxT nbe nns np) (IdxT nbe nns np) ℚ :=
  -- lines 76-79
  let Hss := J.Hss
  let Hsp := J.Hsp
  let Vps := J.Vps
  let Vpp := J.Vpp
  -- lines 81-116
  let Hbsbs := leftCols (topRows Hss)
  let Hbsns := rightCols (topRows Hss)
  let Hnsbs := leftCols (bottomRows Hss)
  let Hnsns := rightCols (bottomRows Hss)
  let Hbebe := leftCols (topRows Hbsbs)
  let Hbebi := rightCols (topRows Hbsbs)
  let Hbibe := leftCols (bottomRows Hbsbs)
  let Hbibi := rightCols (bottomRows Hbsbs)
  let Hbens := topRows Hbsns
  let Hbins := bottomRows Hbsns
  let Hnsbe := leftCols Hnsbs
  let Hnsbi := rightCols Hnsbs
  let Hbsp := topRows Hsp
  let Hnsp := bottomRows Hsp
  let Hbep := topRows Hbsp
  let Hbip := bottomRows Hbsp
  let Vpbs := leftCols Vps
  let Vpns := rightCols Vps
  let Vpbe := leftCols Vpbs
  let Vpbi := rightCols Vpbs
  let Sbsns := J.Sbsns
  let Sbsp := J.Sbsp
  let Sbens := topRows Sbsns
  let Sbins := bottomRows Sbsns
  let Sbep := topRows Sbsp
  let Sbip := bottomRows Sbsp
  -- lines 131-134
  let Hbins := Hbins - Hbibi * Sbins
  let Hbens := Hbens - Hbebi * Sbins
  let Hnsns := Hnsns - Hnsbi * Sbins
  let Vpns := Vpns - Vpbi * Sbins
  -- lines 136-139
  let Hbip := Hbip - Hbibi * Sbip
  let Hbep := Hbep - Hbebi * Sbip
  let Hnsp := Hnsp - Hnsbi * Sbip
  let Vpp := Vpp - Vpbi * Sbip
  -- lines 141-143
  let Hnsbe := Hnsbe - Sbinsᵀ * Hbibe
  let Hnsns := Hnsns - Sbinsᵀ * Hbins
  let Hnsp := Hnsp - Sbinsᵀ * Hbip
  -- lines 145-148
  let M := assembleM Hbebe Hbens Hbep Hnsbe Hnsns Hnsp Vpbe Vpns Vpp Sbens Sbep
  -- the workspaces as left by the in-place block updates
  let Hxx := vcat (hcat (vcat (hcat Hbebe Hbebi) (hcat Hbibe Hbibi)) (vcat Hbens Hbins))
                  (hcat (hcat Hnsbe Hnsbi) Hnsns)
  let Hxp := vcat (vcat Hbep Hbip) Hnsp
  let Vpx := hcat (hcat Vpbe Vpbi) Vpns
  (Hxx, Hxp, Vpx, Vpp, M)

/-- The method `LinearSolverNullspace::Impl::decompose`: lines 72-148 fill the workspaces, line 150
hands `M` to `lu.decompose` when `t = nbe + nns + np + nbe` is not zero. -/
def decompose (lu : LU (IdxT nbe nns np)) (st : Impl lu nbi)
    (J : CanonicalMatrix nbe nbi nns np) : Except String (Impl lu nbi) :=
  let w := decomposeWorkspace J
  let st1 : Impl lu nbi :=
    { st with Hxx := w.1, Hxp := w.2.1, Vpx := w.2.2.1, Vpp := w.2.2.2.1, Mw := w.2.2.2.2 }
  if nbe + nns + np + nbe ≠ 0 then
    match lu.decompose st1.Mw with
    | .ok fact => .ok { st1 with lu := fact }
    | .error e => .error e
  else .ok st1

/-- The right-hand side workspaces of `solve` after lines 207-216: `(as, ap, awbs)`. -/
def solveWorkspace {lu : LU (IdxT nbe nns np)} (st : Impl lu nbi)
    (J : CanonicalMatrix nbe nbi nns np) (a : CanonicalVector nbe nbi nns np) :
    (IdxS nbe nbi nns → ℚ) × (Fin np → ℚ) × (IdxBS nbe nbi → ℚ) :=
  let Hss := st.Hxx
  let Vps := st.Vpx
  let Hbsbs := leftCols (topRows Hss)
  let Hnsbs := leftCols (bottomRows Hss)
  let Hbebi := rightCols (topRows Hbsbs)
  let Hbibi := rightCols (bottomRows Hbsbs)
  let Hnsbi := rightCols Hnsbs
  let Vpbs := leftCols Vps
  let Vpbi := rightCols Vpbs
  let Sbins := bottomRows J.Sbsns
  -- lines 207-209
  let as := a.xs
  let ap := a.p
  let awbs := a.wbs
  let abe := head (head as)
  let abi := tail (head as)
  let ans := tail as
  let awbi := tail awbs
  -- lines 211-214
  let abi := abi - Hbibi *ᵥ awbi
  let abe := abe - Hbebi *ᵥ awbi
  let ans := ans - Hnsbi *ᵥ awbi
  let ap := ap - Vpbi *ᵥ awbi
  -- line 216
  let ans := ans - Sbinsᵀ *ᵥ abi
  (vjoin (vjoin abe abi) ans, ap, awbs)

/-- The vector `r` assembled at line 227 of `solve` (`r << abe, ans, ap, awbe`). -/
def solveRhs {lu : LU (IdxT nbe nns np)} (st : Impl lu nbi)
    (J : CanonicalMatrix nbe nbi nns np) (a : CanonicalVector nbe nbi nns np) :
    IdxT nbe nns np → ℚ :=
  let w := solveWorkspace st J a
  let as := w.1
  let ap := w.2.1
  let awbs := w.2.2
  vjoin (head (head as)) (vjoin (tail as) (vjoin ap (head awbs)))

/-- The vector `r` after lines 227-229 of `solve`: assembled and handed to `lu.solve` when
`t = nbe + nns + np + nbe` is not zero, left as it was otherwise. -/
def solveR (lu : LU (IdxT nbe nns np)) (st : Impl lu nbi)
    (J : CanonicalMatrix nbe nbi nns np) (a : CanonicalVector nbe nbi nns np) :
    IdxT nbe nns np → ℚ :=
  let r := if nbe + nns + np + nbe ≠ 0 then solveRhs st J a else st.rw
  if nbe + nns + np + nbe ≠ 0 then lu.solve st.lu r else r

/-- The method `LinearSolverNullspace::Impl::solve`: the state after the call and the output `u`. -/
def solve (lu : LU (IdxT nbe nns np)) (st : Impl lu nbi)
    (J : CanonicalMatrix nbe nbi nns np) (a : CanonicalVector nbe nbi nns np) :
    Impl lu nbi × CanonicalVector nbe nbi nns np :=
  let Hss := st.Hxx
  let Hsp := st.Hxp
  let Hbsbs := leftCols (topRows Hss)
  let Hbsns := rightCols (topRows Hss)
  let Hbibe := leftCols (bottomRows Hbsbs)
  let Hbins := bottomRows Hbsns
  let Hbsp := topRows Hsp
  let Hbip := bottomRows Hbsp
  let Sbins := bottomRows J.Sbsns
  let Sbip := bottomRows J.Sbsp
  -- lines 197-216
  let w := solveWorkspace st J a
  let as := w.1
  let ap := w.2.1
  let awbs := w.2.2
  let abi := tail (head as)
  let awbi := tail awbs
  -- lines 218-229
  let r := solveR lu st J a
  let dxbe := head r
  let dxns := head (tail r)
  let dp := head (tail (tail r))
  let dwbe := tail (tail (tail r))
  -- lines 231-235 (`dxbi` aliases `awbi`, `dwbi` aliases `abi`)
  let dxbi := awbi - Sbins *ᵥ dxns - Sbip *ᵥ dp
  let dwbi := abi - Hbibe *ᵥ dxbe - Hbins *ᵥ dxns - Hbip *ᵥ dp
  let ax := vjoin (vjoin (head (head as)) dwbi) (tail as)
  let aw := vjoin (head awbs) dxbi
  -- lines 237-239
  let u : CanonicalVector nbe nbi nns np :=
    { xs := vjoin (vjoin dxbe dxbi) dxns, p := dp, wbs := vjoin dwbe dwbi }
  ({ st with ax := ax, ap := ap, aw := aw, rw := r }, u)

/-- The full canonical system applied to `u`: the three block rows
`Hss*xs + Hsp*p + [I Sbsns]ᵀ*wbs`, `Vps*xs + Vpp*p`, `[I Sbsns]*xs + Sbsp*p`. -/
def canonicalProduct (J : CanonicalMatrix nbe nbi nns np)
    (u : CanonicalVector nbe nbi nns np) : CanonicalVector nbe nbi nns np :=
  let W : Matrix (IdxBS nbe nbi) (IdxS nbe nbi nns) ℚ := hcat 1 J.Sbsns
  { xs := J.Hss *ᵥ u.xs + J.Hsp *ᵥ u.p + Wᵀ *ᵥ u.wbs
    p := J.Vps *ᵥ u.xs + J.Vpp *ᵥ u.p
    wbs := W *ᵥ u.xs + J.Sbsp *ᵥ u.p }

/-- The constructor `Impl(nx, np, ny, nz)`: the workspaces are only resized, their
entries are represented by zeros; `lu` is default-constructed. -/
def Impl.init (lu : LU (IdxT nbe nns np)) (nbi : ℕ) : Impl lu nbi where
  ax := 0
  ap := 0
  aw := 0
  Hxx := 0
  Hxp := 0
  Vpx := 0
  Vpp := 0
  Mw := 0
  rw := 0
  lu := lu.init

end Solver

/-- An exact dense solver, by Cramer's rule: `decompose` keeps the matrix and never fails,
`solve` returns `det(M)⁻¹ • adj(M) b`, the solution of `M r = b` whenever `det M ≠ 0`. It
is one admissible value of the parameter `LU`. -/
def cramerLU (T : Type) [Fintype T] [DecidableEq T] : LU T where
  Fact := Matrix T T ℚ
  init := 0
  decompose := fun M => .ok M
  solve := fun M b => (M.det)⁻¹ • (M.adjugate *ᵥ b)

/-- Modelled from the spec: the method `LU::decompose` of `LU.hpp`, which is not among the
sources. The spec gives its failure rule for the reduced matrix: a singular matrix is
refused with `DecompositionFailed`; any other matrix is factored and kept for `solve`,
which returns the solution of `M r = b`. -/
def specLU (T : Type) [Fintype T] [DecidableEq T] : LU T where
  Fact := Matrix T T ℚ
  init := 0
  decompose := fun M => if M.det = 0 then .error "DecompositionFailed" else .ok M
  solve := fun M b => (M.det)⁻¹ • (M.adjugate *ᵥ b)

/-- A `1 × 1` block with entry `c`. -/
def cell (c : ℚ) : Matrix (Fin 1) (Fin 1) ℚ := fun _ _ => c

/-- A canonical matrix with `nbe = nbi = nns = np = 1`. Its reduced matrix is
`[[0, 0, 1, 1], [0, 0, 0, 1], [0, -1, 0, 0], [1, 1, 0, 0]]`. -/
def exampleJ : CanonicalMatrix 1 1 1 1 where
  Hss := vcat (hcat (vcat (hcat (cell 0) (cell 0)) (hcat (cell 1) (cell 0)))
                    (vcat (cell 0) (cell 1)))
              (hcat (hcat (cell 1) (cell 0)) (cell 1))
  Hsp := vcat (vcat (cell 1) (cell 1)) (cell 1)
  Vps := hcat (hcat (cell 0) (cell 1)) (cell 0)
  Vpp := cell 0
  Sbsns := vcat (cell 1) (cell 1)
  Sbsp := vcat (cell 0) (cell 0)

/-- The inverse of the reduced matrix of `exampleJ`. -/
def exampleMinv : Matrix (IdxT 1 1 1) (IdxT 1 1 1) ℚ :=
  vcat (hcat (cell 0) (hcat (cell 0) (hcat (cell 1) (cell 1))))
  (vcat (hcat (cell 0) (hcat (cell 0) (hcat (cell (-1)) (cell 0))))
  (vcat (hcat (cell 1) (hcat (cell (-1)) (hcat (cell 0) (cell 0))))
        (hcat (cell 0) (hcat (cell 1) (hcat (cell 0) (cell 0))))))

/-- A canonical right-hand side for `exampleJ`. -/
def exampleRhs : CanonicalVector 1 1 1 1 where
  xs := vjoin (vjoin (fun _ => 1) (fun _ => 2)) (fun _ => 3)
  p := fun _ => 4
  wbs := vjoin (fun _ => 5) (fun _ => 6)

/-- The solver state after `decompose` on `exampleJ`, with the Cramer solver. -/
def exampleImpl : Impl (cramerLU (IdxT 1 1 1)) 1 :=
  { Impl.init (cramerLU (IdxT 1 1 1)) 1 with
    Hxx := (decomposeWorkspace exampleJ).1
    Hxp := (decomposeWorkspace exampleJ).2.1
    Vpx := (decomposeWorkspace exampleJ).2.2.1
    Vpp := (decomposeWorkspace exampleJ).2.2.2.1
    Mw := (decomposeWorkspace exampleJ).2.2.2.2
    lu := (decomposeWorkspace exampleJ).2.2.2.2 }

section SolverRuns

variable {nbe nbi nns np : ℕ}

/-- The solver state after a run of `solve` calls with the right-hand sides `as`, in
order, all for the same canonical matrix and with no `decompose` in between. -/
def solveAll (lu : LU (IdxT nbe nns np)) (st : Impl lu nbi)
    (J : CanonicalMatrix nbe nbi nns np) (as : List (CanonicalVector nbe nbi nns np)) :
    Impl lu nbi :=
  as.foldl (fun s a => (solve lu s J a).1) st

end SolverRuns

/-- A degenerate canonical matrix with `nbe = nbi = nns = np = 1`: all blocks zero. Its
reduced matrix `[[0,0,0,1],[0,0,0,0],[0,0,0,0],[1,0,0,0]]` has two identical (zero) rows
and is singular. -/
def degenerateJ : CanonicalMatrix 1 1 1 1 where
  Hss := 0
  Hsp := 0
  Vps := 0
  Vpp := 0
  Sbsns := 0
  Sbsp := 0

/-! ## `Math/CanonicalMatrix.cpp` -/

namespace Math

/-- Modelled from the spec: the macro `Assert(condition, message, reason)` of
`Exception.hpp`, which is not among the sources. A failed condition raises an error
carrying the message; a condition that holds has no effect. -/
def Assert (condition : Bool) (message : String) : Except String Unit :=
  if condition then .ok () else .error message

/-- The dense matrix of an Eigen `PermutationMatrix` with index array `indices`: column `i`
has its `1` in row `indices[i]`. -/
def permDense {α β : Type} [DecidableEq β] (indices : α → β) : Matrix β α ℚ :=
  fun k i => if indices i = k then 1 else 0

/-- The view `triangularView<Eigen::UnitLower>()` of a square block: the strictly lower part of the
block with a unit diagonal. -/
def unitLower {r : ℕ} (B : Matrix (Fin r) (Fin r) ℚ) : Matrix (Fin r) (Fin r) ℚ :=
  fun i j => if j < i then B i j else if i = j then 1 else 0

/-- The view `triangularView<Eigen::Upper>()` of a square block: the upper part, diagonal included. -/
def upper {r : ℕ} (B : Matrix (Fin r) (Fin r) ℚ) : Matrix (Fin r) (Fin r) ℚ :=
  fun i j => if i ≤ j then B i j else 0

/-- Eigen's triangular `solve`, by its contract in exact arithmetic: the matrix `X` with
`T X = B` for a triangular `T` with non-zero diagonal, given in closed form as
`det(T)⁻¹ • adj(T) B`. -/
def triangularSolve {r : ℕ} {k : Type} (T : Matrix (Fin r) (Fin r) ℚ)
    (B : Matrix (Fin r) k ℚ) : Matrix (Fin r) k ℚ :=
  (T.det)⁻¹ • (T.adjugate * B)

/-- The result of `Eigen::FullPivLU<Matrix> lu(A)` for an `m × n` matrix, which is library
code and is taken as a parameter of `compute`. After the row and column permutations the
positions `0 .. m-1` of the rows split into the first `rank` and the remaining `m - rank`
ones, and likewise for the columns; `permutationP.indices()` maps a row of `A` to its
position and `permutationQ.indices()` maps a column position to a column of `A`. -/
structure FullPivLU (m n : ℕ) where
  rank : ℕ
  matrixLU : Matrix (Fin rank ⊕ Fin (m - rank)) (Fin rank ⊕ Fin (n - rank)) ℚ
  permutationP : Fin m → Fin rank ⊕ Fin (m - rank)
  permutationQ : Fin rank ⊕ Fin (n - rank) → Fin n

/-- The factor `L` of a rank-`r` decomposition in exact arithmetic: unit lower triangular,
with the multipliers of the `r` elimination steps in its first `r` columns. -/
def FullPivLU.matrixL {m n : ℕ} (lu : FullPivLU m n) :
    Matrix (Fin lu.rank ⊕ Fin (m - lu.rank)) (Fin lu.rank ⊕ Fin (m - lu.rank)) ℚ :=
  Matrix.fromBlocks (unitLower lu.matrixLU.toBlocks₁₁) 0 lu.matrixLU.toBlocks₂₁ 1

/-- The factor `U` of a rank-`r` decomposition in exact arithmetic: upper trapezoidal in
its first `r` rows, zero below (elimination stops when the remaining corner is zero). -/
def FullPivLU.matrixU {m n : ℕ} (lu : FullPivLU m n) :
    Matrix (Fin lu.rank ⊕ Fin (m - lu.rank)) (Fin lu.rank ⊕ Fin (n - lu.rank)) ℚ :=
  Matrix.fromBlocks (upper lu.matrixLU.toBlocks₁₁) lu.matrixLU.toBlocks₁₂ 0 0

/-- The contract of the full-pivoting LU in exact arithmetic, as the comment of `compute`
states it (`P*A*Q = L*U`): `P` and `Q` are permutations, `P*A*Q = L*U`, and the `rank`
pivots on the diagonal of `U` are not zero. -/
def FullPivLU.IsDecompositionOf {m n : ℕ} (lu : FullPivLU m n)
    (A : Matrix (Fin m) (Fin n) ℚ) : Prop :=
  Function.Bijective lu.permutationP ∧ Function.Bijective lu.permutationQ ∧
  permDense lu.permutationP * A * permDense lu.permutationQ = lu.matrixL * lu.matrixU ∧
  ∀ i : Fin lu.rank, lu.matrixLU (Sum.inl i) (Sum.inl i) ≠ 0

/-- The members of `CanonicalMatrix` for an `m × n` matrix of rank `r` (the member `m_rank`
is the index `r`): `m_R` is `r × m`, `m_Rinv` is `m × r`, `m_S` is `r × (n - r)`; the
positions of `m_Q.indices()` split into the `r` basic and the `n - r` non-basic ones. `M` is
the scratch vector used by `swap`. -/
structure CanonicalMatrix (m n r : ℕ) where
  m_S : Matrix (Fin r) (Fin (n - r)) ℚ
  m_R : Matrix (Fin r) (Fin m) ℚ
  m_Rinv : Matrix (Fin m) (Fin r) ℚ
  m_P : Fin m → Fin r ⊕ Fin (m - r)
  m_Q : Fin r ⊕ Fin (n - r) → Fin n
  M : Fin r → ℚ

namespace CanonicalMatrix

variable {m n r : ℕ}

/-- The method `CanonicalMatrix::rank`. -/
def rank (_ : CanonicalMatrix m n r) : ℕ := r

/-- The method `CanonicalMatrix::ibasic`: the first `m_rank` entries of `m_Q.indices()`. -/
def ibasic (C : CanonicalMatrix m n r) : List (Fin n) :=
  (List.finRange r).map fun i => C.m_Q (Sum.inl i)

/-- Lines 96-125 of `compute`: the members computed from the full-pivoting LU of `A`. -/
def computeMembers (lu : FullPivLU m n) : CanonicalMatrix m n lu.rank :=
  let Lbb := unitLower lu.matrixLU.toBlocks₁₁
  let Ubb := upper lu.matrixLU.toBlocks₁₁
  let Ubn := lu.matrixLU.toBlocks₁₂
  let m_P := lu.permutationP
  let m_Q := lu.permutationQ
  -- m_R = m_P; conservativeResize(r, m); two triangular solves
  let m_R : Matrix (Fin lu.rank) (Fin m) ℚ := topRows (permDense m_P)
  let m_R := triangularSolve Lbb m_R
  let m_R := triangularSolve Ubb m_R
  -- m_Rinv = m_P.transpose(); conservativeResize(m, r); two products
  let m_Rinv : Matrix (Fin m) (Fin lu.rank) ℚ := leftCols (permDense m_P)ᵀ
  let m_Rinv := m_Rinv * Lbb
  let m_Rinv := m_Rinv * Ubb
  -- m_S = Ubn; m_S = Ubb.solve(m_S)
  let m_S := Ubn
  let m_S := triangularSolve Ubb m_S
  { m_S := m_S, m_R := m_R, m_Rinv := m_Rinv, m_P := m_P, m_Q := m_Q, M := 0 }

/-- The method `CanonicalMatrix::compute`: the `Assert` on the dimensions, then the full-pivoting LU
of `A` (line 94) and the members computed from it. -/
def compute (fullPivLU : Matrix (Fin m) (Fin n) ℚ → FullPivLU m n)
    (A : Matrix (Fin m) (Fin n) ℚ) : Except String (CanonicalMatrix m n (fullPivLU A).rank) :=
  match Assert (decide (n ≥ m)) "Could not canonicalize the given matrix." with
  | .error e => .error e
  | .ok () => .ok (computeMembers (fullPivLU A))

/-- The loop `for(i = 0; i < m; ++i) if(i != ib) X.row(i) -= c(X, i) * X.row(ib)` of
`swap`, over the rows in the order of `rows`. -/
def eliminateRows {k : Type} (ib : Fin r) (c : Matrix (Fin r) k ℚ → Fin r → ℚ)
    (rows : List (Fin r)) (X : Matrix (Fin r) k ℚ) : Matrix (Fin r) k ℚ :=
  rows.foldl (fun X i => if i ≠ ib then X.updateRow i (X i - c X i • X ib) else X) X

/-- The method `CanonicalMatrix::swap`: the outcome of the call (an error when the `Assert` fails)
and the members after it. The `Assert` comes before every assignment, so an error leaves
the members as they were. -/
def swap (C : CanonicalMatrix m n r) (ib : Fin r) (inn : Fin (n - r)) :
    Except String Unit × CanonicalMatrix m n r :=
  let Q := C.m_Q
  let S := C.m_S
  let R := C.m_R
  let Rinv := C.m_Rinv
  match Assert (decide (S ib inn ≠ 0)) "Could not swap basic and non-basic components." with
  | .error e => (.error e, C)
  | .ok () =>
    let M : Fin r → ℚ := fun i => S i inn
    let aux : ℚ := 1 / S ib inn
    -- update the canonicalizer matrix R
    let R := R.updateRow ib (fun j => R ib j * aux)
    let R := eliminateRows ib (fun _ i => S i inn) (List.finRange r) R
    -- update the inverse of the canonicalizer matrix R
    let Rinv := Rinv.updateColumn ib (Rinv *ᵥ fun i => S i inn)
    -- update matrix S
    let S := S.updateRow ib (fun j => S ib j * aux)
    let S := eliminateRows ib (fun X i => X i inn) (List.finRange r) S
    let S := S.updateColumn inn (fun i => -(M i) * aux)
    let S := S.updateRow ib (Function.update (S ib) inn aux)
    -- update the permutation matrix Q
    let Q := Function.update (Function.update Q (Sum.inl ib) (Q (Sum.inr inn)))
      (Sum.inr inn) (Q (Sum.inl ib))
    (.ok (), { m_S := S, m_R := R, m_Rinv := Rinv, m_P := C.m_P, m_Q := Q, M := M })

end CanonicalMatrix

end Math

namespace Math

/-- The `1 × 2` matrix `[2 4]`. -/
def exampleA : Matrix (Fin 1) (Fin 2) ℚ := fun _ j => if j = 0 then 2 else 4

/-- The full-pivoting LU of `exampleA`: the pivot is the entry `4` of column `1`, so that
`matrixLU = [4 2]`, `P` is the identity and `Q` exchanges the two columns; the rank is 1. -/
def exampleFullPivLU (_ : Matrix (Fin 1) (Fin 2) ℚ) : FullPivLU 1 2 where
  rank := 1
  matrixLU := fun _ j => Sum.elim (fun _ => 4) (fun _ => 2) j
  permutationP := fun _ => Sum.inl 0
  permutationQ := Sum.elim (fun _ => 1) (fun _ => 0)

/-- A canonical form of `exampleA`: `R = [1/2]`, `Q` the identity, `S = [2]`, so that
`R*A*Q = [1 2]`. -/
def exampleCanonical : CanonicalMatrix 1 2 1 where
  m_S := fun _ _ => 2
  m_R := fun _ _ => 1 / 2
  m_Rinv := fun _ _ => 2
  m_P := fun _ => Sum.inl 0
  m_Q := Sum.elim (fun _ => 0) (fun _ => 1)
  M := 0

end Math

/-! ## `Core/OptimumStepper.cpp`

Vectors whose entries are addressed by variable indices read from the ordering array
(`x`, `z`, the blocks of `residual` and `solution`) are total functions on `ℕ`; the dense
matrices `A` (`m × n`) and `H` (`n × n`) are functions of a row and a column index. -/

namespace OptimumStepper

/-- The algorithm `std::partition(first, last, pred)` on the range `l`, as implemented for bidirectional
iterators: `first` skips the elements satisfying `pred`, `last` moves back over those that
do not, the two elements they stop at are exchanged, and the scan goes on between them.
Returns the rearranged range and the offset of the returned iterator. `fuel` bounds the
number of rounds; `l.length` rounds suffice. -/
def partitionAux (pred : ℕ → Bool) : ℕ → List ℕ → List ℕ × ℕ
  | 0, l => (l, 0)
  | _ + 1, [] => ([], 0)
  | fuel + 1, x :: xs =>
    if pred x then
      let r := partitionAux pred fuel xs
      (x :: r.1, r.2 + 1)
    else
      match xs.reverse.dropWhile (fun y => !pred y) with
      | [] => (x :: xs, 0)
      | y :: midRev =>
        let r := partitionAux pred fuel midRev.reverse
        (y :: r.1 ++ x :: (xs.reverse.takeWhile (fun y => !pred y)).reverse, r.2 + 1)

/-- The algorithm `std::partition` on a list: the rearranged list and the offset of the partition point. -/
def stdPartition (pred : ℕ → Bool) (l : List ℕ) : List ℕ × ℕ :=
  partitionAux pred l.length l

/-- The fields of `OptimumStructure` read by the stepper: the number of variables `n`, and
the matrix `A` with its number of rows. -/
structure OptimumStructure where
  n : ℕ
  Arows : ℕ
  A : ℕ → ℕ → ℚ

/-- The fields of `OptimumParams` read by the stepper. -/
structure OptimumParams where
  a : ℕ → ℚ
  xfixed : ℕ → ℚ
  ifixed : List ℕ

/-- The fields of `OptimumState` read by the stepper. -/
structure OptimumState where
  x : ℕ → ℚ
  y : ℕ → ℚ
  z : ℕ → ℚ

/-- The fields of `ObjectiveState` read by the stepper; an empty Hessian
(`f.hessian.size() == 0`) is `none`. -/
structure ObjectiveState where
  grad : ℕ → ℚ
  hessian : Option (ℕ → ℕ → ℚ)

/-- The field of `OptimumOptions` read by the stepper. -/
structure OptimumOptions where
  mu : ℚ

/-- The class `SaddlePointSolver`, of which only the header is among the sources: it is
taken as a parameter. `decompose` receives `{H, A, ifixed}`; `solve` receives the
right-hand side `{a, b}` and the current contents of `{dx, dy}` and yields their new
contents. -/
structure SaddlePointSolver where
  State : Type
  init : State
  canonicalize : State → (ℕ → ℕ → ℚ) → State
  decompose : State → (ℕ → ℕ → ℚ) → (ℕ → ℕ → ℚ) → List ℕ → State
  solve : State → (ℕ → ℚ) → (ℕ → ℚ) → (ℕ → ℚ) → (ℕ → ℚ) → (ℕ → ℚ) × (ℕ → ℚ)

/-- The vector `residual = [a b c]` by its three views `head(n)`, `segment(n, m)`,
`tail(n)`. -/
structure Residual where
  a : ℕ → ℚ
  b : ℕ → ℚ
  c : ℕ → ℚ

/-- The vector `solution = [dx dy dz]` by its three views `head(n)`, `segment(n, m)`,
`tail(n)`. -/
structure Solution where
  dx : ℕ → ℚ
  dy : ℕ → ℚ
  dz : ℕ → ℚ

/-- The members of `OptimumStepper::Impl`. -/
structure Impl (kktSolver : SaddlePointSolver) where
  structure_ : OptimumStructure
  options : OptimumOptions
  solution : Solution
  residual : Residual
  H : ℕ → ℕ → ℚ
  kkt : kktSolver.State
  iordering : List ℕ
  n : ℕ
  ns : ℕ
  nu : ℕ
  nx : ℕ
  nf : ℕ
  m : ℕ
  t : ℕ

variable {kktSolver : SaddlePointSolver}

/-- The view `v.head(k)` of an index array. -/
def headI (v : List ℕ) (k : ℕ) : List ℕ := v.take k

/-- The view `v.segment(i, k)` of an index array. -/
def segmentI (v : List ℕ) (i k : ℕ) : List ℕ := (v.drop i).take k

/-- The view `v.tail(k)` of an index array. -/
def tailI (v : List ℕ) (k : ℕ) : List ℕ := v.drop (v.length - k)

/-- The method `OptimumStepper::ifree`. -/
def ifree (st : Impl kktSolver) : List ℕ := headI st.iordering st.nx

/-- The method `OptimumStepper::ifixed`. -/
def ifixed (st : Impl kktSolver) : List ℕ := tailI st.iordering st.nf

/-- The method `OptimumStepper::istable`. -/
def istable (st : Impl kktSolver) : List ℕ := headI st.iordering st.ns

/-- The method `OptimumStepper::iunstable`. -/
def iunstable (st : Impl kktSolver) : List ℕ := segmentI st.iordering st.ns st.nu

/-- The assignment `M(i, j) = v` to one entry of a dense matrix. -/
def setEntry (M : ℕ → ℕ → ℚ) (i j : ℕ) (v : ℚ) : ℕ → ℕ → ℚ :=
  Function.update M i (Function.update (M i) j v)

/-- The method `OptimumStepper::Impl::decompose`. -/
def decompose (st : Impl kktSolver) (params : OptimumParams) (state : OptimumState)
    (f : ObjectiveState) : Impl kktSolver :=
  let A := st.structure_.A
  let x := state.x
  let z := state.z
  -- update the number of fixed and free variables
  let nf := params.ifixed.length
  let nx := st.n - nf
  -- partition the variables into stable and unstable sets
  let pred := fun i => decide (z i < 1)
  let part := stdPartition pred (st.iordering.take nx)
  let iordering := part.1 ++ st.iordering.drop nx
  -- update the number of stable and unstable variables
  let ns := part.2
  let nu := nx - ns
  let istable := headI iordering ns
  let ifixed := tailI iordering (nu + nf)
  -- assemble the matrix H in the KKT equation
  let H := match f.hessian with
    | some hessian => hessian
    | none => st.H
  let H := istable.foldl (fun H s => setEntry H s s (H s s + z s / x s)) H
  { st with
    nf := nf, nx := nx, iordering := iordering, ns := ns, nu := nu, H := H
    kkt := kktSolver.decompose st.kkt H A ifixed }

/-- The product `tr(A)*y` for the `m × n` matrix `A`. -/
def trMulVec (m : ℕ) (A : ℕ → ℕ → ℚ) (y : ℕ → ℚ) : ℕ → ℚ :=
  fun i => ∑ j in Finset.range m, A j i * y j

/-- The product `A*x` for the `m × n` matrix `A`. -/
def mulVecN (n : ℕ) (A : ℕ → ℕ → ℚ) (x : ℕ → ℚ) : ℕ → ℚ :=
  fun j => ∑ i in Finset.range n, A j i * x i

/-- The product `dot(A.col(u), dy)` for the `m × n` matrix `A`. -/
def dotCol (m : ℕ) (A : ℕ → ℕ → ℚ) (u : ℕ) (dy : ℕ → ℚ) : ℚ :=
  ∑ j in Finset.range m, A j u * dy j

/-- The method `OptimumStepper::Impl::solve`. -/
def solve (st : Impl kktSolver) (params : OptimumParams) (state : OptimumState)
    (f : ObjectiveState) : Impl kktSolver :=
  let A := st.structure_.A
  let x := state.x
  let y := state.y
  let z := state.z
  let H := st.H
  let dx := st.solution.dx
  let dy := st.solution.dy
  let dz := st.solution.dz
  -- lines 149-151
  let a : ℕ → ℚ := fun i => -(f.grad i - trMulVec st.m A y i - z i)
  let b : ℕ → ℚ := fun j => -(mulVecN st.n A x j - params.a j)
  let c : ℕ → ℚ := fun i => -(x i * z i - st.options.mu)
  -- the indices of the stable, unstable and fixed variables
  let ivs := headI st.iordering st.ns
  let ivu := segmentI st.iordering st.ns st.nu
  let ivf := tailI st.iordering st.nf
  -- lines 158-160
  let a := ivs.foldl (fun a s => Function.update a s (a s + c s / x s)) a
  let adz := ivu.foldl
    (fun (p : (ℕ → ℚ) × (ℕ → ℚ)) u => (Function.update p.1 u 0, Function.update p.2 u (p.1 u)))
    (a, dz)
  let a := adz.1
  let dz := adz.2
  let a := ivf.foldl (fun a f => Function.update a f (params.xfixed f)) a
  -- line 162
  let sol := kktSolver.solve st.kkt a b dx dy
  let dx := sol.1
  let dy := sol.2
  -- line 164
  let dy : ℕ → ℚ := fun j => dy j * (-1)
  -- lines 166-173
  let dz := ivs.foldl (fun dz s => Function.update dz s ((c s - z s * dx s) / x s)) dz
  let dz := ivu.foldl (fun dz u => Function.update dz u
    (-(dz u - H u u * c u / z u + dotCol st.m A u dy) / (1 + H u u * x u / z u))) dz
  let dx := ivu.foldl (fun dx u => Function.update dx u ((c u - x u * dz u) / z u)) dx
  { st with residual := { a := a, b := b, c := c }, solution := { dx := dx, dy := dy, dz := dz } }

end OptimumStepper

namespace OptimumStepper

/-- A saddle point solver that hands its right-hand side back as the solution; one
admissible value of the parameter `SaddlePointSolver`. -/
def echoSolver : SaddlePointSolver where
  State := Unit
  init := ()
  canonicalize := fun _ _ => ()
  decompose := fun _ _ _ _ => ()
  solve := fun _ a b _ _ => (a, b)

/-- A stepper state for `n = 2` variables and the single constraint `x₀ + x₁ = a`, with
barrier parameter `mu = 1`: ordering `[0, 1]`, all variables stable. -/
def exampleStepper : Impl echoSolver where
  structure_ := { n := 2, Arows := 1, A := fun _ _ => 1 }
  options := { mu := 1 }
  solution := { dx := fun _ => 0, dy := fun _ => 0, dz := fun _ => 0 }
  residual := { a := fun _ => 0, b := fun _ => 0, c := fun _ => 0 }
  H := fun _ _ => 0
  kkt := ()
  iordering := [0, 1]
  n := 2
  ns := 2
  nu := 0
  nx := 2
  nf := 0
  m := 1
  t := 5

/-- Parameters without fixed variables. -/
def exampleParams : OptimumParams where
  a := fun _ => 1
  xfixed := fun _ => 0
  ifixed := []

/-- An objective with zero gradient and identity Hessian. -/
def exampleObjective : ObjectiveState where
  grad := fun _ => 0
  hessian := some fun i j => if i = j then 1 else 0

/-- The iterate `x = (x0, 1)`, `y = 0`, `z = (z0, 0)`. -/
def exampleState (x0 z0 : ℚ) : OptimumState where
  x := fun i => if i = 0 then x0 else 1
  y := fun _ => 0
  z := fun i => if i = 0 then z0 else 0

end OptimumStepper

namespace OptimumStepper

/-- Eigen's `setLinSpaced(size, low, high)` on a vector of integers, for `low ≤ high`
(`linspaced_op` over `linspaced_op_impl` for an integer scalar): the sequence starts at
`high` when `size` is `1` and at `low` otherwise; entry `i` is `low + i * multiplier` with
the integer quotient `multiplier = (high - low) / (size - 1)`, or `low + i / divisor` when
the range `high - low + 1` is shorter than `size`. -/
def setLinSpaced (size low high : ℕ) : List ℕ :=
  -- linspaced_op: impl((num_steps==1 ? high : low), high, num_steps)
  let low := if size = 1 then high else low
  let multiplier := (high - low) / (if size ≤ 1 then 1 else size - 1)
  let divisor := (size + (high - low)) / (high - low + 1)
  let useDivisor := decide (1 < size ∧ high - low + 1 < size)
  (List.range size).map fun i => if useDivisor then low + i / divisor else low + i * multiplier

/-- The method `OptimumStepper::Impl::initialize`. The calls `resize` leave the entries of
`H`, `residual` and `solution` unspecified; they are kept as they are. -/
def initializeStepper {kktSolver : SaddlePointSolver} (st : Impl kktSolver)
    (strct : OptimumStructure) : Impl kktSolver :=
  let n := strct.n
  let m := strct.Arows
  { st with
    structure_ := strct
    kkt := kktSolver.canonicalize st.kkt strct.A
    n := n
    ns := n
    nu := 0
    nx := n
    nf := 0
    m := m
    t := 2 * n + m
    iordering := setLinSpaced n 0 n }

/-- The structure of a problem with `n` variables and the single constraint
`x₀ + x₁ + ⋯ = a`. -/
def exampleStructure (n : ℕ) : OptimumStructure where
  n := n
  Arows := 1
  A := fun _ _ => 1

/-- Parameters that declare variable `0` fixed, with the fixed value `3`. -/
def fixedParams : OptimumParams where
  a := fun _ => 1
  xfixed := fun _ => 3
  ifixed := [0]

end OptimumStepper

namespace OptimumStepper

/-- The stepper reached by `initialize` for `n = 3` variables (barrier parameter `mu = 1`):
ordering `[0, 1, 2]`, all variables stable. -/
def initialStepper : Impl echoSolver := initializeStepper exampleStepper (exampleStructure 3)

/-- The stepper reached by `initialize` for `n = 3` variables, after `decompose` with
variable `0` declared fixed, at the iterate `x = (1, 1, 1)`, `z = 0`. -/
def fixedStepper : Impl echoSolver :=
  decompose (initializeStepper exampleStepper (exampleStructure 3)) fixedParams
    (exampleState 1 0) exampleObjective

end OptimumStepper

/-! ## `ResidualFunction.cpp`: the priority weights -/

namespace ResidualFunction

/-- A `double` with its special values: a finite value (arithmetic on finite values is
exact), the two infinities, and not-a-number. -/
inductive Double where
  | fin (q : ℚ)
  | posInf
  | negInf
  | nan
  deriving DecidableEq

namespace Double

/-- Subtraction of doubles. -/
def sub : Double → Double → Double
  | fin a, fin b => fin (a - b)
  | fin _, posInf => negInf
  | fin _, negInf => posInf
  | posInf, fin _ => posInf
  | posInf, negInf => posInf
  | posInf, posInf => nan
  | negInf, fin _ => negInf
  | negInf, posInf => negInf
  | negInf, negInf => nan
  | nan, _ => nan
  | _, nan => nan

/-- The comparison `a < b` of doubles (false when either is not-a-number). -/
def lt : Double → Double → Bool
  | fin a, fin b => decide (a < b)
  | fin _, posInf => true
  | negInf, fin _ => true
  | negInf, posInf => true
  | _, _ => false

/-- The comparison `a <= b` of doubles (false when either is not-a-number). -/
def le : Double → Double → Bool
  | fin a, fin b => decide (a ≤ b)
  | fin _, posInf => true
  | negInf, fin _ => true
  | negInf, posInf => true
  | posInf, posInf => true
  | negInf, negInf => true
  | _, _ => false

/-- The coefficient-wise `min`, which is `std::min(a, b)`: `b` when `b < a`, else `a`. -/
def min (a b : Double) : Double := if lt b a then b else a

/-- The absolute value of a double. -/
def abs : Double → Double
  | fin a => fin |a|
  | posInf => posInf
  | negInf => posInf
  | nan => nan

/-- The test `isInf` of a double. -/
def isInf : Double → Bool
  | posInf => true
  | negInf => true
  | _ => false

end Double

/-- Eigen's `minCoeff()`: the visitor starts from the first coefficient and replaces the
running value by every coefficient that compares less; an empty vector fails Eigen's own
assertion and has no result. -/
def minCoeff : List Double → Option Double
  | [] => none
  | v :: vs => some (vs.foldl (fun res w => if Double.lt w res then w else res) v)

/-- The macro `assert` of `<cassert>`: the program stops when the condition is false. -/
def cAssert (condition : Bool) : Except String Unit :=
  if condition then .ok () else .error "assertion failed"

/-- The method `ResidualFunction::Impl::updateEchelonFormMatrixW`, lines 155-158: the
priority weights `wx` computed from `x`, `xlower`, `xupper` and handed to `RWQ.update`
(line 159), or the failure of the assertion of line 157; for a vector without entries
`minCoeff` has no value and the call stops in Eigen instead. -/
def updateEchelonFormMatrixW {nx : ℕ} (x xlower xupper : Fin nx → Double) :
    Except String (Fin nx → Double) :=
  -- wx = min(x - xlower, xupper - x)
  let wx : Fin nx → Double := fun i =>
    Double.min (Double.sub (x i) (xlower i)) (Double.sub (xupper i) (x i))
  -- replace wx[i]=inf by wx[i]=abs(x[i])
  let wx : Fin nx → Double := fun i => if (wx i).isInf then (x i).abs else wx i
  -- assert(wx.minCoeff() >= 0.0)
  match minCoeff (List.ofFn wx) with
  | none => .error "minCoeff: empty vector"
  | some mc =>
    match cAssert (Double.le (Double.fin 0) mc) with
    | .error e => .error e
    | .ok () =>
      -- set negative priority weights for variables on the bounds
      .ok fun i => if Double.lt (Double.fin 0) (wx i) then wx i else Double.fin (-1)

/-- An iterate with two variables: `x = (0, 1)`. -/
def exampleX : Fin 2 → Double := fun i => if i = 0 then Double.fin 0 else Double.fin 1

/-- Lower bounds: variable `0` unbounded below, variable `1` bounded by `0`. -/
def exampleLower : Fin 2 → Double := fun i => if i = 0 then Double.negInf else Double.fin 0

/-- Upper bounds: variable `0` unbounded above, variable `1` bounded by `3`. -/
def exampleUpper : Fin 2 → Double := fun i => if i = 0 then Double.posInf else Double.fin 3

/-- An iterate with one variable, at `-inf`. -/
def infiniteX : Fin 1 → Double := fun _ => Double.negInf

/-- The lower bound `-inf` of one variable. -/
def infiniteLower : Fin 1 → Double := fun _ => Double.negInf

/-- The upper bound `+inf` of one variable. -/
def infiniteUpper : Fin 1 → Double := fun _ => Double.posInf

/-- The priority weights of the example: `(-1, 1)`. -/
def exampleWeights : Fin 2 → Double := fun i => if i = 0 then Double.fin (-1) else Double.fin 1

end ResidualFunction

namespace Math

namespace CanonicalMatrix

variable {m n r : ℕ}

/-- The method `CanonicalMatrix::inonbasic`: the entries of `m_Q.indices()` from position
`m_rank` up to position `rows()`, excluded. The method `rows()` is declared in the header
`CanonicalMatrix.hpp`, which is not among the sources: its value is the parameter `rows`.
Position `m_rank + j` of the index array is its non-basic position `j`. -/
def inonbasic (C : CanonicalMatrix m n r) (rows : ℕ) : List (Fin n) :=
  ((List.finRange (n - r)).take (rows - r)).map fun j => C.m_Q (Sum.inr j)

/-- The method `CanonicalMatrix::update`: every statement of its body is commented out,
so the call has no effect on the members. -/
def update (C : CanonicalMatrix m n r) (_weights : Fin n → ℚ) : CanonicalMatrix m n r :=
  C

end CanonicalMatrix

/-- Priority weights for the two variables of `exampleA`: `-1` for variable `0`, `1` for
variable `1`. -/
def examplePriority : Fin 2 → ℚ := fun j => if j = 0 then -1 else 1

end Math

/-- The order of a square matrix: the number of its rows. -/
def order {T : Type} [Fintype T] (_ : Matrix T T ℚ) : ℕ := Fintype.card T

/-! ## `ResidualVector.cpp` -/

namespace ResidualVector

/-- The column selection `A(all, js)` of Eigen: column `k` of the result is column `js[k]`
of `A`. -/
def cols {α β γ : Type} (A : Matrix α β ℚ) (js : γ → β) : Matrix α γ ℚ :=
  fun i k => A i (js k)

/-- Modelled from the spec: the function `multiplyMatrixVectorWithoutResidualRoundOffError`
of `Utils.hpp`, which is not among the sources, taken as the plain matrix-vector
product. -/
def multiplyMatrixVectorWithoutResidualRoundOffError {α β : Type} [Fintype β]
    (A : Matrix α β ℚ) (x : β → ℚ) : α → ℚ :=
  A *ᵥ x

/-- The fields of `ResidualVectorUpdateArgs` read by `update`, those of the canonical
matrix `Mc` included (`Rbs`, `Sbsns`, `Sbsp`, `js`, `ju`, and the dimensions `nbs`, `nns`,
`nu`, `ny`, `nz` of `Mc.dims`). The rows of `Wx` and `Wp` are `[A; J]`; the stable indices
`js` list the basic variables first. -/
structure UpdateArgs (nx np ny nz nbs nns nu : ℕ) where
  Rbs : Matrix (Fin nbs) (Fin ny ⊕ Fin nz) ℚ
  Sbsns : Matrix (Fin nbs) (Fin nns) ℚ
  Sbsp : Matrix (Fin nbs) (Fin np) ℚ
  js : Fin nbs ⊕ Fin nns → Fin nx
  ju : Fin nu → Fin nx
  Wx : Matrix (Fin ny ⊕ Fin nz) (Fin nx) ℚ
  Wp : Matrix (Fin ny ⊕ Fin nz) (Fin np) ℚ
  x : Fin nx → ℚ
  p : Fin np → ℚ
  y : Fin ny → ℚ
  z : Fin nz → ℚ
  g : Fin nx → ℚ
  v : Fin np → ℚ
  b : Fin ny → ℚ
  h : Fin nz → ℚ

/-- The members of `ResidualVector::Impl` after an `update`: `asu = [as au]` and
`xsu = [xs xu]` by their views `head(ns)` and `tail(nu)`, `awstar = [head(ny) tail(nz)]`,
and `awbs` with the `nbs` entries assigned to it. -/
structure Impl (np ny nz nbs nns nu : ℕ) where
  ap : Fin np → ℚ
  asu : (Fin nbs ⊕ Fin nns) ⊕ Fin nu → ℚ
  awbs : Fin nbs → ℚ
  awstar : Fin ny ⊕ Fin nz → ℚ
  xsu : (Fin nbs ⊕ Fin nns) ⊕ Fin nu → ℚ

/-- The method `ResidualVector::Impl::update`, lines 80-117 (the size assertions of lines
59-66 hold by the types of the arguments). -/
def update {nx np ny nz nbs nns nu : ℕ} (args : UpdateArgs nx np ny nz nbs nns nu) :
    Impl np ny nz nbs nns nu :=
  let js := args.js
  let ju := args.ju
  let Ax := topRows args.Wx
  let Jx := bottomRows args.Wx
  let Jp := bottomRows args.Wp
  let As := cols Ax js
  let Au := cols Ax ju
  let Js := cols Jx js
  let Rbs := args.Rbs
  let Sbsns := args.Sbsns
  let Sbsp := args.Sbsp
  let gs : Fin nbs ⊕ Fin nns → ℚ := fun k => args.g (js k)
  -- lines 105-106
  let xs : Fin nbs ⊕ Fin nns → ℚ := fun k => args.x (js k)
  let xu : Fin nu → ℚ := fun k => args.x (ju k)
  let xbs := head xs
  let xns := tail xs
  -- lines 108-111
  let as : Fin nbs ⊕ Fin nns → ℚ := -(gs + Asᵀ *ᵥ args.y + Jsᵀ *ᵥ args.z)
  let au : Fin nu → ℚ := fun _ => 0
  let ap : Fin np → ℚ := -args.v
  -- lines 113-114
  let awstar : Fin ny ⊕ Fin nz → ℚ :=
    vjoin (args.b - Au *ᵥ xu) (Js *ᵥ xs + Jp *ᵥ args.p - args.h)
  -- lines 116-117
  let awbs := multiplyMatrixVectorWithoutResidualRoundOffError Rbs awstar
  let awbs := awbs - (xbs + Sbsns *ᵥ xns + Sbsp *ᵥ args.p)
  { ap := ap, asu := vjoin as au, awbs := awbs, awstar := awstar, xsu := vjoin xs xu }

/-- Arguments with one linear constraint `2 x₀ + 4 x₁ + 6 p = 8`, both variables stable
(`x₀` basic), `Rbs = [1/2]`, `Sbsns = [2]`, `Sbsp = [3]`, at `x = (1, 1)`, `p = 1`. -/
def exampleArgs : UpdateArgs 2 1 1 0 1 1 0 where
  Rbs := fun _ _ => 1 / 2
  Sbsns := fun _ _ => 2
  Sbsp := fun _ _ => 3
  js := Sum.elim (fun _ => 0) (fun _ => 1)
  ju := fun k => k.elim0
  Wx := fun _ j => if j = 0 then 2 else 4
  Wp := fun _ _ => 6
  x := fun _ => 1
  p := fun _ => 1
  y := fun _ => 0
  z := fun k => k.elim0
  g := fun _ => 0
  v := fun _ => 0
  b := fun _ => 8
  h := fun k => k.elim0

end ResidualVector

namespace OptimumStepper

/-- The stepper reached by `initialize` for `n = 3` variables, after `decompose` without
fixed variables at the iterate `x = (1, 1, 1)`, `z = (2, 0, 0)`: variable `0` is unstable. -/
def unstableStepper : Impl echoSolver :=
  decompose (initializeStepper exampleStepper (exampleStructure 3)) exampleParams
    (exampleState 1 2) exampleObjective

/-- An objective with zero gradient and an empty Hessian (`f.hessian.size() == 0`). -/
def emptyHessianObjective : ObjectiveState where
  grad := fun _ => 0
  hessian := none

end OptimumStepper

namespace ResidualVector

/-- The view `CanonicalVectorView` returned by `canonicalVector()`: `{as, au, ap, awbs}`. -/
structure CanonicalVectorView (np nbs nns nu : ℕ) where
  as : Fin nbs ⊕ Fin nns → ℚ
  au : Fin nu → ℚ
  ap : Fin np → ℚ
  awbs : Fin nbs → ℚ

/-- The method `ResidualVector::Impl::canonicalVector`: `as = asu.head(ns)`,
`au = asu.tail(nu)`, `ap` and `awbs`. -/
def canonicalVector {np ny nz nbs nns nu : ℕ} (st : Impl np ny nz nbs nns nu) :
    CanonicalVectorView np nbs nns nu :=
  let as := head st.asu
  let au := tail st.asu
  { as := as, au := au, ap := st.ap, awbs := st.awbs }

/-- The arguments of `update` as a caller passes them: the vectors `x`, `p`, `y`, `z`, `g`,
`v`, `b`, `h` are given by the list of their entries and have sizes of their own, which
`update` compares with the dimensions `nx`, `np`, `ny`, `nz` given at construction. The
canonical matrix `Mc` and the matrices `Wx`, `Wp` are not examined by `update`: their
dimensions are those of the types. -/
structure UncheckedUpdateArgs (nx np ny nz nbs nns nu : ℕ) where
  Rbs : Matrix (Fin nbs) (Fin ny ⊕ Fin nz) ℚ
  Sbsns : Matrix (Fin nbs) (Fin nns) ℚ
  Sbsp : Matrix (Fin nbs) (Fin np) ℚ
  js : Fin nbs ⊕ Fin nns → Fin nx
  ju : Fin nu → Fin nx
  Wx : Matrix (Fin ny ⊕ Fin nz) (Fin nx) ℚ
  Wp : Matrix (Fin ny ⊕ Fin nz) (Fin np) ℚ
  x : List ℚ
  p : List ℚ
  y : List ℚ
  z : List ℚ
  g : List ℚ
  v : List ℚ
  b : List ℚ
  h : List ℚ

/-- The vector of size `n` with the entries of `v` (read where `v.size() == n` has been
asserted). -/
def entries (n : ℕ) (v : List ℚ) : Fin n → ℚ := fun i => v.getD i 0

/-- The arguments of `update` once the size assertions have passed. -/
def UncheckedUpdateArgs.checked {nx np ny nz nbs nns nu : ℕ}
    (args : UncheckedUpdateArgs nx np ny nz nbs nns nu) : UpdateArgs nx np ny nz nbs nns nu where
  Rbs := args.Rbs
  Sbsns := args.Sbsns
  Sbsp := args.Sbsp
  js := args.js
  ju := args.ju
  Wx := args.Wx
  Wp := args.Wp
  x := entries nx args.x
  p := entries np args.p
  y := entries ny args.y
  z := entries nz args.z
  g := entries nx args.g
  v := entries np args.v
  b := entries ny args.b
  h := entries nz args.h

/-- The method `ResidualVector::Impl::update` with its assertions, lines 55-118: the eight size
assertions of lines 59-66 in their order, then the computation of lines 68-117. A failed
assertion stops the call before any member is written. -/
def updateAsserted {nx np ny nz nbs nns nu : ℕ}
    (args : UncheckedUpdateArgs nx np ny nz nbs nns nu) :
    Except String (Impl np ny nz nbs nns nu) := do
  ResidualFunction.cAssert (decide (args.x.length = nx))
  ResidualFunction.cAssert (decide (args.p.length = np))
  ResidualFunction.cAssert (decide (args.y.length = ny))
  ResidualFunction.cAssert (decide (args.z.length = nz))
  ResidualFunction.cAssert (decide (args.g.length = nx))
  ResidualFunction.cAssert (decide (args.v.length = np))
  ResidualFunction.cAssert (decide (args.b.length = ny))
  ResidualFunction.cAssert (decide (args.h.length = nz))
  pure (update args.checked)

/-- The arguments of `exampleArgs` with their vectors as lists, except that `p` is
passed with two entries instead of one when `long` is set. -/
def exampleUnchecked (long : Bool) : UncheckedUpdateArgs 2 1 1 0 1 1 0 where
  Rbs := exampleArgs.Rbs
  Sbsns := exampleArgs.Sbsns
  Sbsp := exampleArgs.Sbsp
  js := exampleArgs.js
  ju := exampleArgs.ju
  Wx := exampleArgs.Wx
  Wp := exampleArgs.Wp
  x := [1, 1]
  p := if long then [1, 1] else [1]
  y := [0]
  z := []
  g := [0, 0]
  v := [0]
  b := [8]
  h := []

end ResidualVector

/-! ## `IpSaddlePointMatrix.cpp` -/

namespace IpSaddlePointMatrix

/-- A dense matrix of Eigen with dynamic dimensions: its numbers of rows and columns and its
coefficients, addressed by a row and a column position. -/
structure Dense where
  rows : ℕ
  cols : ℕ
  coeff : ℕ → ℕ → ℚ

/-- A rectangular view into a dense matrix: the `rows × cols` entries whose top left corner
is at position `(row, col)`. -/
structure Block where
  row : ℕ
  col : ℕ
  rows : ℕ
  cols : ℕ

namespace Block

/-- The view of the whole of a `p × q` matrix. -/
def whole (p q : ℕ) : Block := ⟨0, 0, p, q⟩

/-- The view `B.topLeftCorner(p, q)`. -/
def topLeftCorner (B : Block) (p q : ℕ) : Block := ⟨B.row, B.col, p, q⟩

/-- The view `B.topRightCorner(p, q)`. -/
def topRightCorner (B : Block) (p q : ℕ) : Block := ⟨B.row, B.col + (B.cols - q), p, q⟩

/-- The view `B.bottomLeftCorner(p, q)`. -/
def bottomLeftCorner (B : Block) (p q : ℕ) : Block := ⟨B.row + (B.rows - p), B.col, p, q⟩

/-- The view `B.middleCols(start, k)`. -/
def middleCols (B : Block) (start k : ℕ) : Block := ⟨B.row, B.col + start, B.rows, k⟩

/-- The view `B.middleRows(start, k)`. -/
def middleRows (B : Block) (start k : ℕ) : Block := ⟨B.row + start, B.col, k, B.cols⟩

/-- The view `B.leftCols(k)`. -/
def leftCols (B : Block) (k : ℕ) : Block := ⟨B.row, B.col, B.rows, k⟩

/-- The view `B.rightCols(k)`. -/
def rightCols (B : Block) (k : ℕ) : Block := ⟨B.row, B.col + (B.cols - k), B.rows, k⟩

/-- The view `B.bottomRows(k)`. -/
def bottomRows (B : Block) (k : ℕ) : Block := ⟨B.row + (B.rows - k), B.col, k, B.cols⟩

end Block

/-- The coefficients of a matrix with `p` rows and `q` columns by position (zero outside). -/
def ofMatrix {p q : ℕ} (X : Matrix (Fin p) (Fin q) ℚ) : ℕ → ℕ → ℚ :=
  fun i j => if h : i < p ∧ j < q then X ⟨i, h.1⟩ ⟨j, h.2⟩ else 0

/-- The coefficients of a vector with `p` entries by position (zero outside). -/
def ofVector {p : ℕ} (d : Fin p → ℚ) : ℕ → ℚ :=
  fun i => if h : i < p then d ⟨i, h⟩ else 0

/-- The assignment `B = X` of a `p × q` matrix to a view of the same size. -/
def assign {p q : ℕ} (res : ℕ → ℕ → ℚ) (B : Block) (X : Matrix (Fin p) (Fin q) ℚ) :
    ℕ → ℕ → ℚ :=
  fun i j =>
    if (B.row ≤ i ∧ i < B.row + p) ∧ (B.col ≤ j ∧ j < B.col + q) then
      ofMatrix X (i - B.row) (j - B.col)
    else res i j

/-- The statement `B(all, jf).fill(v)`: the columns of the view listed in `jf` are set to `v`. -/
def fillCols (res : ℕ → ℕ → ℚ) (B : Block) (jf : List ℕ) (v : ℚ) : ℕ → ℕ → ℚ :=
  fun i j =>
    if (B.row ≤ i ∧ i < B.row + B.rows) ∧ (B.col ≤ j ∧ j - B.col ∈ jf) then v else res i j

/-- The statement `B(jf, all).fill(v)`: the rows of the view listed in `jf` are set to `v`. -/
def fillRows (res : ℕ → ℕ → ℚ) (B : Block) (jf : List ℕ) (v : ℚ) : ℕ → ℕ → ℚ :=
  fun i j =>
    if (B.row ≤ i ∧ i - B.row ∈ jf) ∧ (B.col ≤ j ∧ j < B.col + B.cols) then v else res i j

/-- The statement `B.diagonal().fill(v)`: the `min(rows, cols)` diagonal entries of the view are
set to `v`. -/
def fillDiagonal (res : ℕ → ℕ → ℚ) (B : Block) (v : ℚ) : ℕ → ℕ → ℚ :=
  fun i j =>
    if (B.row ≤ i ∧ i - B.row < min B.rows B.cols) ∧ j = B.col + (i - B.row) then v
    else res i j

/-- The statement `B.diagonal()(jf).fill(v)`: the diagonal entries of the view listed in `jf`
are set to `v`. -/
def fillDiagonalAt (res : ℕ → ℕ → ℚ) (B : Block) (jf : List ℕ) (v : ℚ) : ℕ → ℕ → ℚ :=
  fun i j =>
    if (B.row ≤ i ∧ i - B.row ∈ jf) ∧ j = B.col + (i - B.row) then v else res i j

/-- The assignment `B.diagonal() = d` of a vector with `p` entries to the diagonal of a view. -/
def assignDiagonal {p : ℕ} (res : ℕ → ℕ → ℚ) (B : Block) (d : Fin p → ℚ) : ℕ → ℕ → ℚ :=
  fun i j =>
    if (B.row ≤ i ∧ i - B.row < p) ∧ j = B.col + (i - B.row) then ofVector d (i - B.row)
    else res i j

/-- The argument `H` together with the value of `matrixStructure(H)`, a function of
`Utils.hpp`, which is not among the sources: a dense `n × n` matrix, a diagonal matrix given
by its diagonal `H.col(0)`, or the zero matrix. -/
inductive HessianBlock (n : ℕ) where
  | dense (H : Matrix (Fin n) (Fin n) ℚ)
  | diagonal (d : Fin n → ℚ)
  | zero

end IpSaddlePointMatrix

/-- The members of `IpSaddlePointMatrix`, for `n` variables, `mu = Au.rows()` and
`ml = Al.rows()`. -/
structure IpSaddlePointMatrix (n mu ml : ℕ) where
  H : IpSaddlePointMatrix.HessianBlock n
  Au : Matrix (Fin mu) (Fin n) ℚ
  Al : Matrix (Fin ml) (Fin n) ℚ
  Z : Fin n → ℚ
  W : Fin n → ℚ
  L : Fin n → ℚ
  U : Fin n → ℚ
  jf : List ℕ

namespace IpSaddlePointMatrix

/-- The conversion `IpSaddlePointMatrix::operator Matrix()`, statement by statement. -/
def toMatrix {n mu ml : ℕ} (M : IpSaddlePointMatrix n mu ml) : Dense :=
  let m := mu + ml
  let t := 3 * n + m
  let jf := M.jf
  let all := Block.whole t t
  let res : ℕ → ℕ → ℚ := fun _ _ => 0
  -- Block: H
  let res := match M.H with
    | .dense H => assign res (all.topLeftCorner n n) H
    | .diagonal d => assign res (all.topLeftCorner n n) (Matrix.diagonal d)
    | .zero => res
  let res := fillCols res (all.topLeftCorner n n) jf 0
  let res := fillRows res (all.topLeftCorner n n) jf 0
  let res := fillDiagonalAt res (all.topLeftCorner n n) jf 1
  let res :=
    if mu > 0 then
      -- Block: tr(Au)
      let res := assign res ((all.middleCols n m).topLeftCorner n mu) M.Auᵀ
      let res := fillRows res ((all.middleCols n m).topLeftCorner n mu) jf 0
      -- Block: Au
      assign res ((all.middleRows n m).topLeftCorner mu n) M.Au
    else res
  let res :=
    if ml > 0 then
      -- Block: tr(Al)
      let res := assign res ((all.middleCols n m).topRightCorner n ml) M.Alᵀ
      let res := fillRows res ((all.middleCols n m).topRightCorner n ml) jf 0
      -- Block: Al
      assign res ((all.middleRows n m).bottomLeftCorner ml n) M.Al
    else res
  -- Block: -I
  let res := fillDiagonal res (all.middleCols (n + m) n) (-1)
  let res := fillDiagonalAt res (all.middleCols (n + m) n) jf 0
  -- Block: -I
  let res := fillDiagonal res (all.rightCols n) (-1)
  let res := fillDiagonalAt res (all.rightCols n) jf 0
  -- Block: Z
  let res := assignDiagonal res ((all.middleRows (n + m) n).leftCols n) M.Z
  let res := fillDiagonalAt res ((all.middleRows (n + m) n).leftCols n) jf 0
  -- Block: L
  let res := assignDiagonal res ((all.middleRows (n + m) n).middleCols (n + m) n) M.L
  let res := fillDiagonalAt res ((all.middleRows (n + m) n).middleCols (n + m) n) jf 1
  -- Block: W
  let res := assignDiagonal res ((all.bottomRows n).leftCols n) M.W
  let res := fillDiagonalAt res ((all.bottomRows n).leftCols n) jf 0
  -- Block: U
  let res := assignDiagonal res ((all.bottomRows n).rightCols n) M.U
  let res := fillDiagonalAt res ((all.bottomRows n).rightCols n) jf 1
  { rows := t, cols := t, coeff := res }

/-- The index range of the converted matrix by segments: `n` variables, `mu` and `ml`
constraint rows, and twice `n` bound multipliers. -/
abbrev Idx (n mu ml : ℕ) : Type := Fin n ⊕ (Fin mu ⊕ (Fin ml ⊕ (Fin n ⊕ Fin n)))

/-- The position of the entry of a segment in the range `0 .. 3n + m - 1`, the segments
laid end to end. -/
def position {n mu ml : ℕ} : Idx n mu ml → ℕ
  | .inl i => i
  | .inr (.inl i) => n + i
  | .inr (.inr (.inl i)) => n + mu + i
  | .inr (.inr (.inr (.inl i))) => n + (mu + ml) + i
  | .inr (.inr (.inr (.inr i))) => n + (mu + ml) + n + i

/-- The block matrix of the documentation, in words: the block rows `[H, Auᵀ, Alᵀ, -I, -I]`,
`[Au, 0, 0, 0, 0]`, `[Al, 0, 0, 0, 0]`, `[diag(Z), 0, 0, diag(L), 0]` and
`[diag(W), 0, 0, 0, diag(U)]`. -/
def blockMatrix {n mu ml : ℕ} (H : Matrix (Fin n) (Fin n) ℚ) (Au : Matrix (Fin mu) (Fin n) ℚ)
    (Al : Matrix (Fin ml) (Fin n) ℚ) (Z W L U : Fin n → ℚ) :
    Matrix (Idx n mu ml) (Idx n mu ml) ℚ :=
  vcat (hcat H (hcat Auᵀ (hcat Alᵀ (hcat (-1) (-1)))))
  (vcat (hcat Au (hcat 0 (hcat 0 (hcat 0 0))))
  (vcat (hcat Al (hcat 0 (hcat 0 (hcat 0 0))))
  (vcat (hcat (Matrix.diagonal Z) (hcat 0 (hcat 0 (hcat (Matrix.diagonal L) 0))))
        (hcat (Matrix.diagonal W) (hcat 0 (hcat 0 (hcat 0 (Matrix.diagonal U))))))))

end IpSaddlePointMatrix

/-! ## `IPFilter/IPFilterSolver.cpp` -/

namespace IPFilterSolver

/-- Modelled from the spec: the constant `INF` of `Utils/Math.hpp`, which is not among the
sources, is positive infinity. A step length is a finite value `some s` or `INF`, `none`. -/
def INF : Option ℚ := none

/-- The expression `std::min(step, aux)` for a step length `step` and a finite `aux`:
`aux` when `aux < step`, else `step`. -/
def minStep : Option ℚ → ℚ → Option ℚ
  | none, aux => some aux
  | some step, aux => some (if aux < step then aux else step)

/-- The method `IPFilterSolver::CalculateLargestBoundaryStep`, for vectors with `dimx` entries. Where
`dp[i]` is zero the quotient of the source is infinite or not a number; a quotient that is
positive infinity leaves `step` as it is, as does every quotient that is not `> 0.0`, and the
quotient `0` of the model is skipped likewise. -/
def CalculateLargestBoundaryStep {dimx : ℕ} (p dp : Fin dimx → ℚ) : Option ℚ :=
  (List.finRange dimx).foldl
    (fun step i =>
      let aux := -(p i) / dp i
      if aux > 0 then minStep step aux else step)
    INF

/-- The fields `f.func`, `f.grad` of the objective result kept in a state. -/
structure ObjectiveResult (dimx : ℕ) where
  func : ℚ
  grad : Fin dimx → ℚ

/-- The fields `h.func`, `h.grad` of the constraint result kept in a state. -/
structure ConstraintResult (dimx dimy : ℕ) where
  func : Fin dimy → ℚ
  grad : Matrix (Fin dimy) (Fin dimx) ℚ

/-- The fields of `IPFilterSolver::State` read or written by the methods below. -/
structure State (dimx dimy : ℕ) where
  x : Fin dimx → ℚ
  y : Fin dimy → ℚ
  z : Fin dimx → ℚ
  f : ObjectiveResult dimx
  h : ConstraintResult dimx dimy
  mu : ℚ

/-- The method `IPFilterSolver::ResetLagrangeMultipliersZ`; `kappa_zreset` is the field of `params`
it reads. -/
def ResetLagrangeMultipliersZ {dimx dimy : ℕ} (kappa_zreset : ℚ) (state : State dimx dimy) :
    State dimx dimy :=
  let aux1 := state.mu * kappa_zreset
  let aux2 := state.mu / kappa_zreset
  { state with z := fun i => max (min (state.z i) (aux1 / state.x i)) (aux2 / state.x i) }

/-- The enumerators of the type of `options.psi`, declared in `IPFilterSolver.hpp`, which is
not among the sources: three integer values, pairwise different as the labels of one
`switch` are. An object of the enumeration type holds an integer. -/
structure PsiEnumerators where
  Objective : ℤ
  Lagrange : ℤ
  GradLagrange : ℤ
  distinct : Objective ≠ Lagrange ∧ Objective ≠ GradLagrange ∧ Lagrange ≠ GradLagrange

/-- The value `v.squaredNorm()`. -/
def squaredNorm {k : ℕ} (v : Fin k → ℚ) : ℚ := ∑ i, v i * v i

/-- The method `IPFilterSolver::CalculatePsi`: the `switch` on `options.psi` with its three
cases; `c` is the member of the solver it reads. When no case matches, control leaves the
function without a `return` statement and there is no value: `none`. -/
def CalculatePsi {dimx dimy : ℕ} (E : PsiEnumerators) (psi : ℤ) (c : ℚ)
    (state : State dimx dimy) : Option ℚ :=
  if psi = E.Objective then
    some (state.f.func + c * state.mu)
  else if psi = E.Lagrange then
    some (state.f.func + c * state.mu + state.h.func ⬝ᵥ state.y)
  else if psi = E.GradLagrange then
    some (squaredNorm (state.f.grad + state.h.gradᵀ *ᵥ state.y - state.z) + state.mu)
  else none

/-- Enumerators `0`, `1`, `2`. -/
def exampleEnumerators : PsiEnumerators where
  Objective := 0
  Lagrange := 1
  GradLagrange := 2
  distinct := by decide

/-- A state with two variables and one constraint: `x = (1, 2)`, `z = (5, 1/10)`, `mu = 1`. -/
def exampleState : State 2 1 where
  x := fun i => if i = 0 then 1 else 2
  y := fun _ => 1
  z := fun i => if i = 0 then 5 else 1 / 10
  f := { func := 3, grad := fun _ => 1 }
  h := { func := fun _ => 2, grad := fun _ _ => 1 }
  mu := 1

/-- A point `p = (1, 2)` with positive components. -/
def exampleP : Fin 2 → ℚ := fun i => if i = 0 then 1 else 2

/-- A direction `dp = (-2, 1)`. -/
def exampleDp : Fin 2 → ℚ := fun i => if i = 0 then -2 else 1

end IPFilterSolver

/-! ## `IpSaddlePointMatrix.cpp`: the vector and solution views -/

namespace IpSaddlePointMatrix

/-- The view `v.head(k)` of a vector given by the list of its entries. -/
def vhead (v : List ℚ) (k : ℕ) : List ℚ := v.take k

/-- The view `v.segment(i, k)` of a vector given by the list of its entries. -/
def vsegment (v : List ℚ) (i k : ℕ) : List ℚ := (v.drop i).take k

/-- The view `v.tail(k)` of a vector given by the list of its entries. -/
def vtail (v : List ℚ) (k : ℕ) : List ℚ := v.drop (v.length - k)

end IpSaddlePointMatrix

/-- The members of `IpSaddlePointVector`. -/
structure IpSaddlePointVector where
  a : List ℚ
  b : List ℚ
  c : List ℚ
  d : List ℚ

namespace IpSaddlePointVector

open IpSaddlePointMatrix

/-- The constructor `IpSaddlePointVector(r, n, m)`. -/
def ofVector (r : List ℚ) (n m : ℕ) : IpSaddlePointVector where
  a := vhead r n
  b := vsegment r n m
  c := vsegment r (n + m) n
  d := vtail r n

end IpSaddlePointVector

/-- The members of `IpSaddlePointSolution`: references to four vectors. -/
structure IpSaddlePointSolution where
  x : List ℚ
  y : List ℚ
  z : List ℚ
  w : List ℚ

namespace IpSaddlePointSolution

open IpSaddlePointMatrix

/-- The constructor `IpSaddlePointSolution(s, n, m)`. -/
def ofVector (s : List ℚ) (n m : ℕ) : IpSaddlePointSolution where
  x := vhead s n
  y := vsegment s n m
  z := vsegment s (n + m) n
  w := vtail s n

/-- The assignment `dst.noalias() = src` to a reference `dst`: a reference cannot be resized,
and Eigen stops the program when the sizes differ. -/
def assignRef (dst src : List ℚ) : Except String (List ℚ) :=
  if dst.length = src.length then .ok src else .error "assignment to a reference: wrong size"

/-- The assignment `IpSaddlePointSolution::operator=(vec)`. -/
def assign (sol : IpSaddlePointSolution) (vec : List ℚ) : Except String IpSaddlePointSolution := do
  let n := sol.x.length
  let m := sol.y.length
  let x ← assignRef sol.x (vhead vec n)
  let y ← assignRef sol.y (vsegment vec n m)
  let z ← assignRef sol.z (vsegment vec (n + m) n)
  let w ← assignRef sol.w (vtail vec n)
  pure { x := x, y := y, z := z, w := w }

end IpSaddlePointSolution

/-! ## `Math/BlockDiagonalMatrix.hpp` -/

namespace Math

namespace BlockDiagonalMatrix

/-- A block of the diagonal, an Eigen matrix with dynamic dimensions: its numbers of rows and
columns and its coefficients by position. -/
structure Block where
  rows : ℕ
  cols : ℕ
  coeff : ℕ → ℕ → ℚ

/-- The method `BlockDiagonalMatrix::rows`: the sum of the row counts of the blocks. -/
def rows (blocks : List Block) : ℕ := blocks.foldl (fun sum block => sum + block.rows) 0

/-- The method `BlockDiagonalMatrix::cols`: the sum of the column counts of the blocks. -/
def cols (blocks : List Block) : ℕ := blocks.foldl (fun sum block => sum + block.cols) 0

/-- The loop of `coeff` from block `iblock` on, with the offsets `irow`, `icol` reached so
far; the value returned after the loop is `0.0`. -/
def coeffLoop : List Block → ℕ → ℕ → ℕ → ℕ → ℚ
  | [], _, _, _, _ => 0
  | block :: rest, irow, icol, i, j =>
    let nrows := block.rows
    let ncols := block.cols
    if i < irow + nrows then
      if icol ≤ j ∧ j < icol + ncols then block.coeff (i - irow) (j - icol) else 0
    else coeffLoop rest (irow + nrows) (icol + ncols) i j

/-- The method `BlockDiagonalMatrix::coeff`: the assertion `eigen_assert(i < rows() && j < cols())`
and the loop over the blocks. -/
def coeff (blocks : List Block) (i j : ℕ) : Except String ℚ :=
  if i < rows blocks ∧ j < cols blocks then .ok (coeffLoop blocks 0 0 i j)
  else .error "eigen_assert: index out of range"

/-- The assignment `res.block(irow, icol, nrows, ncols) = block`. -/
def assignBlock (res : ℕ → ℕ → ℚ) (irow icol : ℕ) (block : Block) : ℕ → ℕ → ℚ :=
  fun i j =>
    if (irow ≤ i ∧ i < irow + block.rows) ∧ (icol ≤ j ∧ j < icol + block.cols) then
      block.coeff (i - irow) (j - icol)
    else res i j

/-- The loop of the conversion to `PlainObject` from block `i` on, with the offsets `irow`,
`icol` reached so far. -/
def plainLoop : List Block → ℕ → ℕ → (ℕ → ℕ → ℚ) → ℕ → ℕ → ℚ
  | [], _, _, res => res
  | block :: rest, irow, icol, res =>
    plainLoop rest (irow + block.rows) (icol + block.cols) (assignBlock res irow icol block)

/-- The conversion `BlockDiagonalMatrix::operator PlainObject()`: a matrix of `rows() × cols()`
zeros into which the blocks are written. -/
def toPlainObject (blocks : List Block) : Block :=
  let m := rows blocks
  let n := cols blocks
  { rows := m, cols := n, coeff := plainLoop blocks 0 0 (fun _ _ => 0) }

/-- The test whether position `(i, j)` lies in one of the diagonal blocks, the first of
which has its top left corner at `(irow, icol)`. -/
def inDiagonalBlock : List Block → ℕ → ℕ → ℕ → ℕ → Bool
  | [], _, _, _, _ => false
  | block :: rest, irow, icol, i, j =>
    decide ((irow ≤ i ∧ i < irow + block.rows) ∧ (icol ≤ j ∧ j < icol + block.cols)) ||
      inDiagonalBlock rest (irow + block.rows) (icol + block.cols) i j

/-- Three blocks: a `1 × 2` block `[1 2]`, a block with two rows and no column, and a
`1 × 1` block `[3]`. -/
def exampleBlocks : List Block :=
  [{ rows := 1, cols := 2, coeff := fun _ j => if j = 0 then 1 else 2 },
   { rows := 2, cols := 0, coeff := fun _ _ => 0 },
   { rows := 1, cols := 1, coeff := fun _ _ => 3 }]

end BlockDiagonalMatrix

end Math

namespace IpSaddlePointMatrix

/-- The matrix `res` of the conversion after lines 45-62: the zero matrix with the block `H`
written and the rows and columns of the fixed variables set in it. -/
def hessianStage {n mu ml : ℕ} (M : IpSaddlePointMatrix n mu ml) : ℕ → ℕ → ℚ :=
  let m := mu + ml
  let t := 3 * n + m
  let jf := M.jf
  let all := Block.whole t t
  let res : ℕ → ℕ → ℚ := fun _ _ => 0
  let res := match M.H with
    | .dense H => assign res (all.topLeftCorner n n) H
    | .diagonal d => assign res (all.topLeftCorner n n) (Matrix.diagonal d)
    | .zero => res
  let res := fillCols res (all.topLeftCorner n n) jf 0
  let res := fillRows res (all.topLeftCorner n n) jf 0
  fillDiagonalAt res (all.topLeftCorner n n) jf 1

/-- The matrix `res` of the conversion after lines 64-82: the blocks `tr(Au)`, `Au`,
`tr(Al)`, `Al` written. -/
def constraintStage {n mu ml : ℕ} (M : IpSaddlePointMatrix n mu ml) : ℕ → ℕ → ℚ :=
  let m := mu + ml
  let t := 3 * n + m
  let jf := M.jf
  let all := Block.whole t t
  let res := hessianStage M
  let res :=
    if mu > 0 then
      let res := assign res ((all.middleCols n m).topLeftCorner n mu) M.Auᵀ
      let res := fillRows res ((all.middleCols n m).topLeftCorner n mu) jf 0
      assign res ((all.middleRows n m).topLeftCorner mu n) M.Au
    else res
  if ml > 0 then
    let res := assign res ((all.middleCols n m).topRightCorner n ml) M.Alᵀ
    let res := fillRows res ((all.middleCols n m).topRightCorner n ml) jf 0
    assign res ((all.middleRows n m).bottomLeftCorner ml n) M.Al
  else res

/-- The matrix `res` of the conversion after lines 84-90: the two blocks `-I` written. -/
def identityStage {n mu ml : ℕ} (M : IpSaddlePointMatrix n mu ml) : ℕ → ℕ → ℚ :=
  let m := mu + ml
  let t := 3 * n + m
  let jf := M.jf
  let all := Block.whole t t
  let res := constraintStage M
  let res := fillDiagonal res (all.middleCols (n + m) n) (-1)
  let res := fillDiagonalAt res (all.middleCols (n + m) n) jf 0
  let res := fillDiagonal res (all.rightCols n) (-1)
  fillDiagonalAt res (all.rightCols n) jf 0

/-- The matrix `res` of the conversion after lines 92-106: the diagonal blocks `Z`, `L`,
`W`, `U` written. It is the matrix returned. -/
def boundStage {n mu ml : ℕ} (M : IpSaddlePointMatrix n mu ml) : ℕ → ℕ → ℚ :=
  let m := mu + ml
  let t := 3 * n + m
  let jf := M.jf
  let all := Block.whole t t
  let res := identityStage M
  let res := assignDiagonal res ((all.middleRows (n + m) n).leftCols n) M.Z
  let res := fillDiagonalAt res ((all.middleRows (n + m) n).leftCols n) jf 0
  let res := assignDiagonal res ((all.middleRows (n + m) n).middleCols (n + m) n) M.L
  let res := fillDiagonalAt res ((all.middleRows (n + m) n).middleCols (n + m) n) jf 1
  let res := assignDiagonal res ((all.bottomRows n).leftCols n) M.W
  let res := fillDiagonalAt res ((all.bottomRows n).leftCols n) jf 0
  let res := assignDiagonal res ((all.bottomRows n).rightCols n) M.U
  fillDiagonalAt res ((all.bottomRows n).rightCols n) jf 1

/-- A saddle point matrix with `n = 2`, `mu = ml = 1` and the fixed variable `0`. -/
def exampleFixed : IpSaddlePointMatrix 2 1 1 where
  H := .dense fun i j => 10 + 2 * (i : ℚ) + j
  Au := fun _ j => 20 + j
  Al := fun _ j => 30 + j
  Z := fun i => 40 + i
  W := fun i => 50 + i
  L := fun i => 60 + i
  U := fun i => 70 + i
  jf := [0]

end IpSaddlePointMatrix

/-! # Theorems -/

/-! ### Block algebra -/

section BlockLemmas

variable {m₁ m₂ n₁ n₂ m n : Type}

theorem vjoin_head_tail (v : m₁ ⊕ m₂ → ℚ) : vjoin (head v) (tail v) = v := by
  funext i; cases i <;> rfl

theorem vjoin_eq_iff (a c : m₁ → ℚ) (b d : m₂ → ℚ) :
    vjoin a b = vjoin c d ↔ a = c ∧ b = d := by
  constructor
  · intro h
    exact ⟨funext fun i => congrFun h (Sum.inl i), funext fun i => congrFun h (Sum.inr i)⟩
  · rintro ⟨rfl, rfl⟩; rfl

theorem vjoin_add (a c : m₁ → ℚ) (b d : m₂ → ℚ) :
    vjoin a b + vjoin c d = vjoin (a + c) (b + d) := by
  funext i; cases i <;> rfl

theorem vcat_top_bottom (A : Matrix (m₁ ⊕ m₂) n ℚ) : vcat (topRows A) (bottomRows A) = A := by
  funext i j; cases i <;> rfl

theorem hcat_left_right (A : Matrix m (n₁ ⊕ n₂) ℚ) : hcat (leftCols A) (rightCols A) = A := by
  funext i j; cases j <;> rfl

theorem vcat_mulVec [Fintype n] (A : Matrix m₁ n ℚ) (B : Matrix m₂ n ℚ) (v : n → ℚ) :
    vcat A B *ᵥ v = vjoin (A *ᵥ v) (B *ᵥ v) := by
  funext i; cases i <;> rfl

theorem hcat_mulVec [Fintype n₁] [Fintype n₂] (A : Matrix m n₁ ℚ) (B : Matrix m n₂ ℚ)
    (v : n₁ ⊕ n₂ → ℚ) : hcat A B *ᵥ v = A *ᵥ head v + B *ᵥ tail v := by
  funext i
  simp [Matrix.mulVec, Matrix.dotProduct, hcat, head, tail, Fintype.sum_sum_type]

theorem transpose_hcat (A : Matrix m n₁ ℚ) (B : Matrix m n₂ ℚ) :
    (hcat A B)ᵀ = vcat Aᵀ Bᵀ := by
  funext i j; cases i <;> rfl

theorem transpose_vcat (A : Matrix m₁ n ℚ) (B : Matrix m₂ n ℚ) :
    (vcat A B)ᵀ = hcat Aᵀ Bᵀ := by
  funext i j; cases j <;> rfl

@[simp] theorem head_vjoin (a : m₁ → ℚ) (b : m₂ → ℚ) : head (vjoin a b) = a := rfl
@[simp] theorem tail_vjoin (a : m₁ → ℚ) (b : m₂ → ℚ) : tail (vjoin a b) = b := rfl
@[simp] theorem topRows_vcat (A : Matrix m₁ n ℚ) (B : Matrix m₂ n ℚ) :
    topRows (vcat A B) = A := rfl
@[simp] theorem bottomRows_vcat (A : Matrix m₁ n ℚ) (B : Matrix m₂ n ℚ) :
    bottomRows (vcat A B) = B := rfl
@[simp] theorem leftCols_hcat (A : Matrix m n₁ ℚ) (B : Matrix m n₂ ℚ) :
    leftCols (hcat A B) = A := rfl
@[simp] theorem rightCols_hcat (A : Matrix m n₁ ℚ) (B : Matrix m n₂ ℚ) :
    rightCols (hcat A B) = B := rfl

end BlockLemmas

/-! ### The nullspace solver solves the canonical system -/

section SolverLemmas

variable {nbe nbi nns np : ℕ}

theorem canonicalVector_ext {u v : CanonicalVector nbe nbi nns np}
    (h1 : u.xs = v.xs) (h2 : u.p = v.p) (h3 : u.wbs = v.wbs) : u = v := by
  cases u; cases v; simp_all

/-- A successful `decompose` leaves the workspaces of `decomposeWorkspace` in the state. -/
theorem decompose_ok_workspace {lu : LU (IdxT nbe nns np)} {st0 st : Impl lu nbi}
    {J : CanonicalMatrix nbe nbi nns np} (h : decompose lu st0 J = .ok st) :
    st.Hxx = (decomposeWorkspace J).1 ∧ st.Hxp = (decomposeWorkspace J).2.1 ∧
    st.Vpx = (decomposeWorkspace J).2.2.1 ∧ st.Vpp = (decomposeWorkspace J).2.2.2.1 ∧
    st.Mw = (decomposeWorkspace J).2.2.2.2 := by
  unfold decompose at h
  simp only at h
  split_ifs at h with ht
  · split at h
    · injection h with h; subst h; exact ⟨rfl, rfl, rfl, rfl, rfl⟩
    · cases h
  · injection h with h; subst h; exact ⟨rfl, rfl, rfl, rfl, rfl⟩

theorem exists_vjoin {m₁ m₂ : Type} (v : m₁ ⊕ m₂ → ℚ) : ∃ a b, v = vjoin a b :=
  ⟨head v, tail v, (vjoin_head_tail v).symm⟩

theorem exists_vcat {m₁ m₂ n : Type} (A : Matrix (m₁ ⊕ m₂) n ℚ) : ∃ a b, A = vcat a b :=
  ⟨topRows A, bottomRows A, (vcat_top_bottom A).symm⟩

theorem exists_hcat {m n₁ n₂ : Type} (A : Matrix m (n₁ ⊕ n₂) ℚ) : ∃ a b, A = hcat a b :=
  ⟨leftCols A, rightCols A, (hcat_left_right A).symm⟩

/-- Under the solution hypothesis the vector `r` used by `solve` solves `M r = rhs`, also
in the case `t = 0` where `lu.solve` is not called. -/
theorem solveR_solves {lu : LU (IdxT nbe nns np)} (st : Impl lu nbi)
    (J : CanonicalMatrix nbe nbi nns np) (a : CanonicalVector nbe nbi nns np)
    (hsol : st.Mw *ᵥ lu.solve st.lu (solveRhs st J a) = solveRhs st J a) :
    st.Mw *ᵥ solveR lu st J a = solveRhs st J a := by
  by_cases ht : nbe + nns + np + nbe ≠ 0
  · simpa [solveR, ht] using hsol
  · have h0 : nbe = 0 ∧ nns = 0 ∧ np = 0 := by omega
    obtain ⟨rfl, rfl, rfl⟩ := h0
    funext i
    rcases i with i | i | i | i <;> exact i.elim0

/-- C1. For every canonical matrix `J` and canonical right-hand side `a`: if `decompose`
succeeded and `lu.solve` returns an exact solution `r` of `M r = rhs` for the reduced
matrix `M` and the reduced right-hand side assembled by `solve`, then the output `u` of
`solve` satisfies the full canonical system: `Hss*u.xs + Hsp*u.p + [I Sbsns]ᵀ*u.wbs = a.xs`,
`Vps*u.xs + Vpp*u.p = a.p` and `[I Sbsns]*u.xs + Sbsp*u.p = a.wbs`. -/
theorem solve_satisfies_canonical_system
    (lu : LU (IdxT nbe nns np)) (st0 st : Impl lu nbi)
    (J : CanonicalMatrix nbe nbi nns np) (a : CanonicalVector nbe nbi nns np)
    (hdec : decompose lu st0 J = .ok st)
    (hsol : st.Mw *ᵥ lu.solve st.lu (solveRhs st J a) = solveRhs st J a) :
    canonicalProduct J (solve lu st J a).2 = a := by
  have hr := solveR_solves st J a hsol
  obtain ⟨hxx, hxp, hvx, hvp, hM⟩ := decompose_ok_workspace hdec
  simp only [solve, canonicalProduct]
  generalize solveR lu st J a = r at hr ⊢
  simp only [solveRhs, solveWorkspace] at hr ⊢
  rw [hxx, hxp, hvx] at *
  rw [hM] at hr
  clear hxx hxp hvx hM hsol hdec
  simp only [decomposeWorkspace] at hr ⊢
  rcases J with ⟨Hss, Hsp, Vps, Vpp, Sbsns, Sbsp⟩
  rcases a with ⟨axs, ap, awbs⟩
  obtain ⟨Hbs, Hns, rfl⟩ := exists_vcat Hss
  obtain ⟨Hbsbs, Hbsns, rfl⟩ := exists_hcat Hbs
  obtain ⟨Hnsbs, Hnsns, rfl⟩ := exists_hcat Hns
  obtain ⟨Hbebs, Hbibs, rfl⟩ := exists_vcat Hbsbs
  obtain ⟨Hbebe, Hbebi, rfl⟩ := exists_hcat Hbebs
  obtain ⟨Hbibe, Hbibi, rfl⟩ := exists_hcat Hbibs
  obtain ⟨Hbens, Hbins, rfl⟩ := exists_vcat Hbsns
  obtain ⟨Hnsbe, Hnsbi, rfl⟩ := exists_hcat Hnsbs
  obtain ⟨Hbsp, Hnsp, rfl⟩ := exists_vcat Hsp
  obtain ⟨Hbep, Hbip, rfl⟩ := exists_vcat Hbsp
  obtain ⟨Vpbs, Vpns, rfl⟩ := exists_hcat Vps
  obtain ⟨Vpbe, Vpbi, rfl⟩ := exists_hcat Vpbs
  obtain ⟨Sbens, Sbins, rfl⟩ := exists_vcat Sbsns
  obtain ⟨Sbep, Sbip, rfl⟩ := exists_vcat Sbsp
  obtain ⟨abs, ans, rfl⟩ := exists_vjoin axs
  obtain ⟨abe, abi, rfl⟩ := exists_vjoin abs
  obtain ⟨awbe, awbi, rfl⟩ := exists_vjoin awbs
  obtain ⟨dxbe, r1, rfl⟩ := exists_vjoin r
  obtain ⟨dxns, r2, rfl⟩ := exists_vjoin r1
  obtain ⟨dp, dwbe, rfl⟩ := exists_vjoin r2
  simp only [assembleM, vcat_mulVec, hcat_mulVec, head_vjoin, tail_vjoin, topRows_vcat,
    bottomRows_vcat, leftCols_hcat, rightCols_hcat, vjoin_eq_iff, Matrix.one_mulVec,
    Matrix.zero_mulVec, add_zero] at hr
  obtain ⟨h1, h2, h3, h4⟩ := hr
  simp only [Matrix.sub_mulVec, Matrix.mulVec_sub, Matrix.mulVec_add,
    ← Matrix.mulVec_mulVec] at h1 h2 h3 h4
  apply canonicalVector_ext
  · simp only [vcat_mulVec, hcat_mulVec, head_vjoin, tail_vjoin, topRows_vcat,
      bottomRows_vcat, leftCols_hcat, rightCols_hcat, vjoin_eq_iff, Matrix.one_mulVec,
      transpose_hcat, transpose_vcat, vjoin_add, Matrix.transpose_one]
    simp only [Matrix.sub_mulVec, Matrix.mulVec_sub, Matrix.mulVec_add,
      ← Matrix.mulVec_mulVec]
    refine ⟨⟨?_, ?_⟩, ?_⟩
    · linear_combination h1
    · ring
    · linear_combination h2
  · simp only [hcat_mulVec, head_vjoin, tail_vjoin, topRows_vcat, bottomRows_vcat,
      leftCols_hcat, rightCols_hcat]
    simp only [Matrix.sub_mulVec, Matrix.mulVec_sub, Matrix.mulVec_add,
      ← Matrix.mulVec_mulVec]
    linear_combination h3
  · simp only [vcat_mulVec, hcat_mulVec, head_vjoin, tail_vjoin, topRows_vcat,
      bottomRows_vcat, leftCols_hcat, rightCols_hcat, vjoin_eq_iff, Matrix.one_mulVec,
      vjoin_add]
    refine ⟨?_, ?_⟩
    · linear_combination h4
    · ring

/-- Cramer's rule solves `M r = b` for every matrix with non-zero determinant. -/
theorem cramerLU_solves {T : Type} [Fintype T] [DecidableEq T] (M : Matrix T T ℚ)
    (h : M.det ≠ 0) (b : T → ℚ) : M *ᵥ (cramerLU T).solve M b = b := by
  show M *ᵥ ((M.det)⁻¹ • (M.adjugate *ᵥ b)) = b
  rw [Matrix.mulVec_smul, Matrix.mulVec_mulVec, Matrix.mul_adjugate, Matrix.smul_mulVec_assoc,
    Matrix.one_mulVec, smul_smul, inv_mul_cancel₀ h, one_smul]

theorem exampleM_mul_inv : exampleImpl.Mw * exampleMinv = 1 := by
  funext i j
  rcases i with i | i | i | i <;> rcases j with j | j | j | j <;>
    obtain rfl : i = 0 := Subsingleton.elim _ _ <;>
    obtain rfl : j = 0 := Subsingleton.elim _ _ <;>
    simp [exampleImpl, decomposeWorkspace, assembleM, exampleJ, exampleMinv, Matrix.mul_apply,
      Fintype.sum_sum_type, vcat, hcat, cell, topRows, bottomRows, leftCols, rightCols,
      Matrix.one_apply]

theorem exampleM_det_ne_zero : exampleImpl.Mw.det ≠ 0 := by
  intro h
  have := congrArg Matrix.det exampleM_mul_inv
  rw [Matrix.det_mul, h] at this
  simp at this

theorem solve_satisfies_canonical_system_witness :
    decompose (cramerLU (IdxT 1 1 1)) (Impl.init _ 1) exampleJ = .ok exampleImpl ∧
    exampleImpl.Mw *ᵥ (cramerLU (IdxT 1 1 1)).solve exampleImpl.lu
        (solveRhs exampleImpl exampleJ exampleRhs) = solveRhs exampleImpl exampleJ exampleRhs ∧
    canonicalProduct exampleJ (solve (cramerLU (IdxT 1 1 1)) exampleImpl exampleJ exampleRhs).2
      = exampleRhs :=
  ⟨rfl, cramerLU_solves _ exampleM_det_ne_zero _,
    solve_satisfies_canonical_system (cramerLU (IdxT 1 1 1)) (Impl.init _ 1) exampleImpl
      exampleJ exampleRhs rfl
      (cramerLU_solves _ exampleM_det_ne_zero _)⟩

end SolverLemmas

/-! ### `solve` leaves the decomposition alone; `decompose` has no check of its own -/

section SolverFrame

variable {nbe nbi nns np : ℕ}

theorem solve_fst_fields (lu : LU (IdxT nbe nns np)) (st : Impl lu nbi)
    (J : CanonicalMatrix nbe nbi nns np) (a : CanonicalVector nbe nbi nns np) :
    (solve lu st J a).1.Hxx = st.Hxx ∧ (solve lu st J a).1.Hxp = st.Hxp ∧
    (solve lu st J a).1.Vpx = st.Vpx ∧ (solve lu st J a).1.Vpp = st.Vpp ∧
    (solve lu st J a).1.Mw = st.Mw ∧ (solve lu st J a).1.lu = st.lu :=
  ⟨rfl, rfl, rfl, rfl, rfl, rfl⟩

/-- The output of `solve` is determined by the decomposition fields of the state: the
scratch vectors `ax`, `ap`, `aw`, `rw` of the state are not read. -/
theorem solve_snd_congr (lu : LU (IdxT nbe nns np)) (s t : Impl lu nbi)
    (J : CanonicalMatrix nbe nbi nns np) (a : CanonicalVector nbe nbi nns np)
    (hxx : s.Hxx = t.Hxx) (hxp : s.Hxp = t.Hxp) (hvx : s.Vpx = t.Vpx) (hlu : s.lu = t.lu) :
    (solve lu s J a).2 = (solve lu t J a).2 := by
  have hw : solveWorkspace s J a = solveWorkspace t J a := by
    simp only [solveWorkspace, hxx, hvx]
  have hrhs : solveRhs s J a = solveRhs t J a := by
    simp only [solveRhs, hw]
  have hr : solveR lu s J a = solveR lu t J a := by
    by_cases ht : nbe + nns + np + nbe ≠ 0
    · unfold solveR
      rw [if_pos ht, if_pos ht, if_pos ht, if_pos ht, hrhs, hlu]
    · have h0 : nbe = 0 ∧ nns = 0 ∧ np = 0 := by omega
      obtain ⟨rfl, rfl, rfl⟩ := h0
      funext i
      rcases i with i | i | i | i <;> exact i.elim0
  simp only [solve, hw, hr, hxx, hxp]

theorem solveAll_fields (lu : LU (IdxT nbe nns np)) (J : CanonicalMatrix nbe nbi nns np)
    (as : List (CanonicalVector nbe nbi nns np)) (st : Impl lu nbi) :
    (solveAll lu st J as).Hxx = st.Hxx ∧ (solveAll lu st J as).Hxp = st.Hxp ∧
    (solveAll lu st J as).Vpx = st.Vpx ∧ (solveAll lu st J as).Vpp = st.Vpp ∧
    (solveAll lu st J as).Mw = st.Mw ∧ (solveAll lu st J as).lu = st.lu := by
  induction as generalizing st with
  | nil => exact ⟨rfl, rfl, rfl, rfl, rfl, rfl⟩
  | cons a as ih =>
    have h := ih (solve lu st J a).1
    simpa [solveAll] using h

/-- C7. `solve` does not modify the stored decomposition: after any run of `solve` calls
the workspaces `Hxx`, `Hxp`, `Vpx`, `Vpp`, `Mw` and the factorisation are those left by
`decompose`, and a further `solve` with right-hand side `a` returns what it would have
returned if called first. -/
theorem solve_preserves_decomposition (lu : LU (IdxT nbe nns np)) (st : Impl lu nbi)
    (J : CanonicalMatrix nbe nbi nns np) (as : List (CanonicalVector nbe nbi nns np))
    (a : CanonicalVector nbe nbi nns np) :
    (solveAll lu st J as).Hxx = st.Hxx ∧ (solveAll lu st J as).Hxp = st.Hxp ∧
    (solveAll lu st J as).Vpx = st.Vpx ∧ (solveAll lu st J as).Vpp = st.Vpp ∧
    (solveAll lu st J as).Mw = st.Mw ∧ (solveAll lu st J as).lu = st.lu ∧
    (solve lu (solveAll lu st J as) J a).2 = (solve lu st J a).2 := by
  obtain ⟨h1, h2, h3, h4, h5, h6⟩ := solveAll_fields lu J as st
  exact ⟨h1, h2, h3, h4, h5, h6, solve_snd_congr lu _ _ J a h1 h2 h3 h6⟩

/-- The method `decompose` has no singularity test of its own: it
fails exactly when `t = nbe + nns + np + nbe` is not zero and `lu.decompose` fails on the
assembled matrix `M`, and then with the error of `lu.decompose`. -/
theorem decompose_error_iff (lu : LU (IdxT nbe nns np)) (st : Impl lu nbi)
    (J : CanonicalMatrix nbe nbi nns np) (e : String) :
    decompose lu st J = .error e ↔
      (nbe + nns + np + nbe ≠ 0 ∧ lu.decompose (decomposeWorkspace J).2.2.2.2 = .error e) := by
  unfold decompose
  simp only
  split_ifs with ht
  · cases h : lu.decompose (decomposeWorkspace J).2.2.2.2 with
    | ok f =>
      constructor
      · intro h2; cases h2
      · rintro ⟨_, h2⟩; cases h2
    | error e2 =>
      constructor
      · intro h2
        injection h2 with h2
        exact ⟨ht, by rw [h2]⟩
      · rintro ⟨_, h2⟩
        injection h2 with h2
        show Except.error e2 = Except.error e
        rw [h2]
  · constructor
    · intro h2; cases h2
    · rintro ⟨h2, _⟩; exact absurd h2 ht

end SolverFrame

theorem degenerateJ_reduced_det :
    (decomposeWorkspace degenerateJ).2.2.2.2.det = 0 := by
  apply Matrix.det_eq_zero_of_row_eq_zero (Sum.inr (Sum.inl 0))
  intro j
  rcases j with j | j | j | j <;>
    simp [decomposeWorkspace, assembleM, degenerateJ, vcat, hcat, topRows, bottomRows,
      leftCols, rightCols, Matrix.mul_apply, Matrix.sub_apply]

/-- C6. With the dense solver as the spec describes it (a singular matrix is refused with
`DecompositionFailed`), `decompose` reports `DecompositionFailed` whenever the reduced
matrix `M` it assembles is singular, and does not complete normally. -/
theorem decompose_singular_fails {nbe nbi nns np : ℕ}
    (st : Impl (specLU (IdxT nbe nns np)) nbi) (J : CanonicalMatrix nbe nbi nns np)
    (hs : (decomposeWorkspace J).2.2.2.2.det = 0) :
    decompose (specLU (IdxT nbe nns np)) st J = .error "DecompositionFailed" ∧
    ∀ st1, decompose (specLU (IdxT nbe nns np)) st J ≠ .ok st1 := by
  have ht : nbe + nns + np + nbe ≠ 0 := by
    intro h0
    have h1 : nbe = 0 := by omega
    have h2 : nns = 0 := by omega
    have h3 : np = 0 := by omega
    subst h1 h2 h3
    have he : IsEmpty (IdxT 0 0 0) := by
      unfold IdxT
      infer_instance
    rw [Matrix.det_isEmpty] at hs
    exact one_ne_zero hs
  have h : decompose (specLU (IdxT nbe nns np)) st J = .error "DecompositionFailed" := by
    unfold decompose
    simp only [ht, ne_eq, not_false_eq_true, if_true]
    simp only [specLU, hs, if_true]
  refine ⟨h, ?_⟩
  intro st1 h2
  rw [h] at h2
  cases h2

theorem decompose_singular_fails_witness :
    (decomposeWorkspace degenerateJ).2.2.2.2.det = 0 ∧
    decompose (specLU (IdxT 1 1 1)) (Impl.init _ 1) degenerateJ =
      .error "DecompositionFailed" :=
  ⟨degenerateJ_reduced_det,
    (decompose_singular_fails (Impl.init _ 1) degenerateJ degenerateJ_reduced_det).1⟩

/-! ### `CanonicalMatrix::swap` -/

namespace Math

namespace CanonicalMatrix

variable {m n r : ℕ}

theorem eliminateRows_apply {k : Type} (ib : Fin r)
    (c : Matrix (Fin r) k ℚ → Fin r → ℚ)
    (hc : ∀ (X Y : Matrix (Fin r) k ℚ) (i : Fin r), X i = Y i → c X i = c Y i)
    (rows : List (Fin r)) (hrows : rows.Nodup) (X : Matrix (Fin r) k ℚ) (x : Fin r) :
    eliminateRows ib c rows X x =
      if x ∈ rows ∧ x ≠ ib then X x - c X x • X ib else X x := by
  induction rows generalizing X with
  | nil => simp [eliminateRows]
  | cons i rows ih =>
    have hnd := List.nodup_cons.mp hrows
    have hstep : eliminateRows ib c (i :: rows) X =
        eliminateRows ib c rows (if i ≠ ib then X.updateRow i (X i - c X i • X ib) else X) := by
      simp [eliminateRows]
    rw [hstep, ih hnd.2]
    by_cases hi : i = ib
    · subst hi
      simp only [ne_eq, not_true_eq_false, if_false, List.mem_cons]
      by_cases hx : x = i
      · simp [hx]
      · simp [hx]
    · simp only [ne_eq, hi, not_false_eq_true, if_true, List.mem_cons]
      have hib : (X.updateRow i (X i - c X i • X ib)) ib = X ib := by
        funext j
        rw [Matrix.updateRow_ne (Ne.symm hi)]
      by_cases hx : x = i
      · subst hx
        have : (X.updateRow x (X x - c X x • X ib)) x = X x - c X x • X ib := by
          funext j; simp
        simp [hnd.1, hi, this]
      · have hxr : (X.updateRow i (X i - c X i • X ib)) x = X x := by
          funext j
          rw [Matrix.updateRow_ne hx]
        rw [hxr, hib, hc _ X x hxr]
        simp [hx]

end CanonicalMatrix

end Math

namespace Math

namespace CanonicalMatrix

variable {m n r : ℕ}

/-- The members after a `swap` whose pivot is not zero, entry by entry. -/
theorem swap_of_pivot_ne_zero (C : CanonicalMatrix m n r) (ib : Fin r) (inn : Fin (n - r))
    (hp : C.m_S ib inn ≠ 0) :
    (swap C ib inn).1 = .ok () ∧
    (∀ i j, (swap C ib inn).2.m_R i j =
      if i = ib then C.m_R ib j * (1 / C.m_S ib inn)
      else C.m_R i j - C.m_S i inn * (C.m_R ib j * (1 / C.m_S ib inn))) ∧
    (∀ i j, (swap C ib inn).2.m_S i j =
      if i = ib then (if j = inn then 1 / C.m_S ib inn else C.m_S ib j * (1 / C.m_S ib inn))
      else if j = inn then -(C.m_S i inn) * (1 / C.m_S ib inn)
      else C.m_S i j - C.m_S i inn * (C.m_S ib j * (1 / C.m_S ib inn))) ∧
    (swap C ib inn).2.m_Q = Function.update (Function.update C.m_Q (Sum.inl ib)
      (C.m_Q (Sum.inr inn))) (Sum.inr inn) (C.m_Q (Sum.inl ib)) := by
  have hA : Assert (decide (C.m_S ib inn ≠ 0))
      "Could not swap basic and non-basic components." = .ok () := by
    simp [Assert, hp]
  refine ⟨?_, ?_, ?_, ?_⟩
  · simp only [swap, hA]
  · intro i j
    simp only [swap, hA]
    rw [eliminateRows_apply ib (fun _ i => C.m_S i inn) (fun _ _ _ _ => rfl) _
      (List.nodup_finRange r)]
    by_cases hi : i = ib
    · subst hi; simp
    · simp [hi, Matrix.updateRow_ne hi]
  · intro i j
    simp only [swap, hA]
    by_cases hi : i = ib
    · subst hi
      by_cases hj : j = inn
      · subst hj; simp
      · simp [hj, eliminateRows_apply i _ (fun X Y x h => congrFun h inn) _
          (List.nodup_finRange r)]
    · by_cases hj : j = inn
      · subst hj; simp [hi, Matrix.updateRow_ne hi]
      · rw [Matrix.updateRow_ne hi, Matrix.updateColumn_ne hj,
          eliminateRows_apply ib _ (fun X Y x h => congrFun h inn) _ (List.nodup_finRange r)]
        simp [hi, hj, Matrix.updateRow_ne hi]
  · simp only [swap, hA]

end CanonicalMatrix

end Math

namespace Math

theorem mul_permDense_apply {α β : Type} {n : ℕ} (B : Matrix α (Fin n) ℚ) (q : β → Fin n)
    (i : α) (j : β) : (B * permDense q) i j = B i (q j) := by
  simp [Matrix.mul_apply, permDense]

namespace CanonicalMatrix

variable {m n r : ℕ}

/-- C3. `swap` preserves the canonical identity: from `R*A*Q = [I S]` and a non-zero pivot
`S(ib, in)`, the call succeeds, the updated `R`, `S`, `Q` satisfy `R*A*Q = [I S]` again,
and `Q` has exchanged the variables at basic position `ib` and non-basic position `in`
(all other positions keep their variable). -/
theorem swap_preserves_canonical_form (C : CanonicalMatrix m n r)
    (A : Matrix (Fin m) (Fin n) ℚ) (ib : Fin r) (inn : Fin (n - r))
    (hcan : C.m_R * A * permDense C.m_Q = hcat 1 C.m_S) (hp : C.m_S ib inn ≠ 0) :
    (swap C ib inn).1 = .ok () ∧
    (swap C ib inn).2.m_R * A * permDense (swap C ib inn).2.m_Q
      = hcat 1 (swap C ib inn).2.m_S ∧
    (swap C ib inn).2.m_Q (Sum.inl ib) = C.m_Q (Sum.inr inn) ∧
    (swap C ib inn).2.m_Q (Sum.inr inn) = C.m_Q (Sum.inl ib) ∧
    ∀ k, k ≠ Sum.inl ib → k ≠ Sum.inr inn → (swap C ib inn).2.m_Q k = C.m_Q k := by
  obtain ⟨hok, hR, hS, hQ⟩ := swap_of_pivot_ne_zero C ib inn hp
  have hC : ∀ i k, (C.m_R * A) i (C.m_Q k) = hcat 1 C.m_S i k := by
    intro i k
    rw [← hcan, mul_permDense_apply]
  have hRA : ∀ i v, ((swap C ib inn).2.m_R * A) i v =
      if i = ib then (C.m_R * A) ib v * (1 / C.m_S ib inn)
      else (C.m_R * A) i v - C.m_S i inn * ((C.m_R * A) ib v * (1 / C.m_S ib inn)) := by
    intro i v
    simp only [Matrix.mul_apply, hR]
    by_cases hi : i = ib
    · simp only [hi, if_true, Finset.sum_mul]
      exact Finset.sum_congr rfl fun k _ => by ring
    · simp only [hi, if_false, Finset.mul_sum, Finset.sum_mul, ← Finset.sum_sub_distrib]
      exact Finset.sum_congr rfl fun k _ => by ring
  refine ⟨hok, ?_, ?_, ?_, ?_⟩
  · funext i j
    rw [mul_permDense_apply, hRA, hQ]
    rcases j with j | j
    · by_cases hj : j = ib
      · subst hj
        rw [Function.update_noteq (by simp), Function.update_same, hC, hC]
        by_cases hi : i = j
        · subst hi
          simp [hcat, hS, hp]
        · simp [hcat, hS, hi, Matrix.one_apply]
          field_simp
      · have hne : (Sum.inl j : Fin r ⊕ Fin (n - r)) ≠ Sum.inl ib := by simpa using hj
        rw [Function.update_noteq (by simp), Function.update_noteq hne, hC, hC]
        by_cases hi : i = ib
        · subst hi
          simp [hcat, Matrix.one_apply, Ne.symm hj]
        · simp [hcat, Matrix.one_apply, hi, Ne.symm hj]
    · by_cases hj : j = inn
      · subst hj
        rw [Function.update_same, hC, hC]
        by_cases hi : i = ib
        · subst hi
          simp [hcat, hS]
        · simp [hcat, hS, hi, Matrix.one_apply]
      · have hne : (Sum.inr j : Fin r ⊕ Fin (n - r)) ≠ Sum.inr inn := by simpa using hj
        rw [Function.update_noteq hne, Function.update_noteq (by simp), hC, hC]
        by_cases hi : i = ib
        · subst hi
          simp [hcat, hS, hj]
        · simp [hcat, hS, hi, hj]
  · rw [hQ, Function.update_noteq (by simp), Function.update_same]
  · rw [hQ, Function.update_same]
  · intro k hk1 hk2
    rw [hQ, Function.update_noteq hk2, Function.update_noteq hk1]

/-- C4. `swap(ib, in)` fails with an error if and only if the pivot `S(ib, in)` is zero,
and when it fails the members (`R`, `Rinv`, `S`, `Q`) are left unchanged. -/
theorem swap_fails_iff_zero_pivot (C : CanonicalMatrix m n r) (ib : Fin r)
    (inn : Fin (n - r)) :
    ((∃ e, (swap C ib inn).1 = .error e) ↔ C.m_S ib inn = 0) ∧
    ((∃ e, (swap C ib inn).1 = .error e) → (swap C ib inn).2 = C) := by
  by_cases hp : C.m_S ib inn = 0
  · have hA : Assert (decide (C.m_S ib inn ≠ 0))
        "Could not swap basic and non-basic components." =
        .error "Could not swap basic and non-basic components." := by
      simp [Assert, hp]
    have h1 : (swap C ib inn).1 = .error "Could not swap basic and non-basic components." := by
      simp only [swap, hA]
    have h2 : (swap C ib inn).2 = C := by
      simp only [swap, hA]
    exact ⟨⟨fun _ => hp, fun _ => ⟨_, h1⟩⟩, fun _ => h2⟩
  · have hok := (swap_of_pivot_ne_zero C ib inn hp).1
    refine ⟨⟨?_, fun h => absurd h hp⟩, ?_⟩
    · rintro ⟨e, he⟩
      rw [hok] at he
      cases he
    · rintro ⟨e, he⟩
      rw [hok] at he
      cases he

end CanonicalMatrix

end Math

/-! ### `CanonicalMatrix::compute` -/

namespace Math

theorem det_unitLower {r : ℕ} (B : Matrix (Fin r) (Fin r) ℚ) : (unitLower B).det = 1 := by
  rw [Matrix.det_of_lowerTriangular]
  · simp [unitLower]
  · intro i j hij
    have hlt : i < j := hij
    have h1 : ¬ j < i := not_lt.mpr hlt.le
    have h2 : i ≠ j := ne_of_lt hlt
    simp [unitLower, h1, h2]

theorem det_upper {r : ℕ} (B : Matrix (Fin r) (Fin r) ℚ) : (upper B).det = ∏ i, B i i := by
  rw [Matrix.det_of_upperTriangular]
  · simp [upper]
  · intro i j hij
    have hlt : j < i := hij
    simp [upper, not_le.mpr hlt]

/-- The triangular solve inverts a left factor with non-zero determinant. -/
theorem triangularSolve_mul {r : ℕ} {k : Type} (T : Matrix (Fin r) (Fin r) ℚ)
    (B : Matrix (Fin r) k ℚ) (hT : T.det ≠ 0) : triangularSolve T (T * B) = B := by
  unfold triangularSolve
  rw [← Matrix.mul_assoc, Matrix.adjugate_mul, Matrix.smul_mul, Matrix.one_mul, smul_smul,
    inv_mul_cancel₀ hT, one_smul]

theorem triangularSolve_mul_right {r : ℕ} {k l : Type} [Fintype k]
    (T : Matrix (Fin r) (Fin r) ℚ) (B : Matrix (Fin r) k ℚ) (D : Matrix k l ℚ) :
    triangularSolve T B * D = triangularSolve T (B * D) := by
  unfold triangularSolve
  rw [Matrix.smul_mul, Matrix.mul_assoc]

theorem permDense_transpose_mul_self {α β : Type} [Fintype β] [DecidableEq α]
    [DecidableEq β] (p : α → β) (hp : Function.Injective p) :
    (permDense p)ᵀ * permDense p = 1 := by
  funext i j
  simp only [Matrix.mul_apply, Matrix.transpose_apply, permDense, Matrix.one_apply]
  by_cases hij : i = j
  · subst hij
    simp
  · have : ∀ k, (if p i = k then (1 : ℚ) else 0) * (if p j = k then 1 else 0) = 0 := by
      intro k
      by_cases h1 : p i = k
      · have h2 : p j ≠ k := fun h => hij (hp (h1.trans h.symm))
        simp [h2]
      · simp [h1]
    simp [this, hij]

theorem permDense_mul_transpose_self {α β : Type} [Fintype α] [DecidableEq α]
    [DecidableEq β] (q : α → β) (hq : Function.Bijective q) :
    permDense q * (permDense q)ᵀ = 1 := by
  funext v w
  simp only [Matrix.mul_apply, Matrix.transpose_apply, permDense, Matrix.one_apply]
  obtain ⟨j0, rfl⟩ := hq.2 v
  by_cases hvw : q j0 = w
  · subst hvw
    rw [Finset.sum_eq_single j0]
    · simp
    · intro j _ hj
      have : q j ≠ q j0 := fun h => hj (hq.1 h)
      simp [this]
    · simp
  · have : ∀ j, (if q j = q j0 then (1 : ℚ) else 0) * (if q j = w then 1 else 0) = 0 := by
      intro j
      by_cases h1 : q j = q j0
      · have h2 : q j ≠ w := fun h => hvw (h1.symm.trans h)
        simp [h2]
      · simp [h1]
    simp [this, hvw]

end Math

namespace Math

theorem triangularSolve_hcat {r : ℕ} {k l : Type} (T : Matrix (Fin r) (Fin r) ℚ)
    (B : Matrix (Fin r) k ℚ) (D : Matrix (Fin r) l ℚ) :
    triangularSolve T (hcat B D) = hcat (triangularSolve T B) (triangularSolve T D) := by
  funext i j
  cases j <;> simp [triangularSolve, hcat, Matrix.mul_apply]

theorem triangularSolve_self {r : ℕ} (T : Matrix (Fin r) (Fin r) ℚ) (hT : T.det ≠ 0) :
    triangularSolve T T = 1 := by
  have h := triangularSolve_mul T (1 : Matrix (Fin r) (Fin r) ℚ) hT
  rwa [Matrix.mul_one] at h

theorem FullPivLU.topRows_matrixL_mul_matrixU {m n : ℕ} (lu : FullPivLU m n) :
    topRows (lu.matrixL * lu.matrixU) =
      unitLower lu.matrixLU.toBlocks₁₁ *
        hcat (upper lu.matrixLU.toBlocks₁₁) lu.matrixLU.toBlocks₁₂ := by
  funext i j
  cases j <;>
    simp [FullPivLU.matrixL, FullPivLU.matrixU, Matrix.mul_apply, Fintype.sum_sum_type, hcat,
      topRows]

theorem FullPivLU.rank_matrixU_le {m n : ℕ} (lu : FullPivLU m n) :
    lu.matrixU.rank ≤ lu.rank := by
  have hU : lu.matrixU =
      (vcat 1 0 : Matrix (Fin lu.rank ⊕ Fin (m - lu.rank)) (Fin lu.rank) ℚ) *
        hcat (upper lu.matrixLU.toBlocks₁₁) lu.matrixLU.toBlocks₁₂ := by
    funext i j
    cases i <;> cases j <;>
      simp [FullPivLU.matrixU, Matrix.mul_apply, vcat, hcat, Matrix.one_apply]
  rw [hU]
  refine (Matrix.rank_mul_le_left _ _).trans ?_
  refine (Matrix.rank_le_card_width _).trans ?_
  simp

/-- A matrix with a full-pivoting LU decomposition of rank `r` has rank at most `r`. -/
theorem FullPivLU.rank_le {m n : ℕ} (lu : FullPivLU m n) (A : Matrix (Fin m) (Fin n) ℚ)
    (hlu : lu.IsDecompositionOf A) : A.rank ≤ lu.rank := by
  obtain ⟨hP, hQ, hLU, _⟩ := hlu
  have hA : A = (permDense lu.permutationP)ᵀ * (lu.matrixL * lu.matrixU) *
      (permDense lu.permutationQ)ᵀ := by
    rw [← hLU]
    calc A = ((permDense lu.permutationP)ᵀ * permDense lu.permutationP) * A *
          (permDense lu.permutationQ * (permDense lu.permutationQ)ᵀ) := by
            rw [permDense_transpose_mul_self _ hP.1, permDense_mul_transpose_self _ hQ,
              Matrix.one_mul, Matrix.mul_one]
      _ = _ := by simp only [Matrix.mul_assoc]
  rw [hA]
  refine (Matrix.rank_mul_le_left _ _).trans ?_
  refine (Matrix.rank_mul_le_right _ _).trans ?_
  refine (Matrix.rank_mul_le_right _ _).trans ?_
  exact lu.rank_matrixU_le

namespace CanonicalMatrix

variable {m n : ℕ}

/-- C2. For an `m × n` matrix `A` with `m ≤ n` and a full-pivoting LU of `A` of rank `r`
(`P*A*Q = L*U` in exact arithmetic, non-zero pivots), `compute` succeeds and the stored
`R` (`r × m`), `S` (`r × (n - r)`) and column permutation `Q` satisfy `R*A*Q = [I_r S]`;
when `A` has full row rank the reported rank is `m`. -/
theorem compute_canonical_form (fullPivLU : Matrix (Fin m) (Fin n) ℚ → FullPivLU m n)
    (A : Matrix (Fin m) (Fin n) ℚ) (hmn : m ≤ n)
    (hlu : (fullPivLU A).IsDecompositionOf A) :
    ∃ C, compute fullPivLU A = .ok C ∧
      C.m_R * A * permDense C.m_Q = hcat 1 C.m_S ∧
      (A.rank = m → C.rank = m) := by
  have hA : Assert (decide (n ≥ m)) "Could not canonicalize the given matrix." = .ok () := by
    simp [Assert, hmn]
  refine ⟨computeMembers (fullPivLU A), by simp only [compute, hA], ?_, ?_⟩
  · obtain ⟨hP, hQ, hLU, hpiv⟩ := hlu
    have hdetL : (unitLower (fullPivLU A).matrixLU.toBlocks₁₁).det ≠ 0 := by
      rw [det_unitLower]; exact one_ne_zero
    have hdetU : (upper (fullPivLU A).matrixLU.toBlocks₁₁).det ≠ 0 := by
      rw [det_upper]
      exact Finset.prod_ne_zero_iff.mpr fun i _ => hpiv i
    have htop : topRows (permDense (fullPivLU A).permutationP) * A *
        permDense (fullPivLU A).permutationQ =
        unitLower (fullPivLU A).matrixLU.toBlocks₁₁ *
          hcat (upper (fullPivLU A).matrixLU.toBlocks₁₁) (fullPivLU A).matrixLU.toBlocks₁₂ := by
      rw [← FullPivLU.topRows_matrixL_mul_matrixU, ← hLU]
      funext i j
      simp only [Matrix.mul_apply, topRows]
    simp only [computeMembers]
    rw [Matrix.mul_assoc, triangularSolve_mul_right, triangularSolve_mul_right,
      ← Matrix.mul_assoc, htop, triangularSolve_mul _ _ hdetL, triangularSolve_hcat,
      triangularSolve_self _ hdetU]
  · intro hfull
    have h1 : A.rank ≤ (fullPivLU A).rank := (fullPivLU A).rank_le A hlu
    rw [hfull] at h1
    have h2 : Fintype.card (Fin m) =
        Fintype.card (Fin (fullPivLU A).rank ⊕ Fin (m - (fullPivLU A).rank)) :=
      Fintype.card_of_bijective hlu.1
    simp only [Fintype.card_fin, Fintype.card_sum] at h2
    show (fullPivLU A).rank = m
    omega

end CanonicalMatrix

end Math

namespace Math

theorem exampleFullPivLU_isDecomposition :
    (exampleFullPivLU exampleA).IsDecompositionOf exampleA := by
  refine ⟨by decide, by decide, ?_, ?_⟩
  · funext i j
    rcases i with i | i
    · revert i
      intro (i : Fin 1)
      obtain rfl : i = 0 := Subsingleton.elim _ _
      rcases j with j | j <;>
        simp [permDense, exampleFullPivLU, exampleA, Matrix.mul_apply, Fin.sum_univ_two,
          FullPivLU.matrixL, FullPivLU.matrixU, Fintype.sum_sum_type, unitLower, upper,
          Matrix.fromBlocks, Matrix.toBlocks₁₁, Matrix.toBlocks₁₂]
    · exact i.elim0
  · intro i
    simp [exampleFullPivLU]

namespace CanonicalMatrix

theorem exampleA_rank : exampleA.rank = 1 := by
  apply le_antisymm
  · exact (Matrix.rank_le_card_height _).trans (by simp)
  · have h : exampleA * (Matrix.of fun j _ => if j = 0 then 1 / 2 else 0 :
        Matrix (Fin 2) (Fin 1) ℚ) = 1 := by
      funext i j
      simp [exampleA, Matrix.mul_apply, Fin.sum_univ_two, Matrix.one_apply,
        Subsingleton.elim i j]
    have h2 := Matrix.rank_mul_le_left exampleA
      (Matrix.of fun j _ => if j = 0 then 1 / 2 else 0 : Matrix (Fin 2) (Fin 1) ℚ)
    rw [h, Matrix.rank_one] at h2
    simpa using h2

theorem compute_canonical_form_witness :
    1 ≤ 2 ∧ (exampleFullPivLU exampleA).IsDecompositionOf exampleA ∧ exampleA.rank = 1 ∧
    ∃ C, compute exampleFullPivLU exampleA = .ok C ∧
      C.m_R * exampleA * permDense C.m_Q = hcat 1 C.m_S ∧ C.rank = 1 := by
  obtain ⟨C, h1, h2, h3⟩ := compute_canonical_form exampleFullPivLU exampleA (by decide)
    exampleFullPivLU_isDecomposition
  exact ⟨by decide, exampleFullPivLU_isDecomposition, exampleA_rank, C, h1, h2,
    h3 exampleA_rank⟩

theorem exampleCanonical_identity :
    exampleCanonical.m_R * exampleA * permDense exampleCanonical.m_Q =
      hcat 1 exampleCanonical.m_S := by
  funext i j
  rcases j with j | j
  · simp [permDense, exampleCanonical, exampleA, Matrix.mul_apply, Fin.sum_univ_two, hcat,
      Matrix.one_apply, Subsingleton.elim i j]
  · simp [permDense, exampleCanonical, exampleA, Matrix.mul_apply, Fin.sum_univ_two, hcat]
    norm_num

theorem swap_preserves_canonical_form_witness :
    exampleCanonical.m_R * exampleA * permDense exampleCanonical.m_Q =
      hcat 1 exampleCanonical.m_S ∧
    exampleCanonical.m_S 0 0 ≠ 0 ∧
    (swap exampleCanonical 0 0).1 = .ok () ∧
    (swap exampleCanonical 0 0).2.m_R * exampleA * permDense (swap exampleCanonical 0 0).2.m_Q
      = hcat 1 (swap exampleCanonical 0 0).2.m_S :=
  have hp : exampleCanonical.m_S 0 0 ≠ 0 := by simp [exampleCanonical]
  have h := swap_preserves_canonical_form exampleCanonical exampleA 0 0
    exampleCanonical_identity hp
  ⟨exampleCanonical_identity, hp, h.1, h.2.1⟩

end CanonicalMatrix

end Math

/-! ### `OptimumStepper`: the partition of the ordering -/

namespace OptimumStepper

/-- The algorithm `std::partition` rearranges its range, returns an offset inside it, and leaves the
elements satisfying the predicate before the offset and the others after it. -/
theorem partitionAux_spec (pred : ℕ → Bool) :
    ∀ (fuel : ℕ) (l : List ℕ), l.length ≤ fuel →
      (partitionAux pred fuel l).1.Perm l ∧
      (partitionAux pred fuel l).2 ≤ l.length ∧
      (∀ i ∈ (partitionAux pred fuel l).1.take (partitionAux pred fuel l).2, pred i = true) ∧
      (∀ i ∈ (partitionAux pred fuel l).1.drop (partitionAux pred fuel l).2,
        pred i = false) := by
  intro fuel
  induction fuel with
  | zero =>
    intro l hl
    have : l = [] := List.eq_nil_of_length_eq_zero (Nat.le_zero.mp hl)
    subst this
    simp [partitionAux]
  | succ fuel ih =>
    intro l hl
    cases l with
    | nil => simp [partitionAux]
    | cons x xs =>
      have hxs : xs.length ≤ fuel := by simpa using hl
      by_cases hx : pred x = true
      · obtain ⟨h1, h2, h3, h4⟩ := ih xs hxs
        simp only [partitionAux, hx, if_true]
        refine ⟨h1.cons x, by simpa using h2, ?_, ?_⟩
        · intro i hi
          rw [List.take_succ_cons, List.mem_cons] at hi
          rcases hi with rfl | hi
          · exact hx
          · exact h3 i hi
        · intro i hi
          rw [List.drop_succ_cons] at hi
          exact h4 i hi
      · have hx0 : pred x = false := by simpa using hx
        cases hd : xs.reverse.dropWhile (fun y => !pred y) with
        | nil =>
          have hall : ∀ a ∈ xs, pred a = false := by
            intro a ha
            have := (List.dropWhile_eq_nil_iff.mp hd) a (List.mem_reverse.mpr ha)
            simpa using this
          simp only [partitionAux, hx0, hd, Bool.false_eq_true, if_false]
          refine ⟨List.Perm.refl _, Nat.zero_le _, by simp, ?_⟩
          intro i hi
          rw [List.drop_zero, List.mem_cons] at hi
          rcases hi with rfl | hi
          · exact hx0
          · exact hall i hi
        | cons y midRev =>
          have hsplit : xs.reverse =
              xs.reverse.takeWhile (fun y => !pred y) ++ y :: midRev := by
            rw [← hd, List.takeWhile_append_dropWhile]
          have hy : pred y = true := by
            have h := List.head_dropWhile_not (fun y => !pred y) xs.reverse
              (by rw [hd]; exact List.cons_ne_nil _ _)
            simp only [hd, List.head_cons] at h
            simpa using h
          have htw : ∀ a ∈ (xs.reverse.takeWhile (fun y => !pred y)).reverse,
              pred a = false := by
            intro a ha
            have := List.mem_takeWhile_imp (List.mem_reverse.mp ha)
            simpa using this
          have hxs2 : xs = midRev.reverse ++
              y :: (xs.reverse.takeWhile (fun y => !pred y)).reverse := by
            have := congrArg List.reverse hsplit
            simpa using this
          have hlen : midRev.reverse.length ≤ fuel := by
            have := congrArg List.length hxs2
            simp only [List.length_append, List.length_cons, List.length_reverse] at this
            simp only [List.length_reverse]
            omega
          obtain ⟨h1, h2, h3, h4⟩ := ih midRev.reverse hlen
          have hr1 : (partitionAux pred fuel midRev.reverse).1.length
              = midRev.reverse.length := h1.length_eq
          simp only [partitionAux, hx0, hd, Bool.false_eq_true, if_false]
          refine ⟨?_, ?_, ?_, ?_⟩
          · conv_rhs => rw [hxs2]
            rw [List.cons_append]
            refine (List.perm_middle.cons y).trans ?_
            refine (List.Perm.swap x y _).trans ?_
            refine List.Perm.cons x ?_
            refine List.Perm.trans ?_ List.perm_middle.symm
            exact List.Perm.cons y (h1.append_right _)
          · have := congrArg List.length hxs2
            simp only [List.length_append, List.length_cons, List.length_reverse] at this
            simp only [List.length_cons, List.length_reverse] at h2 ⊢
            omega
          · intro i hi
            rw [List.cons_append, List.take_succ_cons, List.mem_cons,
              List.take_append_of_le_length (by rw [hr1]; exact h2)] at hi
            rcases hi with rfl | hi
            · exact hy
            · exact h3 i hi
          · intro i hi
            rw [List.cons_append, List.drop_succ_cons,
              List.drop_append_of_le_length (by rw [hr1]; exact h2), List.mem_append,
              List.mem_cons] at hi
            rcases hi with hi | rfl | hi
            · exact h4 i hi
            · exact hx0
            · exact htw i hi

end OptimumStepper

namespace OptimumStepper

variable {kktSolver : SaddlePointSolver}

theorem stdPartition_spec (pred : ℕ → Bool) (l : List ℕ) :
    (stdPartition pred l).1.Perm l ∧ (stdPartition pred l).2 ≤ l.length ∧
    (∀ i ∈ (stdPartition pred l).1.take (stdPartition pred l).2, pred i = true) ∧
    (∀ i ∈ (stdPartition pred l).1.drop (stdPartition pred l).2, pred i = false) :=
  partitionAux_spec pred l.length l (Nat.le_refl _)

/-- Three consecutive segments of lengths `a`, `b`, `c` that exhaust an index array make
up the array. -/
theorem segments_append (l : List ℕ) (a b c : ℕ) (h : a + b + c = l.length) :
    headI l a ++ segmentI l a b ++ tailI l c = l := by
  have hc : l.length - c = a + b := by omega
  have hd : l.drop (a + b) = (l.drop a).drop b := by
    rw [List.drop_drop, Nat.add_comm]
  simp only [headI, segmentI, tailI, hc, hd, List.append_assoc, List.take_append_drop]

theorem decompose_fields (st : Impl kktSolver) (params : OptimumParams)
    (state : OptimumState) (f : ObjectiveState) :
    (decompose st params state f).n = st.n ∧
    (decompose st params state f).nf = params.ifixed.length ∧
    (decompose st params state f).nx = st.n - params.ifixed.length ∧
    (decompose st params state f).iordering =
      (stdPartition (fun i => decide (state.z i < 1))
        (st.iordering.take (st.n - params.ifixed.length))).1 ++
        st.iordering.drop (st.n - params.ifixed.length) ∧
    (decompose st params state f).ns =
      (stdPartition (fun i => decide (state.z i < 1))
        (st.iordering.take (st.n - params.ifixed.length))).2 ∧
    (decompose st params state f).nu = st.n - params.ifixed.length -
      (stdPartition (fun i => decide (state.z i < 1))
        (st.iordering.take (st.n - params.ifixed.length))).2 :=
  ⟨rfl, rfl, rfl, rfl, rfl, rfl⟩

/-- C5. If the ordering array is a permutation of `0..n-1` before `decompose` and
`params.ifixed` has at most `n` entries, then after `decompose` it is still a permutation
of `0..n-1`, `ns + nu + nf = n`, and `istable()`, `iunstable()`, `ifixed()` laid end to
end are a permutation of `0..n-1`: they are pairwise disjoint and together contain every
variable index exactly once. -/
theorem decompose_partition_invariant (st : Impl kktSolver) (params : OptimumParams)
    (state : OptimumState) (f : ObjectiveState)
    (hperm : st.iordering.Perm (List.range st.n))
    (hnf : params.ifixed.length ≤ st.n) :
    (decompose st params state f).iordering.Perm
      (List.range (decompose st params state f).n) ∧
    (decompose st params state f).ns + (decompose st params state f).nu +
      (decompose st params state f).nf = (decompose st params state f).n ∧
    (istable (decompose st params state f) ++ iunstable (decompose st params state f) ++
      ifixed (decompose st params state f)).Perm
      (List.range (decompose st params state f).n) := by
  obtain ⟨hn, hnf', -, hord, hns, hnu⟩ := decompose_fields st params state f
  obtain ⟨hp1, hp2, -, -⟩ := stdPartition_spec (fun i => decide (state.z i < 1))
    (st.iordering.take (st.n - params.ifixed.length))
  have hlen : st.iordering.length = st.n := by
    rw [hperm.length_eq, List.length_range]
  have hordperm : (decompose st params state f).iordering.Perm (List.range st.n) := by
    rw [hord]
    refine (hp1.append_right _).trans ?_
    rw [List.take_append_drop]
    exact hperm
  have hk : (stdPartition (fun i => decide (state.z i < 1))
      (st.iordering.take (st.n - params.ifixed.length))).2 ≤ st.n - params.ifixed.length := by
    refine hp2.trans ?_
    rw [List.length_take]
    exact Nat.min_le_left _ _
  have hsum : (decompose st params state f).ns + (decompose st params state f).nu +
      (decompose st params state f).nf = st.n := by
    rw [hns, hnu, hnf']
    omega
  refine ⟨by rw [hn]; exact hordperm, by rw [hn]; exact hsum, ?_⟩
  have hlen2 : (decompose st params state f).iordering.length = st.n := by
    rw [hordperm.length_eq, List.length_range]
  unfold istable iunstable ifixed
  rw [segments_append _ _ _ _ (by rw [hlen2]; exact hsum), hn]
  exact hordperm

end OptimumStepper

/-! ### `OptimumStepper`: the loops of `solve` -/

namespace OptimumStepper

variable {kktSolver : SaddlePointSolver}

/-- A loop of entry assignments leaves the entries at indices outside the loop range. -/
theorem foldl_update_of_not_mem (F : (ℕ → ℚ) → ℕ → ℚ) (l : List ℕ) (g : ℕ → ℚ) (i : ℕ)
    (hi : i ∉ l) : (l.foldl (fun g v => Function.update g v (F g v)) g) i = g i := by
  induction l generalizing g with
  | nil => rfl
  | cons v l ih =>
    rw [List.mem_cons, not_or] at hi
    rw [List.foldl_cons, ih _ hi.2, Function.update_noteq hi.1]

/-- A loop assigning `F v` to entry `v` leaves `F i` at every index `i` of the range. -/
theorem foldl_update_of_mem (F : ℕ → ℚ) (l : List ℕ) (g : ℕ → ℚ) (i : ℕ) (hi : i ∈ l) :
    (l.foldl (fun g v => Function.update g v (F v)) g) i = F i := by
  induction l generalizing g with
  | nil => cases hi
  | cons v l ih =>
    rw [List.foldl_cons]
    by_cases hil : i ∈ l
    · exact ih _ hil
    · have hiv : i = v := by
        rcases List.mem_cons.mp hi with h | h
        · exact h
        · exact absurd h hil
      subst hiv
      rw [foldl_update_of_not_mem (fun _ v => F v) l _ i hil, Function.update_same]

/-- A loop `g[v] += d[v]` over a range without repetition adds `d i` once to entry `i`. -/
theorem foldl_add_of_mem (d : ℕ → ℚ) (l : List ℕ) (hl : l.Nodup) (g : ℕ → ℚ) (i : ℕ)
    (hi : i ∈ l) :
    (l.foldl (fun g v => Function.update g v (g v + d v)) g) i = g i + d i := by
  induction l generalizing g with
  | nil => cases hi
  | cons v l ih =>
    have hnd := List.nodup_cons.mp hl
    rw [List.foldl_cons]
    rcases List.mem_cons.mp hi with h | h
    · subst h
      rw [foldl_update_of_not_mem (fun g v => g v + d v) l _ i hnd.1, Function.update_same]
    · have hne : i ≠ v := fun e => hnd.1 (e ▸ h)
      rw [ih hnd.2 _ h, Function.update_noteq hne]

/-- The first component of the loop `std::swap(a[u], dz[u] = 0)` is the loop `a[u] = 0`. -/
theorem foldl_swap_fst (l : List ℕ) (a dz : ℕ → ℚ) :
    (l.foldl (fun (p : (ℕ → ℚ) × (ℕ → ℚ)) u =>
        (Function.update p.1 u 0, Function.update p.2 u (p.1 u))) (a, dz)).1 =
      l.foldl (fun a u => Function.update a u ((fun _ => (0 : ℚ)) u)) a := by
  induction l generalizing a dz with
  | nil => rfl
  | cons v l ih => rw [List.foldl_cons, List.foldl_cons, ih]

theorem mem_drop_of_le {l : List ℕ} {j k i : ℕ} (hjk : j ≤ k) (hi : i ∈ l.drop k) :
    i ∈ l.drop j := by
  have : l.drop k = (l.drop j).drop (k - j) := by
    rw [List.drop_drop]
    congr 1
    omega
  rw [this] at hi
  exact List.mem_of_mem_drop hi

/-- In an ordering without repetition whose three segments fit in it, no index lies in two
of the segments. -/
theorem segments_disjoint (l : List ℕ) (a b c : ℕ) (hl : l.Nodup)
    (h : a + b + c ≤ l.length) (i : ℕ) :
    (i ∈ headI l a → i ∉ segmentI l a b) ∧ (i ∈ headI l a → i ∉ tailI l c) ∧
    (i ∈ segmentI l a b → i ∉ tailI l c) := by
  have h1 : (l.take a ++ l.drop a).Nodup := by rw [List.take_append_drop]; exact hl
  have hd1 := (List.nodup_append.mp h1).2.2
  have h2 : ((l.drop a).take b ++ (l.drop a).drop b).Nodup := by
    rw [List.take_append_drop]
    exact (List.nodup_append.mp h1).2.1
  have hd2 := (List.nodup_append.mp h2).2.2
  refine ⟨?_, ?_, ?_⟩
  · intro hi hi2
    exact hd1 hi (List.mem_of_mem_take hi2)
  · intro hi hi2
    exact hd1 hi (mem_drop_of_le (by omega) hi2)
  · intro hi hi2
    refine hd2 hi ?_
    rw [List.drop_drop]
    exact mem_drop_of_le (by omega) hi2

end OptimumStepper

namespace OptimumStepper

variable {kktSolver : SaddlePointSolver}

theorem solve_residual_b (st : Impl kktSolver) (params : OptimumParams)
    (state : OptimumState) (f : ObjectiveState) (j : ℕ) :
    (solve st params state f).residual.b j =
      -(mulVecN st.n st.structure_.A state.x j - params.a j) := rfl

theorem solve_residual_c (st : Impl kktSolver) (params : OptimumParams)
    (state : OptimumState) (f : ObjectiveState) (i : ℕ) :
    (solve st params state f).residual.c i = -(state.x i * state.z i - st.options.mu) := rfl

theorem solve_residual_a_fixed (st : Impl kktSolver) (params : OptimumParams)
    (state : OptimumState) (f : ObjectiveState) (i : ℕ) (hi : i ∈ ifixed st) :
    (solve st params state f).residual.a i = params.xfixed i :=
  foldl_update_of_mem params.xfixed _ _ i hi

theorem solve_residual_a_unstable (st : Impl kktSolver) (params : OptimumParams)
    (state : OptimumState) (f : ObjectiveState) (i : ℕ) (hi : i ∈ iunstable st)
    (hf : i ∉ ifixed st) : (solve st params state f).residual.a i = 0 := by
  have h1 := foldl_update_of_not_mem (fun _ v => params.xfixed v) (tailI st.iordering st.nf)
    (((segmentI st.iordering st.ns st.nu).foldl
      (fun (p : (ℕ → ℚ) × (ℕ → ℚ)) u =>
        (Function.update p.1 u 0, Function.update p.2 u (p.1 u)))
      ((headI st.iordering st.ns).foldl (fun a s => Function.update a s
          (a s + -(state.x s * state.z s - st.options.mu) / state.x s))
        (fun i => -(f.grad i - trMulVec st.m st.structure_.A state.y i - state.z i)),
        st.solution.dz)).1) i hf
  have h2 : (solve st params state f).residual.a i = _ := h1
  rw [h2, foldl_swap_fst]
  exact foldl_update_of_mem (fun _ => 0) _ _ i hi

theorem solve_residual_a_stable (st : Impl kktSolver) (params : OptimumParams)
    (state : OptimumState) (f : ObjectiveState) (i : ℕ) (hnd : (istable st).Nodup)
    (hi : i ∈ istable st) (hu : i ∉ iunstable st) (hf : i ∉ ifixed st) :
    (solve st params state f).residual.a i =
      -(f.grad i - trMulVec st.m st.structure_.A state.y i - state.z i) +
        -(state.x i * state.z i - st.options.mu) / state.x i := by
  have h1 := foldl_update_of_not_mem (fun _ v => params.xfixed v) (tailI st.iordering st.nf)
    (((segmentI st.iordering st.ns st.nu).foldl
      (fun (p : (ℕ → ℚ) × (ℕ → ℚ)) u =>
        (Function.update p.1 u 0, Function.update p.2 u (p.1 u)))
      ((headI st.iordering st.ns).foldl (fun a s => Function.update a s
          (a s + -(state.x s * state.z s - st.options.mu) / state.x s))
        (fun i => -(f.grad i - trMulVec st.m st.structure_.A state.y i - state.z i)),
        st.solution.dz)).1) i hf
  have h2 : (solve st params state f).residual.a i = _ := h1
  rw [h2, foldl_swap_fst]
  refine Eq.trans (foldl_update_of_not_mem (fun _ _ => (0 : ℚ)) _ _ i hu) ?_
  exact foldl_add_of_mem (fun s => -(state.x s * state.z s - st.options.mu) / state.x s)
    _ hnd _ i hi

/-- The primal step of an unstable variable is the last assignment of `solve`:
`dx[u] = (c[u] - x[u]*dz[u])/z[u]` with the final `dz`. -/
theorem solve_dx_unstable (st : Impl kktSolver) (params : OptimumParams)
    (state : OptimumState) (f : ObjectiveState) (u : ℕ) (hu : u ∈ iunstable st) :
    (solve st params state f).solution.dx u =
      (-(state.x u * state.z u - st.options.mu) -
        state.x u * (solve st params state f).solution.dz u) / state.z u :=
  foldl_update_of_mem (fun u => (-(state.x u * state.z u - st.options.mu) -
        state.x u * (solve st params state f).solution.dz u) / state.z u) _ _ u hu

end OptimumStepper

/-! ### `OptimumStepper`: classification, residual and step -/

namespace OptimumStepper

variable {kktSolver : SaddlePointSolver}

/-- The ordering and the segment sizes after `decompose` in terms of `std::partition`,
for an ordering array of `n` entries. -/
theorem decompose_segments (st : Impl kktSolver) (params : OptimumParams)
    (state : OptimumState) (f : ObjectiveState) (hlen : st.iordering.length = st.n) :
    istable (decompose st params state f) =
      (stdPartition (fun i => decide (state.z i < 1))
        (st.iordering.take (st.n - params.ifixed.length))).1.take
      (stdPartition (fun i => decide (state.z i < 1))
        (st.iordering.take (st.n - params.ifixed.length))).2 ∧
    iunstable (decompose st params state f) =
      (stdPartition (fun i => decide (state.z i < 1))
        (st.iordering.take (st.n - params.ifixed.length))).1.drop
      (stdPartition (fun i => decide (state.z i < 1))
        (st.iordering.take (st.n - params.ifixed.length))).2 := by
  obtain ⟨hp1, hp2, -, -⟩ := stdPartition_spec (fun i => decide (state.z i < 1))
    (st.iordering.take (st.n - params.ifixed.length))
  have hl1 : (stdPartition (fun i => decide (state.z i < 1))
      (st.iordering.take (st.n - params.ifixed.length))).1.length
      = st.n - params.ifixed.length := by
    rw [hp1.length_eq, List.length_take, hlen]
    omega
  have hk : (stdPartition (fun i => decide (state.z i < 1))
      (st.iordering.take (st.n - params.ifixed.length))).2 ≤
      (stdPartition (fun i => decide (state.z i < 1))
      (st.iordering.take (st.n - params.ifixed.length))).1.length := by
    rw [hp1.length_eq]; exact hp2
  obtain ⟨-, -, -, hord, hns, hnu⟩ := decompose_fields st params state f
  unfold istable iunstable headI segmentI
  rw [hord, hns, hnu]
  constructor
  · rw [List.take_append_of_le_length hk]
  · rw [List.drop_append_of_le_length hk]
    refine List.take_left' ?_
    rw [List.length_drop, hl1]

/-- C9 (as the code has it). `decompose` classifies by the dual value alone, with
threshold `1`: a variable `i` among the first `n - nf` entries of the ordering is placed in
`iunstable()` when `z[i] ≥ 1` and in `istable()` when `z[i] < 1`, whatever `x[i]` is. -/
theorem decompose_classifies_by_dual (st : Impl kktSolver) (params : OptimumParams)
    (state : OptimumState) (f : ObjectiveState) (i : ℕ)
    (hlen : st.iordering.length = st.n)
    (hi : i ∈ st.iordering.take (st.n - params.ifixed.length)) :
    (1 ≤ state.z i → i ∈ iunstable (decompose st params state f)) ∧
    (state.z i < 1 → i ∈ istable (decompose st params state f)) := by
  obtain ⟨hs, hu⟩ := decompose_segments st params state f hlen
  obtain ⟨hp1, -, hp3, hp4⟩ := stdPartition_spec (fun i => decide (state.z i < 1))
    (st.iordering.take (st.n - params.ifixed.length))
  have hmem := hp1.mem_iff.mpr hi
  rw [← List.take_append_drop (stdPartition (fun i => decide (state.z i < 1))
      (st.iordering.take (st.n - params.ifixed.length))).2
      (stdPartition (fun i => decide (state.z i < 1))
      (st.iordering.take (st.n - params.ifixed.length))).1, List.mem_append] at hmem
  constructor
  · intro hz
    rw [hu]
    rcases hmem with h | h
    · have := hp3 i h
      simp only [decide_eq_true_eq] at this
      exact absurd this (not_lt.mpr hz)
    · exact h
  · intro hz
    rw [hs]
    rcases hmem with h | h
    · exact h
    · have := hp4 i h
      simp only [decide_eq_false_iff_not] at this
      exact absurd hz this

/-- C8 (as the code has it). After `solve` the feasibility block of `residual` is
`-(A*x - a)` and the complementarity block is `-(x∘z - mu)`; the optimality block holds
the right-hand side built in place for the saddle point solver: `-(g - Aᵀy - z)[s] +
c[s]/x[s]` for a stable `s` (with `x[s] ≠ 0`), `0` for an unstable variable and
`params.xfixed[f]` for a fixed one. -/
theorem solve_residual_blocks (st : Impl kktSolver) (params : OptimumParams)
    (state : OptimumState) (f : ObjectiveState) (hnd : st.iordering.Nodup)
    (hseg : st.ns + st.nu + st.nf ≤ st.iordering.length) :
    (∀ j, (solve st params state f).residual.b j =
      -(mulVecN st.n st.structure_.A state.x j - params.a j)) ∧
    (∀ i, (solve st params state f).residual.c i =
      -(state.x i * state.z i - st.options.mu)) ∧
    (∀ s ∈ istable st, state.x s ≠ 0 → (solve st params state f).residual.a s =
      -(f.grad s - trMulVec st.m st.structure_.A state.y s - state.z s) +
        (solve st params state f).residual.c s / state.x s) ∧
    (∀ u ∈ iunstable st, (solve st params state f).residual.a u = 0) ∧
    (∀ i ∈ ifixed st, (solve st params state f).residual.a i = params.xfixed i) := by
  refine ⟨solve_residual_b st params state f, solve_residual_c st params state f, ?_, ?_, ?_⟩
  · intro s hs _
    obtain ⟨h1, h2, -⟩ := segments_disjoint st.iordering st.ns st.nu st.nf hnd hseg s
    exact solve_residual_a_stable st params state f s
      (hnd.sublist (List.take_sublist _ _)) hs (h1 hs) (h2 hs)
  · intro u hu
    obtain ⟨-, -, h3⟩ := segments_disjoint st.iordering st.ns st.nu st.nf hnd hseg u
    exact solve_residual_a_unstable st params state f u hu (h3 hu)
  · intro i hi
    exact solve_residual_a_fixed st params state f i hi

/-- C10 (as the code has it). For an unstable variable `u` sitting exactly on its bound
(`x[u] = 0`) with `z[u] ≠ 0`, the primal step returned by `solve` is `dx[u] = mu/z[u]`,
whatever the saddle point solver returns; it is zero exactly when `mu = 0`. -/
theorem solve_dx_unstable_at_bound (st : Impl kktSolver) (params : OptimumParams)
    (state : OptimumState) (f : ObjectiveState) (u : ℕ) (hu : u ∈ iunstable st)
    (hx : state.x u = 0) (hz : state.z u ≠ 0) :
    (solve st params state f).solution.dx u = st.options.mu / state.z u ∧
    ((solve st params state f).solution.dx u = 0 ↔ st.options.mu = 0) := by
  have h := solve_dx_unstable st params state f u hu
  rw [hx] at h
  have h2 : (solve st params state f).solution.dx u = st.options.mu / state.z u := by
    rw [h]; ring
  refine ⟨h2, ?_⟩
  rw [h2, div_eq_zero_iff]
  constructor
  · rintro (h3 | h3)
    · exact h3
    · exact absurd h3 hz
  · intro h3
    exact Or.inl h3

end OptimumStepper

/-! ### `OptimumStepper`: the example stepper -/

namespace OptimumStepper

theorem example_partition_low (x0 z0 : ℚ) (hz : z0 < 1) :
    stdPartition (fun i => decide ((exampleState x0 z0).z i < 1)) [0, 1] = ([0, 1], 2) := by
  simp [stdPartition, partitionAux, exampleState, hz]

theorem example_partition_high (x0 z0 : ℚ) (hz : 1 ≤ z0) :
    stdPartition (fun i => decide ((exampleState x0 z0).z i < 1)) [0, 1] = ([1, 0], 1) := by
  simp [stdPartition, partitionAux, exampleState, not_lt.mpr hz]

theorem example_decompose_low (x0 z0 : ℚ) (hz : z0 < 1) :
    istable (decompose exampleStepper exampleParams (exampleState x0 z0) exampleObjective)
      = [0, 1] ∧
    iunstable (decompose exampleStepper exampleParams (exampleState x0 z0) exampleObjective)
      = [] := by
  obtain ⟨h1, h2⟩ := decompose_segments exampleStepper exampleParams (exampleState x0 z0)
    exampleObjective rfl
  have hp := example_partition_low x0 z0 hz
  have ht : List.take (exampleStepper.n - exampleParams.ifixed.length)
      exampleStepper.iordering = [0, 1] := rfl
  rw [ht, hp] at h1 h2
  exact ⟨h1, h2⟩

theorem example_decompose_high (x0 z0 : ℚ) (hz : 1 ≤ z0) :
    istable (decompose exampleStepper exampleParams (exampleState x0 z0) exampleObjective)
      = [1] ∧
    iunstable (decompose exampleStepper exampleParams (exampleState x0 z0) exampleObjective)
      = [0] := by
  obtain ⟨h1, h2⟩ := decompose_segments exampleStepper exampleParams (exampleState x0 z0)
    exampleObjective rfl
  have hp := example_partition_high x0 z0 hz
  have ht : List.take (exampleStepper.n - exampleParams.ifixed.length)
      exampleStepper.iordering = [0, 1] := rfl
  rw [ht, hp] at h1 h2
  exact ⟨h1, h2⟩

theorem decompose_partition_invariant_witness :
    exampleStepper.iordering.Perm (List.range exampleStepper.n) ∧
    exampleParams.ifixed.length ≤ exampleStepper.n ∧
    (istable (decompose exampleStepper exampleParams (exampleState 0 2) exampleObjective) ++
      iunstable (decompose exampleStepper exampleParams (exampleState 0 2) exampleObjective) ++
      ifixed (decompose exampleStepper exampleParams (exampleState 0 2) exampleObjective)).Perm
      (List.range 2) :=
  ⟨List.Perm.refl _, by decide,
    (decompose_partition_invariant exampleStepper exampleParams (exampleState 0 2)
      exampleObjective (List.Perm.refl _) (by decide)).2.2⟩

theorem decompose_classifies_by_dual_witness :
    exampleStepper.iordering.length = exampleStepper.n ∧
    0 ∈ exampleStepper.iordering.take (exampleStepper.n - exampleParams.ifixed.length) ∧
    1 ≤ (exampleState 0 2).z 0 ∧
    0 ∈ iunstable (decompose exampleStepper exampleParams (exampleState 0 2) exampleObjective) :=
  have hi : 0 ∈ exampleStepper.iordering.take
      (exampleStepper.n - exampleParams.ifixed.length) := by decide
  have hz : 1 ≤ (exampleState 0 2).z 0 := by simp [exampleState]
  ⟨rfl, hi, hz,
    (decompose_classifies_by_dual exampleStepper exampleParams (exampleState 0 2)
      exampleObjective 0 rfl hi).1 hz⟩

theorem solve_residual_blocks_witness :
    exampleStepper.iordering.Nodup ∧
    exampleStepper.ns + exampleStepper.nu + exampleStepper.nf ≤
      exampleStepper.iordering.length ∧
    (∀ i, (solve exampleStepper exampleParams (exampleState 1 0) exampleObjective).residual.c i
      = -((exampleState 1 0).x i * (exampleState 1 0).z i - exampleStepper.options.mu)) ∧
    (solve exampleStepper exampleParams (exampleState 1 0) exampleObjective).residual.a 0 =
      -(exampleObjective.grad 0 -
          trMulVec exampleStepper.m exampleStepper.structure_.A (exampleState 1 0).y 0 -
          (exampleState 1 0).z 0) +
        (solve exampleStepper exampleParams (exampleState 1 0) exampleObjective).residual.c 0 /
          (exampleState 1 0).x 0 :=
  have h := solve_residual_blocks exampleStepper exampleParams (exampleState 1 0)
    exampleObjective (by decide) (by decide)
  ⟨by decide, by decide, h.2.1,
    h.2.2.1 0 (by decide) (by simp [exampleState])⟩

theorem solve_dx_unstable_at_bound_witness :
    0 ∈ iunstable
      (decompose exampleStepper exampleParams (exampleState 0 2) exampleObjective) ∧
    (exampleState 0 2).x 0 = 0 ∧ (exampleState 0 2).z 0 ≠ 0 ∧
    (solve (decompose exampleStepper exampleParams (exampleState 0 2) exampleObjective)
        exampleParams (exampleState 0 2) exampleObjective).solution.dx 0 =
      (decompose exampleStepper exampleParams (exampleState 0 2)
        exampleObjective).options.mu / (exampleState 0 2).z 0 :=
  have hu : 0 ∈ iunstable
      (decompose exampleStepper exampleParams (exampleState 0 2) exampleObjective) := by
    rw [(example_decompose_high 0 2 (by norm_num)).2]; simp
  have hx : (exampleState 0 2).x 0 = 0 := by simp [exampleState]
  have hz : (exampleState 0 2).z 0 ≠ 0 := by simp [exampleState]
  ⟨hu, hx, hz,
    (solve_dx_unstable_at_bound _ exampleParams (exampleState 0 2) exampleObjective 0
      hu hx hz).1⟩

end OptimumStepper

/-! ### `OptimumStepper`: `initialize` and the fixed segment -/

namespace OptimumStepper

variable {kktSolver : SaddlePointSolver}

theorem initializeStepper_fields (st : Impl kktSolver) (strct : OptimumStructure) :
    (initializeStepper st strct).n = strct.n ∧ (initializeStepper st strct).ns = strct.n ∧
    (initializeStepper st strct).nx = strct.n ∧ (initializeStepper st strct).nu = 0 ∧
    (initializeStepper st strct).nf = 0 ∧
    (initializeStepper st strct).iordering = setLinSpaced strct.n 0 strct.n :=
  ⟨rfl, rfl, rfl, rfl, rfl, rfl⟩

/-- For three or more entries `setLinSpaced(n, 0, n)` is `[0, 1, ..., n-1]`: the integer
quotient `n / (n - 1)` is `1`. -/
theorem setLinSpaced_of_three_le (n : ℕ) (hn : 3 ≤ n) : setLinSpaced n 0 n = List.range n := by
  have h1 : ¬ n ≤ 1 := by omega
  have h2 : n / (n - 1) = 1 := by
    apply Nat.div_eq_of_lt_le <;> omega
  have h3 : ¬ (1 < n ∧ n + 1 < n) := by omega
  have h4 : ¬ n = 1 := by omega
  simp [setLinSpaced, h1, h2, h3, h4]

/-- The method `decompose` does not move the last `nf` entries of the ordering: `ifixed()`
after the call is the tail of the ordering before it. -/
theorem decompose_ifixed (st : Impl kktSolver) (params : OptimumParams)
    (state : OptimumState) (f : ObjectiveState) (hlen : st.iordering.length = st.n)
    (hnf : params.ifixed.length ≤ st.n) :
    ifixed (decompose st params state f) =
      st.iordering.drop (st.n - params.ifixed.length) := by
  obtain ⟨-, hnf', -, hord, -, -⟩ := decompose_fields st params state f
  obtain ⟨hp1, -, -, -⟩ := stdPartition_spec (fun i => decide (state.z i < 1))
    (st.iordering.take (st.n - params.ifixed.length))
  have hl1 : (stdPartition (fun i => decide (state.z i < 1))
      (st.iordering.take (st.n - params.ifixed.length))).1.length
      = st.n - params.ifixed.length := by
    rw [hp1.length_eq, List.length_take, hlen]
    omega
  unfold ifixed tailI
  rw [hnf', hord]
  refine List.drop_left' ?_
  rw [List.length_append, List.length_drop, hl1, hlen]
  omega

end OptimumStepper

namespace OptimumStepper

variable {kktSolver : SaddlePointSolver}

/-- C19, at the failing input. For `n = 2` the call `setLinSpaced(n, 0, n)` of `initialize`
yields the ordering `[0, 2]`, which is not `[0, 1]` and not a permutation of `0..1`; the
counters are `ns = nx = 2`, `nu = nf = 0`. -/
theorem initializeStepper_two (st : Impl kktSolver) :
    (initializeStepper st (exampleStructure 2)).iordering = [0, 2] ∧
    ¬ (initializeStepper st (exampleStructure 2)).iordering.Perm (List.range 2) ∧
    (initializeStepper st (exampleStructure 2)).ns = 2 ∧
    (initializeStepper st (exampleStructure 2)).nx = 2 ∧
    (initializeStepper st (exampleStructure 2)).nu = 0 ∧
    (initializeStepper st (exampleStructure 2)).nf = 0 := by
  have h : (initializeStepper st (exampleStructure 2)).iordering = [0, 2] := rfl
  refine ⟨h, ?_, rfl, rfl, rfl, rfl⟩
  rw [h]
  decide

theorem fixedStepper_fields :
    fixedStepper.iordering = [0, 1, 2] ∧ fixedStepper.ns = 2 ∧ fixedStepper.nu = 0 ∧
    fixedStepper.nf = 1 ∧ fixedStepper.options.mu = 1 := by
  obtain ⟨-, h2, -, h4, h5, h6⟩ := decompose_fields
    (initializeStepper exampleStepper (exampleStructure 3)) fixedParams
    (exampleState 1 0) exampleObjective
  have hp := example_partition_low 1 0 (by norm_num)
  have ht : List.take ((initializeStepper exampleStepper (exampleStructure 3)).n -
      fixedParams.ifixed.length)
      (initializeStepper exampleStepper (exampleStructure 3)).iordering = [0, 1] := by decide
  have hd : List.drop ((initializeStepper exampleStepper (exampleStructure 3)).n -
      fixedParams.ifixed.length)
      (initializeStepper exampleStepper (exampleStructure 3)).iordering = [2] := by decide
  rw [ht, hp] at h4 h5 h6
  rw [hd] at h4
  exact ⟨h4, h5, h6, h2, rfl⟩

/-- C11, at the failing input. After `initialize` with `n = 3` and `decompose` with
`params.ifixed = [0]`, the fixed segment `ifixed()` is `[2]`: the last entry of the
ordering, not the variable declared fixed. -/
theorem decompose_ifixed_ignores_params :
    fixedParams.ifixed = [0] ∧ ifixed fixedStepper = [2] := by
  obtain ⟨h1, -, -, h4, -⟩ := fixedStepper_fields
  refine ⟨rfl, ?_⟩
  unfold ifixed tailI
  rw [h4, h1]
  rfl

end OptimumStepper

namespace OptimumStepper

variable {kktSolver : SaddlePointSolver}

/-- Outside the unstable segment the primal step returned by `solve` is the one written by
the saddle point solver, called with the right-hand side `{a, b}` left in `residual`. -/
theorem solve_dx_of_not_unstable (st : Impl kktSolver) (params : OptimumParams)
    (state : OptimumState) (f : ObjectiveState) (i : ℕ) (hi : i ∉ iunstable st) :
    (solve st params state f).solution.dx i =
      (kktSolver.solve st.kkt (solve st params state f).residual.a
        (solve st params state f).residual.b st.solution.dx st.solution.dy).1 i :=
  foldl_update_of_not_mem (fun _ u => (-(state.x u * state.z u - st.options.mu) -
        state.x u * (solve st params state f).solution.dz u) / state.z u) _ _ i hi

/-- C12 (as the code has it). For a fixed variable `f` the right-hand-side entry handed to
the saddle point solver is the fixed value `params.xfixed[f]` itself, not the displacement
`xfixed[f] - x[f]`; if the solver returns `dx[f]` equal to the entry it receives, then
`dx[f] = xfixed[f]`, and `x[f] + dx[f]` is the fixed value exactly when `x[f] = 0`. -/
theorem solve_fixed_rhs (st : Impl kktSolver) (params : OptimumParams)
    (state : OptimumState) (f : ObjectiveState) (i : ℕ) (hnd : st.iordering.Nodup)
    (hseg : st.ns + st.nu + st.nf ≤ st.iordering.length) (hi : i ∈ ifixed st)
    (hsolver : ∀ a b dx dy, (kktSolver.solve st.kkt a b dx dy).1 i = a i) :
    (solve st params state f).residual.a i = params.xfixed i ∧
    (solve st params state f).solution.dx i = params.xfixed i ∧
    (state.x i + (solve st params state f).solution.dx i = params.xfixed i ↔
      state.x i = 0) := by
  obtain ⟨-, -, h3⟩ := segments_disjoint st.iordering st.ns st.nu st.nf hnd hseg i
  have hu : i ∉ iunstable st := fun h => h3 h hi
  have ha := solve_residual_a_fixed st params state f i hi
  have hdx : (solve st params state f).solution.dx i = params.xfixed i := by
    rw [solve_dx_of_not_unstable st params state f i hu, hsolver, ha]
  refine ⟨ha, hdx, ?_⟩
  rw [hdx]
  constructor
  · intro h; linarith
  · intro h; rw [h, zero_add]

theorem fixedStepper_invariants :
    fixedStepper.iordering.Nodup ∧
    fixedStepper.ns + fixedStepper.nu + fixedStepper.nf ≤ fixedStepper.iordering.length ∧
    2 ∈ ifixed fixedStepper := by
  obtain ⟨h1, h2, h3, h4, -⟩ := fixedStepper_fields
  refine ⟨by rw [h1]; decide, by rw [h1, h2, h3, h4]; decide, ?_⟩
  unfold ifixed tailI
  rw [h4, h1]
  decide

theorem solve_fixed_rhs_witness :
    fixedStepper.iordering.Nodup ∧
    fixedStepper.ns + fixedStepper.nu + fixedStepper.nf ≤ fixedStepper.iordering.length ∧
    2 ∈ ifixed fixedStepper ∧
    (∀ a b dx dy, (echoSolver.solve fixedStepper.kkt a b dx dy).1 2 = a 2) ∧
    (solve fixedStepper fixedParams (exampleState 1 0) exampleObjective).solution.dx 2 =
      fixedParams.xfixed 2 :=
  ⟨fixedStepper_invariants.1, fixedStepper_invariants.2.1, fixedStepper_invariants.2.2,
    fun _ _ _ _ => rfl,
    (solve_fixed_rhs fixedStepper fixedParams (exampleState 1 0) exampleObjective 2
      fixedStepper_invariants.1 fixedStepper_invariants.2.1 fixedStepper_invariants.2.2
      (fun _ _ _ _ => rfl)).2.1⟩

/-- C12, counterexample. Variable `2` is in the fixed segment, its fixed value is `3` and
`x = 1`; the right-hand-side entry is `3`, not the displacement `2`, and with a solver that
returns `dx` equal to that entry `x + dx = 4`, not the fixed value. -/
theorem solve_fixed_rhs_not_displacement :
    2 ∈ ifixed fixedStepper ∧
    (∀ a b dx dy, (echoSolver.solve fixedStepper.kkt a b dx dy).1 2 = a 2) ∧
    (solve fixedStepper fixedParams (exampleState 1 0) exampleObjective).residual.a 2 ≠
      fixedParams.xfixed 2 - (exampleState 1 0).x 2 ∧
    (exampleState 1 0).x 2 +
      (solve fixedStepper fixedParams (exampleState 1 0) exampleObjective).solution.dx 2 ≠
      fixedParams.xfixed 2 := by
  obtain ⟨hnd, hseg, hi⟩ := fixedStepper_invariants
  obtain ⟨-, -, h3⟩ := segments_disjoint fixedStepper.iordering fixedStepper.ns
    fixedStepper.nu fixedStepper.nf hnd hseg 2
  have ha := solve_residual_a_fixed fixedStepper fixedParams (exampleState 1 0)
    exampleObjective 2 hi
  have hdx := solve_dx_of_not_unstable fixedStepper fixedParams (exampleState 1 0)
    exampleObjective 2 (fun h => h3 h hi)
  have hdx2 : (solve fixedStepper fixedParams (exampleState 1 0)
      exampleObjective).solution.dx 2 = fixedParams.xfixed 2 := by
    rw [hdx]
    exact ha
  refine ⟨hi, fun _ _ _ _ => rfl, ?_, ?_⟩
  · rw [ha]
    simp [fixedParams, exampleState]
    norm_num
  · rw [hdx2]
    simp [fixedParams, exampleState]

end OptimumStepper

/-! ### `ResidualFunction`: the priority weights -/

namespace ResidualFunction

/-- The weights handed to the canonicalizer, entry by entry, when the assertion holds. -/
theorem updateEchelonFormMatrixW_ok {nx : ℕ} (x xlower xupper wx : Fin nx → Double)
    (hok : updateEchelonFormMatrixW x xlower xupper = .ok wx) (i : Fin nx) :
    wx i =
      if Double.lt (Double.fin 0)
          (if (Double.min (Double.sub (x i) (xlower i)) (Double.sub (xupper i) (x i))).isInf
            then (x i).abs
            else Double.min (Double.sub (x i) (xlower i)) (Double.sub (xupper i) (x i)))
      then (if (Double.min (Double.sub (x i) (xlower i)) (Double.sub (xupper i) (x i))).isInf
            then (x i).abs
            else Double.min (Double.sub (x i) (xlower i)) (Double.sub (xupper i) (x i)))
      else Double.fin (-1) := by
  unfold updateEchelonFormMatrixW at hok
  simp only at hok
  split at hok
  · cases hok
  · split at hok
    · cases hok
    · injection hok with hok
      rw [← hok]

theorem example_weights :
    updateEchelonFormMatrixW exampleX exampleLower exampleUpper = .ok exampleWeights := by
  have h : ∀ i : Fin 2, (if (Double.min (Double.sub (exampleX i) (exampleLower i))
        (Double.sub (exampleUpper i) (exampleX i))).isInf then (exampleX i).abs
      else Double.min (Double.sub (exampleX i) (exampleLower i))
        (Double.sub (exampleUpper i) (exampleX i))) =
      if i = 0 then Double.fin 0 else Double.fin 1 := by
    intro i
    fin_cases i <;>
      norm_num [exampleX, exampleLower, exampleUpper, Double.sub, Double.min, Double.lt,
        Double.isInf, Double.abs]
  unfold updateEchelonFormMatrixW
  simp only [h]
  norm_num [minCoeff, List.ofFn, Fin.foldr, Fin.foldr.loop, Double.lt, Double.le, cAssert]
  funext i
  fin_cases i <;> norm_num [exampleWeights, Double.lt]

end ResidualFunction

namespace ResidualFunction

/-- C13. For a variable `i` with finite bounds and `xlower[i] ≤ x[i] ≤ xupper[i]`, the
weight handed to the canonicalizer is `min(x[i] - xlower[i], xupper[i] - x[i])` when
`x[i]` is strictly between its bounds and exactly `-1` when `x[i]` equals either bound;
hence it is either `-1` or strictly positive. -/
theorem weight_of_finite_bounds {nx : ℕ} (x xlower xupper wx : Fin nx → Double)
    (hok : updateEchelonFormMatrixW x xlower xupper = .ok wx) (i : Fin nx) (a l u : ℚ)
    (hx : x i = Double.fin a) (hl : xlower i = Double.fin l) (hu : xupper i = Double.fin u)
    (h1 : l ≤ a) (h2 : a ≤ u) :
    (l < a → a < u → wx i = Double.fin (min (a - l) (u - a))) ∧
    ((a = l ∨ a = u) → wx i = Double.fin (-1)) ∧
    (wx i = Double.fin (-1) ∨ ∃ w, wx i = Double.fin w ∧ 0 < w) := by
  have hw := updateEchelonFormMatrixW_ok x xlower xupper wx hok i
  rw [hx, hl, hu] at hw
  simp only [Double.sub, Double.min, Double.lt] at hw
  by_cases hlt : u - a < a - l
  · simp only [hlt, decide_True, if_true, Double.isInf, Bool.false_eq_true, if_false,
      Double.lt] at hw
    have hmin : min (a - l) (u - a) = u - a := min_eq_right hlt.le
    by_cases hpos : 0 < u - a
    · simp only [hpos, decide_True, if_true] at hw
      refine ⟨fun _ _ => by rw [hw, hmin], ?_, Or.inr ⟨_, hw, hpos⟩⟩
      rintro (h | h)
      · exfalso; rw [h] at hlt; linarith
      · exfalso; rw [h] at hpos; linarith
    · simp only [hpos, decide_False, Bool.false_eq_true, if_false] at hw
      refine ⟨fun _ h => absurd (by linarith) hpos, fun _ => hw, Or.inl hw⟩
  · simp only [hlt, decide_False, Bool.false_eq_true, if_false, Double.isInf,
      Double.lt] at hw
    have hmin : min (a - l) (u - a) = a - l := min_eq_left (not_lt.mp hlt)
    by_cases hpos : 0 < a - l
    · simp only [hpos, decide_True, if_true] at hw
      refine ⟨fun _ _ => by rw [hw, hmin], ?_, Or.inr ⟨_, hw, hpos⟩⟩
      rintro (h | h)
      · exfalso; rw [h] at hpos; linarith
      · exfalso; rw [h] at hlt hpos; apply hlt; linarith
    · simp only [hpos, decide_False, Bool.false_eq_true, if_false] at hw
      refine ⟨fun h _ => absurd (by linarith) hpos, fun _ => hw, Or.inl hw⟩

theorem weight_of_finite_bounds_witness :
    updateEchelonFormMatrixW exampleX exampleLower exampleUpper = .ok exampleWeights ∧
    exampleX 1 = Double.fin 1 ∧ exampleLower 1 = Double.fin 0 ∧
    exampleUpper 1 = Double.fin 3 ∧ (0 : ℚ) ≤ 1 ∧ (1 : ℚ) ≤ 3 ∧
    exampleWeights 1 = Double.fin (min (1 - 0) (3 - 1)) :=
  ⟨example_weights, rfl, rfl, rfl, by norm_num, by norm_num,
    (weight_of_finite_bounds exampleX exampleLower exampleUpper exampleWeights
      example_weights 1 1 0 3 rfl rfl rfl (by norm_num) (by norm_num)).1
      (by norm_num) (by norm_num)⟩

/-- C14 (as the code has it). For a variable `i` whose lower bound is `-∞` and whose
upper bound is `+∞`, the weight handed to the canonicalizer is `|x[i]|` for every finite
non-zero `x[i]`, and `-1` when `x[i] = 0`. -/
theorem weight_of_unbounded {nx : ℕ} (x xlower xupper wx : Fin nx → Double)
    (hok : updateEchelonFormMatrixW x xlower xupper = .ok wx) (i : Fin nx) (a : ℚ)
    (hx : x i = Double.fin a) (hl : xlower i = Double.negInf)
    (hu : xupper i = Double.posInf) :
    wx i = if a = 0 then Double.fin (-1) else Double.fin |a| := by
  have hw := updateEchelonFormMatrixW_ok x xlower xupper wx hok i
  rw [hx, hl, hu] at hw
  simp only [Double.sub, Double.min, Double.lt, Bool.false_eq_true, if_false, Double.isInf,
    if_true, Double.abs] at hw
  by_cases ha : a = 0
  · subst ha
    simpa using hw
  · have hpos : 0 < |a| := abs_pos.mpr ha
    simpa [ha, hpos] using hw

theorem weight_of_unbounded_witness :
    updateEchelonFormMatrixW exampleX exampleLower exampleUpper = .ok exampleWeights ∧
    exampleX 0 = Double.fin 0 ∧ exampleLower 0 = Double.negInf ∧
    exampleUpper 0 = Double.posInf ∧
    exampleWeights 0 = if (0 : ℚ) = 0 then Double.fin (-1) else Double.fin |0| :=
  ⟨example_weights, rfl, rfl, rfl,
    weight_of_unbounded exampleX exampleLower exampleUpper exampleWeights example_weights
      0 0 rfl rfl rfl⟩

/-- C14, counterexample. Variable `0` is unbounded on both sides and `x = 0`: the weight
handed to the canonicalizer is `-1`, not `|x| = 0`. -/
theorem weight_of_unbounded_zero :
    updateEchelonFormMatrixW exampleX exampleLower exampleUpper = .ok exampleWeights ∧
    exampleLower 0 = Double.negInf ∧ exampleUpper 0 = Double.posInf ∧
    exampleWeights 0 = Double.fin (-1) ∧ (exampleX 0).abs = Double.fin 0 ∧
    exampleWeights 0 ≠ (exampleX 0).abs := by
  refine ⟨example_weights, rfl, rfl, rfl, ?_, ?_⟩
  · simp [exampleX, Double.abs]
  · simp [exampleX, exampleWeights, Double.abs]

end ResidualFunction

/-! ### `CanonicalMatrix`: index lists, `update`, and the inverse of `R` -/

namespace Math

namespace CanonicalMatrix

variable {m n r : ℕ}

/-- C15, at the failing input. The list `ibasic()` has `r` entries, but `inonbasic()` ends
at position `rows()` instead of the number of columns and has `min(rows() - r, n - r)`
entries. For the `1 × 2` matrix `[2 4]` of rank `1`, with `rows() = 1` (the number of rows
of `A` and of `S`), `ibasic()` is `[1]` and `inonbasic()` is empty: column `0` is in
neither list. -/
theorem inonbasic_ends_at_rows :
    (∀ (C : CanonicalMatrix m n r) (rows : ℕ),
      (ibasic C).length = r ∧ (inonbasic C rows).length = min (rows - r) (n - r)) ∧
    compute exampleFullPivLU exampleA = .ok (computeMembers (exampleFullPivLU exampleA)) ∧
    ibasic (computeMembers (exampleFullPivLU exampleA)) = [1] ∧
    inonbasic (computeMembers (exampleFullPivLU exampleA)) 1 = [] := by
  refine ⟨fun C rows => ⟨by simp [ibasic], by simp [inonbasic]⟩, rfl, rfl, rfl⟩

/-- C18 (as the code has it). The body of `update(weights)` is disabled: the call leaves
the members unchanged, so a basic variable with weight `-1` that could be exchanged with a
non-basic variable of strictly positive weight is still basic after the call exactly when
it was before. -/
theorem update_unchanged (C : CanonicalMatrix m n r) (weights : Fin n → ℚ) :
    update C weights = C ∧
    ((∃ i j, weights ((update C weights).m_Q (Sum.inl i)) = -1 ∧
        0 < weights ((update C weights).m_Q (Sum.inr j)) ∧
        (update C weights).m_S i j ≠ 0) ↔
      (∃ i j, weights (C.m_Q (Sum.inl i)) = -1 ∧ 0 < weights (C.m_Q (Sum.inr j)) ∧
        C.m_S i j ≠ 0)) :=
  ⟨rfl, Iff.rfl⟩

/-- C18, counterexample. In the canonical form `R*A*Q = [1 2]` of `[2 4]` the basic
variable `0` has weight `-1`, the non-basic variable `1` has weight `1` and `S(0, 0) = 2`;
after `update` the exchange has not been made. -/
theorem update_leaves_eligible_exchange :
    ∃ i j, examplePriority ((update exampleCanonical examplePriority).m_Q (Sum.inl i)) = -1 ∧
      0 < examplePriority ((update exampleCanonical examplePriority).m_Q (Sum.inr j)) ∧
      (update exampleCanonical examplePriority).m_S i j ≠ 0 := by
  refine ⟨0, 0, ?_, ?_, ?_⟩
  · simp [update, exampleCanonical, examplePriority]
  · simp [update, exampleCanonical, examplePriority]
  · simp [update, exampleCanonical]

end CanonicalMatrix

end Math

namespace Math

theorem mul_updateColumn {α β : Type} [Fintype β] {k : ℕ} (X : Matrix α β ℚ)
    (Y : Matrix β (Fin k) ℚ) (j : Fin k) (v : β → ℚ) :
    X * Y.updateColumn j v = (X * Y).updateColumn j (X *ᵥ v) := by
  funext i l
  by_cases hl : l = j
  · subst hl
    simp [Matrix.mul_apply, Matrix.mulVec, Matrix.dotProduct]
  · simp [Matrix.mul_apply, Matrix.updateColumn_ne hl]

theorem topRows_permDense_mul_leftCols {m r k : ℕ} (p : Fin m → Fin r ⊕ Fin k)
    (hp : Function.Bijective p) :
    topRows (permDense p) * leftCols (permDense p)ᵀ = 1 := by
  have h := permDense_mul_transpose_self p hp
  funext i l
  have h2 := congrFun (congrFun h (Sum.inl i)) (Sum.inl l)
  simp only [Matrix.mul_apply, Matrix.one_apply, Sum.inl.injEq] at h2
  simpa [Matrix.mul_apply, topRows, leftCols, Matrix.one_apply] using h2

namespace CanonicalMatrix

variable {m n r : ℕ}

/-- The inverse `Rinv` after a `swap` whose pivot is not zero: column `ib` is replaced by
`Rinv * S.col(in)`. -/
theorem swap_Rinv_of_pivot_ne_zero (C : CanonicalMatrix m n r) (ib : Fin r)
    (inn : Fin (n - r)) (hp : C.m_S ib inn ≠ 0) :
    (swap C ib inn).2.m_Rinv =
      C.m_Rinv.updateColumn ib (C.m_Rinv *ᵥ fun i => C.m_S i inn) := by
  have hA : Assert (decide (C.m_S ib inn ≠ 0))
      "Could not swap basic and non-basic components." = .ok () := by
    simp [Assert, hp]
  simp only [swap, hA]

/-- The product of the updated `R` with any matrix, row by row: the pivot row is scaled,
the multiples of it are subtracted from the other rows. -/
theorem swap_R_mul {k : Type} (C : CanonicalMatrix m n r) (ib : Fin r) (inn : Fin (n - r))
    (hp : C.m_S ib inn ≠ 0) (X : Matrix (Fin m) k ℚ) (i : Fin r) (v : k) :
    ((swap C ib inn).2.m_R * X) i v =
      if i = ib then (C.m_R * X) ib v * (1 / C.m_S ib inn)
      else (C.m_R * X) i v - C.m_S i inn * ((C.m_R * X) ib v * (1 / C.m_S ib inn)) := by
  obtain ⟨-, hR, -, -⟩ := swap_of_pivot_ne_zero C ib inn hp
  simp only [Matrix.mul_apply, hR]
  by_cases hi : i = ib
  · simp only [hi, if_true, Finset.sum_mul]
    exact Finset.sum_congr rfl fun k _ => by ring
  · simp only [hi, if_false, Finset.mul_sum, Finset.sum_mul, ← Finset.sum_sub_distrib]
    exact Finset.sum_congr rfl fun k _ => by ring

theorem computeMembers_R_mul_Rinv (lu : FullPivLU m n)
    (hP : Function.Bijective lu.permutationP)
    (hpiv : ∀ i : Fin lu.rank, lu.matrixLU (Sum.inl i) (Sum.inl i) ≠ 0) :
    (computeMembers lu).m_R * (computeMembers lu).m_Rinv = 1 := by
  have hdetL : (unitLower lu.matrixLU.toBlocks₁₁).det ≠ 0 := by
    rw [det_unitLower]; exact one_ne_zero
  have hdetU : (upper lu.matrixLU.toBlocks₁₁).det ≠ 0 := by
    rw [det_upper]
    exact Finset.prod_ne_zero_iff.mpr fun i _ => hpiv i
  simp only [computeMembers]
  rw [triangularSolve_mul_right, triangularSolve_mul_right, ← Matrix.mul_assoc,
    ← Matrix.mul_assoc, topRows_permDense_mul_leftCols _ hP, Matrix.one_mul,
    triangularSolve_mul _ _ hdetL, triangularSolve_self _ hdetU]

theorem swap_R_mul_Rinv (C : CanonicalMatrix m n r) (ib : Fin r) (inn : Fin (n - r))
    (hinv : C.m_R * C.m_Rinv = 1) (hp : C.m_S ib inn ≠ 0) :
    (swap C ib inn).2.m_R * (swap C ib inn).2.m_Rinv = 1 := by
  have hG : ∀ i l, ((swap C ib inn).2.m_R * C.m_Rinv) i l =
      if i = ib then (1 : Matrix (Fin r) (Fin r) ℚ) ib l * (1 / C.m_S ib inn)
      else (1 : Matrix (Fin r) (Fin r) ℚ) i l -
        C.m_S i inn * ((1 : Matrix (Fin r) (Fin r) ℚ) ib l * (1 / C.m_S ib inn)) := by
    intro i l
    rw [swap_R_mul C ib inn hp, hinv]
  rw [swap_Rinv_of_pivot_ne_zero C ib inn hp, mul_updateColumn]
  funext i l
  by_cases hl : l = ib
  · subst hl
    rw [Matrix.updateColumn_self, Matrix.mulVec_mulVec]
    simp only [Matrix.mulVec, Matrix.dotProduct, hG]
    by_cases hi : i = l
    · subst hi
      simp [Matrix.one_apply, hp]
    · simp only [hi, if_false, Matrix.one_apply, sub_mul, Finset.sum_sub_distrib]
      simp [hi, Finset.sum_ite_eq, Finset.mul_sum]
      field_simp
  · rw [Matrix.updateColumn_ne hl, hG]
    by_cases hi : i = ib
    · subst hi
      simp [Matrix.one_apply, Ne.symm hl, hl]
    · simp [Matrix.one_apply, hi, Ne.symm hl]

end CanonicalMatrix

end Math

namespace Math

namespace CanonicalMatrix

variable {m n : ℕ}

/-- C16. After `compute(A)` (for `m ≤ n` and a full-pivoting LU of `A` with non-zero
pivots) the stored matrices satisfy `R*Rinv = I_r`; and from every state with
`R*Rinv = I_r`, a `swap(ib, in)` with non-zero pivot leads to a state with `R*Rinv = I_r`
again. -/
theorem R_mul_Rinv_invariant (fullPivLU : Matrix (Fin m) (Fin n) ℚ → FullPivLU m n)
    (A : Matrix (Fin m) (Fin n) ℚ) (hmn : m ≤ n)
    (hlu : (fullPivLU A).IsDecompositionOf A) :
    compute fullPivLU A = .ok (computeMembers (fullPivLU A)) ∧
    (computeMembers (fullPivLU A)).m_R * (computeMembers (fullPivLU A)).m_Rinv = 1 ∧
    ∀ (r : ℕ) (C : CanonicalMatrix m n r) (ib : Fin r) (inn : Fin (n - r)),
      C.m_R * C.m_Rinv = 1 → C.m_S ib inn ≠ 0 →
      (swap C ib inn).2.m_R * (swap C ib inn).2.m_Rinv = 1 := by
  have hA : Assert (decide (n ≥ m)) "Could not canonicalize the given matrix." = .ok () := by
    simp [Assert, hmn]
  refine ⟨by simp only [compute, hA], ?_, ?_⟩
  · exact computeMembers_R_mul_Rinv (fullPivLU A) hlu.1 hlu.2.2.2
  · intro r C ib inn hinv hp
    exact swap_R_mul_Rinv C ib inn hinv hp

theorem exampleCanonical_R_mul_Rinv : exampleCanonical.m_R * exampleCanonical.m_Rinv = 1 := by
  funext i j
  simp [exampleCanonical, Matrix.mul_apply, Matrix.one_apply, Subsingleton.elim i j]

theorem R_mul_Rinv_invariant_witness :
    1 ≤ 2 ∧ (exampleFullPivLU exampleA).IsDecompositionOf exampleA ∧
    (computeMembers (exampleFullPivLU exampleA)).m_R *
      (computeMembers (exampleFullPivLU exampleA)).m_Rinv =
      (1 : Matrix (Fin (exampleFullPivLU exampleA).rank)
        (Fin (exampleFullPivLU exampleA).rank) ℚ) ∧
    exampleCanonical.m_R * exampleCanonical.m_Rinv = 1 ∧ exampleCanonical.m_S 0 0 ≠ 0 ∧
    (swap exampleCanonical 0 0).2.m_R * (swap exampleCanonical 0 0).2.m_Rinv = 1 :=
  have h := R_mul_Rinv_invariant exampleFullPivLU exampleA (by decide)
    exampleFullPivLU_isDecomposition
  have hp : exampleCanonical.m_S 0 0 ≠ 0 := by simp [exampleCanonical]
  ⟨by decide, exampleFullPivLU_isDecomposition, h.2.1, exampleCanonical_R_mul_Rinv, hp,
    h.2.2 1 exampleCanonical 0 0 exampleCanonical_R_mul_Rinv hp⟩

end CanonicalMatrix

end Math

/-! ### The order of the reduced matrix -/

/-- C17 (as the code has it). The square matrix `M` that `decompose` assembles and hands
to `lu.decompose` has order `t = nbe + nns + np + nbe`: the `nbe` multipliers of the
basic-equality rows are carried as unknowns as well. The order is `nbe + nns + np` exactly
when `nbe = 0`. -/
theorem reduced_matrix_order {nbe nbi nns np : ℕ} (J : CanonicalMatrix nbe nbi nns np) :
    order (decomposeWorkspace J).2.2.2.2 = nbe + nns + np + nbe ∧
    (order (decomposeWorkspace J).2.2.2.2 = nbe + nns + np ↔ nbe = 0) := by
  have h : order (decomposeWorkspace J).2.2.2.2 = nbe + nns + np + nbe := by
    simp only [order, Fintype.card_sum, Fintype.card_fin]
    omega
  refine ⟨h, ?_⟩
  rw [h]
  omega

/-- C17, counterexample. For `nbe = nbi = nns = np = 1` the reduced matrix has order `4`,
not `nbe + nns + np = 3`. -/
theorem reduced_matrix_order_example :
    order (decomposeWorkspace exampleJ).2.2.2.2 = 4 ∧
    order (decomposeWorkspace exampleJ).2.2.2.2 ≠ 1 + 1 + 1 := by
  have h : order (decomposeWorkspace exampleJ).2.2.2.2 = 4 := by
    simp [order]
  exact ⟨h, by rw [h]; decide⟩

/-! ### `ResidualVector::update`: the constraint block -/

namespace ResidualVector

theorem vcat_cols {α β γ δ : Type} (W : Matrix (α ⊕ β) γ ℚ) (js : δ → γ) :
    vcat (cols (topRows W) js) (cols (bottomRows W) js) = cols W js := by
  funext i k
  cases i <;> rfl

/-- C20. Assuming the canonical identities `Rbs*[As; Js] = [I Sbsns]` (columns in the
order of `js`, basic first) and `Rbs*[Ap; Jp] = Sbsp`, the vector `awbs` computed by
`update` equals `Rbs*[b - As*xs - Au*xu - Ap*p ; -h]`, the canonicalizer applied to the
constraint residual. -/
theorem update_awbs {nx np ny nz nbs nns nu : ℕ} (args : UpdateArgs nx np ny nz nbs nns nu)
    (hcan : args.Rbs * cols args.Wx args.js = hcat 1 args.Sbsns)
    (hp : args.Rbs * args.Wp = args.Sbsp) :
    (update args).awbs =
      args.Rbs *ᵥ vjoin
        (args.b - cols (topRows args.Wx) args.js *ᵥ (fun k => args.x (args.js k))
          - cols (topRows args.Wx) args.ju *ᵥ (fun k => args.x (args.ju k))
          - topRows args.Wp *ᵥ args.p)
        (-args.h) := by
  have h1 : head (fun k => args.x (args.js k)) +
      args.Sbsns *ᵥ tail (fun k => args.x (args.js k)) =
      args.Rbs *ᵥ vjoin
        (cols (topRows args.Wx) args.js *ᵥ (fun k => args.x (args.js k)))
        (cols (bottomRows args.Wx) args.js *ᵥ (fun k => args.x (args.js k))) := by
    rw [← vcat_mulVec, vcat_cols, Matrix.mulVec_mulVec, hcan, hcat_mulVec,
      Matrix.one_mulVec]
  have h2 : args.Sbsp *ᵥ args.p =
      args.Rbs *ᵥ vjoin (topRows args.Wp *ᵥ args.p) (bottomRows args.Wp *ᵥ args.p) := by
    rw [← vcat_mulVec, vcat_top_bottom, Matrix.mulVec_mulVec, hp]
  show args.Rbs *ᵥ vjoin _ _ - (_ + _ + _) = _
  rw [h1, h2, ← Matrix.mulVec_add, ← Matrix.mulVec_sub]
  refine congrArg (fun v => args.Rbs *ᵥ v) ?_
  funext i
  rcases i with i | i
  · simp only [vjoin, Pi.sub_apply, Pi.add_apply, Sum.elim_inl]
    ring
  · simp only [vjoin, Pi.sub_apply, Pi.add_apply, Pi.neg_apply, Sum.elim_inr]
    ring

theorem exampleArgs_identities :
    exampleArgs.Rbs * cols exampleArgs.Wx exampleArgs.js = hcat 1 exampleArgs.Sbsns ∧
    exampleArgs.Rbs * exampleArgs.Wp = exampleArgs.Sbsp := by
  constructor
  · funext i k
    rcases k with k | k
    · simp [exampleArgs, cols, hcat, Matrix.mul_apply, Fintype.sum_sum_type,
        Matrix.one_apply, Subsingleton.elim i k]
    · simp [exampleArgs, cols, hcat, Matrix.mul_apply, Fintype.sum_sum_type]
      norm_num
  · funext i k
    simp [exampleArgs, Matrix.mul_apply, Fintype.sum_sum_type]
    norm_num

theorem update_awbs_witness :
    exampleArgs.Rbs * cols exampleArgs.Wx exampleArgs.js = hcat 1 exampleArgs.Sbsns ∧
    exampleArgs.Rbs * exampleArgs.Wp = exampleArgs.Sbsp ∧
    (update exampleArgs).awbs =
      exampleArgs.Rbs *ᵥ vjoin
        (exampleArgs.b -
          cols (topRows exampleArgs.Wx) exampleArgs.js *ᵥ
            (fun k => exampleArgs.x (exampleArgs.js k))
          - cols (topRows exampleArgs.Wx) exampleArgs.ju *ᵥ
            (fun k => exampleArgs.x (exampleArgs.ju k))
          - topRows exampleArgs.Wp *ᵥ exampleArgs.p)
        (-exampleArgs.h) :=
  ⟨exampleArgs_identities.1, exampleArgs_identities.2,
    update_awbs exampleArgs exampleArgs_identities.1 exampleArgs_identities.2⟩

end ResidualVector

namespace Math

namespace CanonicalMatrix

variable {m n r : ℕ}

/-- C30. `CanonicalMatrix::compute(A)` fails if and only if `A` has more rows than columns,
and then with the error "Could not canonicalize the given matrix."; for every `A` with at
most as many rows as columns it completes, with the members computed from the
full-pivoting LU of `A`. -/
theorem compute_fails_iff_more_rows (fullPivLU : Matrix (Fin m) (Fin n) ℚ → FullPivLU m n)
    (A : Matrix (Fin m) (Fin n) ℚ) :
    ((∃ e, compute fullPivLU A = .error e) ↔ n < m) ∧
    (n < m ↔ compute fullPivLU A = .error "Could not canonicalize the given matrix.") ∧
    (m ≤ n ↔ compute fullPivLU A = .ok (computeMembers (fullPivLU A))) := by
  by_cases h : n ≥ m
  · have hA : Assert (decide (n ≥ m)) "Could not canonicalize the given matrix." = .ok () := by
      simp [Assert, h]
    have hc : compute fullPivLU A = .ok (computeMembers (fullPivLU A)) := by
      simp only [compute, hA]
    refine ⟨⟨?_, fun h2 => absurd h2 (by omega)⟩, ⟨fun h2 => absurd h2 (by omega), ?_⟩,
      ⟨fun _ => hc, fun _ => h⟩⟩
    · rintro ⟨e, he⟩
      rw [hc] at he
      cases he
    · intro he
      rw [hc] at he
      cases he
  · have hA : Assert (decide (n ≥ m)) "Could not canonicalize the given matrix." =
        .error "Could not canonicalize the given matrix." := by
      simp [Assert, h]
    have hc : compute fullPivLU A = .error "Could not canonicalize the given matrix." := by
      simp only [compute, hA]
    refine ⟨⟨fun _ => by omega, fun _ => ⟨_, hc⟩⟩, ⟨fun _ => hc, fun _ => by omega⟩,
      ⟨fun h2 => absurd h2 (by omega), ?_⟩⟩
    intro he
    rw [hc] at he
    cases he

end CanonicalMatrix

end Math

namespace OptimumStepper

variable {kktSolver : SaddlePointSolver}

/-- C27. For an ordering array of `n` entries and at most `n` fixed variables: after
`decompose` every index in `istable()` has `z[i] < 1`, every index in `iunstable()` has
`z[i] ≥ 1`, `istable()` followed by `iunstable()` is a rearrangement of the first `n - nf`
entries the ordering had before the call, and the last `nf` entries are where they were. -/
theorem decompose_sorts_by_dual (st : Impl kktSolver) (params : OptimumParams)
    (state : OptimumState) (f : ObjectiveState) (hlen : st.iordering.length = st.n)
    (hnf : params.ifixed.length ≤ st.n) :
    (∀ i ∈ istable (decompose st params state f), state.z i < 1) ∧
    (∀ i ∈ iunstable (decompose st params state f), 1 ≤ state.z i) ∧
    (istable (decompose st params state f) ++ iunstable (decompose st params state f)).Perm
      (st.iordering.take (st.n - params.ifixed.length)) ∧
    (decompose st params state f).nf = params.ifixed.length ∧
    tailI (decompose st params state f).iordering params.ifixed.length =
      tailI st.iordering params.ifixed.length := by
  obtain ⟨hs, hu⟩ := decompose_segments st params state f hlen
  obtain ⟨hp1, -, hp3, hp4⟩ := stdPartition_spec (fun i => decide (state.z i < 1))
    (st.iordering.take (st.n - params.ifixed.length))
  have hfix := decompose_ifixed st params state f hlen hnf
  refine ⟨?_, ?_, ?_, rfl, ?_⟩
  · intro i hi
    rw [hs] at hi
    simpa using hp3 i hi
  · intro i hi
    rw [hu] at hi
    simpa using hp4 i hi
  · rw [hs, hu, List.take_append_drop]
    exact hp1
  · have h1 : tailI (decompose st params state f).iordering params.ifixed.length =
        ifixed (decompose st params state f) := rfl
    rw [h1, hfix]
    unfold tailI
    rw [hlen]

theorem decompose_sorts_by_dual_witness :
    (initializeStepper exampleStepper (exampleStructure 3)).iordering.length =
      (initializeStepper exampleStepper (exampleStructure 3)).n ∧
    fixedParams.ifixed.length ≤ (initializeStepper exampleStepper (exampleStructure 3)).n ∧
    (∀ i ∈ iunstable (decompose (initializeStepper exampleStepper (exampleStructure 3))
      fixedParams (exampleState 0 2) exampleObjective), 1 ≤ (exampleState 0 2).z i) ∧
    (istable (decompose (initializeStepper exampleStepper (exampleStructure 3))
        fixedParams (exampleState 0 2) exampleObjective) ++
      iunstable (decompose (initializeStepper exampleStepper (exampleStructure 3))
        fixedParams (exampleState 0 2) exampleObjective)).Perm
      ((initializeStepper exampleStepper (exampleStructure 3)).iordering.take
        ((initializeStepper exampleStepper (exampleStructure 3)).n -
          fixedParams.ifixed.length)) :=
  have h := decompose_sorts_by_dual (initializeStepper exampleStepper (exampleStructure 3))
    fixedParams (exampleState 0 2) exampleObjective rfl (by decide)
  ⟨rfl, by decide, h.2.1, h.2.2.1⟩

end OptimumStepper

namespace OptimumStepper

variable {kktSolver : SaddlePointSolver}

/-- A loop `g[v] = G(g[v], v)` over a range without repetition applies `G` once to entry
`i` of the range. -/
theorem foldl_modify_of_mem (G : ℚ → ℕ → ℚ) (l : List ℕ) (hl : l.Nodup) (g : ℕ → ℚ) (i : ℕ)
    (hi : i ∈ l) :
    (l.foldl (fun g v => Function.update g v (G (g v) v)) g) i = G (g i) i := by
  induction l generalizing g with
  | nil => cases hi
  | cons v l ih =>
    have hnd := List.nodup_cons.mp hl
    rw [List.foldl_cons]
    rcases List.mem_cons.mp hi with h | h
    · subst h
      rw [foldl_update_of_not_mem (fun g v => G (g v) v) l _ i hnd.1, Function.update_same]
    · have hne : i ≠ v := fun e => hnd.1 (e ▸ h)
      rw [ih hnd.2 _ h, Function.update_noteq hne]

/-- The second component of the loop `std::swap(a[u], dz[u] = 0)` over a range without
repetition: `dz[u]` receives the entry `a[u]` had before the loop. -/
theorem foldl_swap_snd (l : List ℕ) (hl : l.Nodup) (a dz : ℕ → ℚ) (i : ℕ) (hi : i ∈ l) :
    (l.foldl (fun (p : (ℕ → ℚ) × (ℕ → ℚ)) u =>
        (Function.update p.1 u 0, Function.update p.2 u (p.1 u))) (a, dz)).2 i = a i := by
  induction l generalizing a dz with
  | nil => cases hi
  | cons v l ih =>
    have hnd := List.nodup_cons.mp hl
    rw [List.foldl_cons]
    by_cases h : i ∈ l
    · have hne : i ≠ v := fun e => hnd.1 (e ▸ h)
      rw [ih hnd.2 _ _ h, Function.update_noteq hne]
    · have hiv : i = v := by
        rcases List.mem_cons.mp hi with h2 | h2
        · exact h2
        · exact absurd h2 h
      subst hiv
      have hfr : ∀ (l : List ℕ) (a dz : ℕ → ℚ), i ∉ l →
          (l.foldl (fun (p : (ℕ → ℚ) × (ℕ → ℚ)) u =>
            (Function.update p.1 u 0, Function.update p.2 u (p.1 u))) (a, dz)).2 i = dz i := by
        intro l
        induction l with
        | nil => intro a dz _; rfl
        | cons w l ih2 =>
          intro a dz hw
          rw [List.mem_cons, not_or] at hw
          rw [List.foldl_cons, ih2 _ _ hw.2, Function.update_noteq hw.1]
      rw [hfr l _ _ h, Function.update_same]

/-- The dual step of an unstable variable `u` (outside the stable segment) is the
assignment of line 170 applied to the optimality residual `-(g - Aᵀy - z)[u]` that the
exchange of line 159 left in `dz[u]`. -/
theorem solve_dz_unstable (st : Impl kktSolver) (params : OptimumParams)
    (state : OptimumState) (f : ObjectiveState) (u : ℕ) (hnd : (iunstable st).Nodup)
    (hu : u ∈ iunstable st) (hs : u ∉ istable st) :
    (solve st params state f).solution.dz u =
      -(-(f.grad u - trMulVec st.m st.structure_.A state.y u - state.z u) -
          st.H u u * -(state.x u * state.z u - st.options.mu) / state.z u +
          dotCol st.m st.structure_.A u (solve st params state f).solution.dy) /
        (1 + st.H u u * state.x u / state.z u) := by
  have h1 : (solve st params state f).solution.dz u = _ :=
    foldl_modify_of_mem (fun d u => -(d -
          st.H u u * -(state.x u * state.z u - st.options.mu) / state.z u +
          dotCol st.m st.structure_.A u (solve st params state f).solution.dy) /
        (1 + st.H u u * state.x u / state.z u)) _ hnd _ u hu
  have hs2 : u ∉ headI st.iordering st.ns := hs
  have hu2 : u ∈ segmentI st.iordering st.ns st.nu := hu
  have hnd2 : (segmentI st.iordering st.ns st.nu).Nodup := hnd
  rw [h1]
  beta_reduce
  rw [foldl_update_of_not_mem _ _ _ u hs2, foldl_swap_snd _ hnd2 _ _ u hu2,
    foldl_update_of_not_mem _ _ _ u hs2]

/-- The dual step of a stable variable `s` (outside the unstable segment) is the
assignment of line 167, with the primal step written by the saddle point solver. -/
theorem solve_dz_stable (st : Impl kktSolver) (params : OptimumParams)
    (state : OptimumState) (f : ObjectiveState) (s : ℕ) (hs : s ∈ istable st)
    (hu : s ∉ iunstable st) :
    (solve st params state f).solution.dz s =
      (-(state.x s * state.z s - st.options.mu) -
        state.z s * (solve st params state f).solution.dx s) / state.x s := by
  have h1 : (solve st params state f).solution.dz s = _ :=
    foldl_update_of_not_mem _ _ _ s hu
  rw [h1, solve_dx_of_not_unstable st params state f s hu]
  exact foldl_update_of_mem (fun s => (-(state.x s * state.z s - st.options.mu) -
        state.z s * (kktSolver.solve st.kkt (solve st params state f).residual.a
        (solve st params state f).residual.b st.solution.dx st.solution.dy).1 s) / state.x s)
    _ _ s hs

end OptimumStepper
namespace OptimumStepper

variable {kktSolver : SaddlePointSolver}

/-- The matrix `H` after `decompose`: the Hessian of `f` (or, when that is empty, the `H`
left by the previous call) with `z[s]/x[s]` added on the diagonal for the stable `s`. -/
theorem decompose_H (st : Impl kktSolver) (params : OptimumParams)
    (state : OptimumState) (f : ObjectiveState) :
    (decompose st params state f).H =
      (istable (decompose st params state f)).foldl
        (fun H s => setEntry H s s (H s s + state.z s / state.x s))
        (match f.hessian with
          | some hessian => hessian
          | none => st.H) := rfl

theorem partition_three_high :
    stdPartition (fun i => decide ((exampleState 1 2).z i < 1)) [0, 1, 2] = ([2, 1, 0], 2) := by
  simp [stdPartition, partitionAux, exampleState]

theorem unstableStepper_fields :
    unstableStepper.iordering = [2, 1, 0] ∧ unstableStepper.ns = 2 ∧
    unstableStepper.nu = 1 ∧ unstableStepper.nf = 0 ∧ unstableStepper.H 0 0 = 1 := by
  obtain ⟨-, h2, -, h4, h5, h6⟩ := decompose_fields
    (initializeStepper exampleStepper (exampleStructure 3)) exampleParams
    (exampleState 1 2) exampleObjective
  have hH := decompose_H (initializeStepper exampleStepper (exampleStructure 3)) exampleParams
    (exampleState 1 2) exampleObjective
  have ht : List.take ((initializeStepper exampleStepper (exampleStructure 3)).n -
      exampleParams.ifixed.length)
      (initializeStepper exampleStepper (exampleStructure 3)).iordering = [0, 1, 2] := by decide
  have hd : List.drop ((initializeStepper exampleStepper (exampleStructure 3)).n -
      exampleParams.ifixed.length)
      (initializeStepper exampleStepper (exampleStructure 3)).iordering = [] := by decide
  rw [ht, partition_three_high] at h4 h5 h6
  rw [hd] at h4
  have hs : istable unstableStepper = [2, 1] := by
    unfold istable headI unstableStepper
    rw [h4, h5]
    rfl
  refine ⟨h4, h5, h6, h2, ?_⟩
  unfold unstableStepper
  rw [hH]
  have hs2 : istable (decompose (initializeStepper exampleStepper (exampleStructure 3))
      exampleParams (exampleState 1 2) exampleObjective) = [2, 1] := hs
  rw [hs2]
  simp [setEntry, exampleObjective, Function.update]

end OptimumStepper
namespace OptimumStepper

variable {kktSolver : SaddlePointSolver}

/-- The algebra behind lines 170 and 173: with `dz = -(a - h*c/z + q)/(1 + h*x/z)` and
`dx = (c - x*dz)/z`, where `c = -(x*z - mu)`, the combination `h*dx - q - dz` is `a`. -/
theorem unstable_row_algebra (h x z mu a q : ℚ) (hz : z ≠ 0) (hD : 1 + h * x / z ≠ 0) :
    h * ((-(x * z - mu) - x * (-(a - h * -(x * z - mu) / z + q) / (1 + h * x / z))) / z) - q -
      -(a - h * -(x * z - mu) / z + q) / (1 + h * x / z) = a := by
  have e : 1 + h * x / z = (z + h * x) / z := by field_simp
  have hD2 : z + h * x ≠ 0 := by
    intro h0
    apply hD
    rw [e, h0, zero_div]
  rw [e]
  field_simp
  ring

/-- C24. In a state whose ordering has no repetition and whose segments fit in it, for
every unstable variable `u` with `z[u] ≠ 0` and `1 + H(u,u)*x[u]/z[u] ≠ 0`, the `dx[u]`,
`dz[u]` and the sign-flipped `dy` returned by `solve` satisfy the scalar optimality row
`H(u,u)*dx[u] - A.col(u)·dy - dz[u] = -(g[u] - (Aᵀy)[u] - z[u])`, whatever the saddle
point solver returns. -/
theorem solve_unstable_optimality_row (st : Impl kktSolver) (params : OptimumParams)
    (state : OptimumState) (f : ObjectiveState) (u : ℕ) (hnd : st.iordering.Nodup)
    (hseg : st.ns + st.nu + st.nf ≤ st.iordering.length) (hu : u ∈ iunstable st)
    (hz : state.z u ≠ 0) (hD : 1 + st.H u u * state.x u / state.z u ≠ 0) :
    st.H u u * (solve st params state f).solution.dx u -
        dotCol st.m st.structure_.A u (solve st params state f).solution.dy -
        (solve st params state f).solution.dz u =
      -(f.grad u - trMulVec st.m st.structure_.A state.y u - state.z u) := by
  obtain ⟨h1, -, -⟩ := segments_disjoint st.iordering st.ns st.nu st.nf hnd hseg u
  have hs : u ∉ istable st := fun h => h1 h hu
  have hndu : (iunstable st).Nodup :=
    hnd.sublist ((List.take_sublist _ _).trans (List.drop_sublist _ _))
  have hdz := solve_dz_unstable st params state f u hndu hu hs
  have hdx := solve_dx_unstable st params state f u hu
  rw [hdx]
  generalize (solve st params state f).solution.dz u = dz at hdz ⊢
  generalize dotCol st.m st.structure_.A u (solve st params state f).solution.dy = q at hdz ⊢
  generalize -(f.grad u - trMulVec st.m st.structure_.A state.y u - state.z u) = a at hdz ⊢
  rw [hdz]
  exact unstable_row_algebra _ _ _ _ _ _ hz hD

theorem unstableStepper_invariants :
    unstableStepper.iordering.Nodup ∧
    unstableStepper.ns + unstableStepper.nu + unstableStepper.nf ≤
      unstableStepper.iordering.length ∧
    0 ∈ iunstable unstableStepper ∧ 1 ∈ istable unstableStepper := by
  obtain ⟨h1, h2, h3, h4, -⟩ := unstableStepper_fields
  refine ⟨by rw [h1]; decide, by rw [h1, h2, h3, h4]; decide, ?_, ?_⟩
  · unfold iunstable segmentI
    rw [h1, h2, h3]
    decide
  · unfold istable headI
    rw [h1, h2]
    decide

theorem solve_unstable_optimality_row_witness :
    unstableStepper.iordering.Nodup ∧
    unstableStepper.ns + unstableStepper.nu + unstableStepper.nf ≤
      unstableStepper.iordering.length ∧
    0 ∈ iunstable unstableStepper ∧ (exampleState 1 2).z 0 ≠ 0 ∧
    1 + unstableStepper.H 0 0 * (exampleState 1 2).x 0 / (exampleState 1 2).z 0 ≠ 0 ∧
    unstableStepper.H 0 0 *
        (solve unstableStepper exampleParams (exampleState 1 2) exampleObjective).solution.dx 0 -
      dotCol unstableStepper.m unstableStepper.structure_.A 0
        (solve unstableStepper exampleParams (exampleState 1 2) exampleObjective).solution.dy -
      (solve unstableStepper exampleParams (exampleState 1 2) exampleObjective).solution.dz 0 =
      -(exampleObjective.grad 0 -
        trMulVec unstableStepper.m unstableStepper.structure_.A (exampleState 1 2).y 0 -
        (exampleState 1 2).z 0) :=
  have hz : (exampleState 1 2).z 0 ≠ 0 := by simp [exampleState]
  have hD : 1 + unstableStepper.H 0 0 * (exampleState 1 2).x 0 / (exampleState 1 2).z 0 ≠ 0 := by
    rw [unstableStepper_fields.2.2.2.2]
    simp [exampleState]
    norm_num
  ⟨unstableStepper_invariants.1, unstableStepper_invariants.2.1,
    unstableStepper_invariants.2.2.1, hz, hD,
    solve_unstable_optimality_row unstableStepper exampleParams (exampleState 1 2)
      exampleObjective 0 unstableStepper_invariants.1 unstableStepper_invariants.2.1
      unstableStepper_invariants.2.2.1 hz hD⟩

/-- C25. In a state whose ordering has no repetition and whose segments fit in it, the
step returned by `solve` satisfies the linearised complementarity equation
`z[i]*dx[i] + x[i]*dz[i] = mu - x[i]*z[i]` for every stable `i` with `x[i] ≠ 0` and every
unstable `i` with `z[i] ≠ 0`, whatever the saddle point solver returns. -/
theorem solve_complementarity (st : Impl kktSolver) (params : OptimumParams)
    (state : OptimumState) (f : ObjectiveState) (hnd : st.iordering.Nodup)
    (hseg : st.ns + st.nu + st.nf ≤ st.iordering.length) :
    (∀ s ∈ istable st, state.x s ≠ 0 →
      state.z s * (solve st params state f).solution.dx s +
        state.x s * (solve st params state f).solution.dz s =
        st.options.mu - state.x s * state.z s) ∧
    (∀ u ∈ iunstable st, state.z u ≠ 0 →
      state.z u * (solve st params state f).solution.dx u +
        state.x u * (solve st params state f).solution.dz u =
        st.options.mu - state.x u * state.z u) := by
  constructor
  · intro s hs hx
    obtain ⟨h1, -, -⟩ := segments_disjoint st.iordering st.ns st.nu st.nf hnd hseg s
    rw [solve_dz_stable st params state f s hs (h1 hs)]
    field_simp
  · intro u hu hz
    rw [solve_dx_unstable st params state f u hu]
    field_simp

theorem solve_complementarity_witness :
    unstableStepper.iordering.Nodup ∧
    unstableStepper.ns + unstableStepper.nu + unstableStepper.nf ≤
      unstableStepper.iordering.length ∧
    0 ∈ iunstable unstableStepper ∧ (exampleState 1 2).z 0 ≠ 0 ∧
    1 ∈ istable unstableStepper ∧ (exampleState 1 2).x 1 ≠ 0 ∧
    (exampleState 1 2).z 0 *
        (solve unstableStepper exampleParams (exampleState 1 2) exampleObjective).solution.dx 0 +
      (exampleState 1 2).x 0 *
        (solve unstableStepper exampleParams (exampleState 1 2) exampleObjective).solution.dz 0 =
      unstableStepper.options.mu - (exampleState 1 2).x 0 * (exampleState 1 2).z 0 ∧
    (exampleState 1 2).z 1 *
        (solve unstableStepper exampleParams (exampleState 1 2) exampleObjective).solution.dx 1 +
      (exampleState 1 2).x 1 *
        (solve unstableStepper exampleParams (exampleState 1 2) exampleObjective).solution.dz 1 =
      unstableStepper.options.mu - (exampleState 1 2).x 1 * (exampleState 1 2).z 1 :=
  have hz : (exampleState 1 2).z 0 ≠ 0 := by simp [exampleState]
  have hx : (exampleState 1 2).x 1 ≠ 0 := by simp [exampleState]
  have h := solve_complementarity unstableStepper exampleParams (exampleState 1 2)
    exampleObjective unstableStepper_invariants.1 unstableStepper_invariants.2.1
  ⟨unstableStepper_invariants.1, unstableStepper_invariants.2.1,
    unstableStepper_invariants.2.2.1, hz, unstableStepper_invariants.2.2.2, hx,
    h.2 0 unstableStepper_invariants.2.2.1 hz, h.1 1 unstableStepper_invariants.2.2.2 hx⟩

end OptimumStepper
namespace OptimumStepper

variable {kktSolver : SaddlePointSolver}

theorem partition_three_low :
    stdPartition (fun i => decide ((exampleState 1 (1 / 2)).z i < 1)) [0, 1, 2] =
      ([0, 1, 2], 3) := by
  simp [stdPartition, partitionAux, exampleState]
  norm_num

/-- One call of `decompose` at `x = (1, 1, 1)`, `z = (1/2, 0, 0)` on three variables in the
order `[0, 1, 2]`, none fixed: the order is kept, all are stable, and `H(0,0)` is the entry
of the Hessian of `f` (of the previous `H` when the Hessian is empty) plus `z[0]/x[0]`. -/
theorem decompose_three_stable (st : Impl kktSolver) (f : ObjectiveState)
    (hord : st.iordering = [0, 1, 2]) (hn : st.n = 3) :
    (decompose st exampleParams (exampleState 1 (1 / 2)) f).iordering = [0, 1, 2] ∧
    (decompose st exampleParams (exampleState 1 (1 / 2)) f).n = 3 ∧
    (decompose st exampleParams (exampleState 1 (1 / 2)) f).H 0 0 =
      (match f.hessian with
        | some hessian => hessian
        | none => st.H) 0 0 + 1 / 2 := by
  obtain ⟨h1, -, -, h4, h5, -⟩ := decompose_fields st exampleParams (exampleState 1 (1 / 2)) f
  have ht : List.take (st.n - exampleParams.ifixed.length) st.iordering = [0, 1, 2] := by
    rw [hord, hn]; rfl
  have hd : List.drop (st.n - exampleParams.ifixed.length) st.iordering = [] := by
    rw [hord, hn]; rfl
  rw [ht, partition_three_low] at h4 h5
  rw [hd] at h4
  have hs : istable (decompose st exampleParams (exampleState 1 (1 / 2)) f) = [0, 1, 2] := by
    unfold istable headI
    rw [h4, h5]
    rfl
  refine ⟨h4, by rw [h1, hn], ?_⟩
  rw [decompose_H, hs]
  simp [setEntry, Function.update, exampleState]

/-- C26, at the failing input. After `initialize` with `n = 3`, at `x = (1, 1, 1)`,
`z = (1/2, 0, 0)` and with an objective whose Hessian is empty, the first `decompose`
leaves `H(0,0) = H₀(0,0) + 1/2` and a second call with the same arguments leaves
`H(0,0) = H₀(0,0) + 1`, where `H₀` is the matrix before the first call: the matrix handed
to the saddle point solver has changed. With the identity Hessian both calls leave
`H(0,0) = 3/2`. -/
theorem decompose_twice_empty_hessian (st : Impl kktSolver) :
    (decompose (initializeStepper st (exampleStructure 3)) exampleParams
      (exampleState 1 (1 / 2)) emptyHessianObjective).H 0 0 = st.H 0 0 + 1 / 2 ∧
    (decompose (decompose (initializeStepper st (exampleStructure 3)) exampleParams
        (exampleState 1 (1 / 2)) emptyHessianObjective) exampleParams
      (exampleState 1 (1 / 2)) emptyHessianObjective).H 0 0 = st.H 0 0 + 1 ∧
    (decompose (decompose (initializeStepper st (exampleStructure 3)) exampleParams
        (exampleState 1 (1 / 2)) emptyHessianObjective) exampleParams
      (exampleState 1 (1 / 2)) emptyHessianObjective).H ≠
      (decompose (initializeStepper st (exampleStructure 3)) exampleParams
        (exampleState 1 (1 / 2)) emptyHessianObjective).H ∧
    (decompose (initializeStepper st (exampleStructure 3)) exampleParams
      (exampleState 1 (1 / 2)) exampleObjective).H 0 0 = 3 / 2 ∧
    (decompose (decompose (initializeStepper st (exampleStructure 3)) exampleParams
        (exampleState 1 (1 / 2)) exampleObjective) exampleParams
      (exampleState 1 (1 / 2)) exampleObjective).H 0 0 = 3 / 2 := by
  obtain ⟨a1, a2, a3⟩ := decompose_three_stable (initializeStepper st (exampleStructure 3))
    emptyHessianObjective rfl rfl
  obtain ⟨-, -, b3⟩ := decompose_three_stable _ emptyHessianObjective a1 a2
  obtain ⟨c1, c2, c3⟩ := decompose_three_stable (initializeStepper st (exampleStructure 3))
    exampleObjective rfl rfl
  obtain ⟨-, -, d3⟩ := decompose_three_stable _ exampleObjective c1 c2
  have e1 : (decompose (initializeStepper st (exampleStructure 3)) exampleParams
      (exampleState 1 (1 / 2)) emptyHessianObjective).H 0 0 = st.H 0 0 + 1 / 2 := a3
  have e2 : (decompose (decompose (initializeStepper st (exampleStructure 3)) exampleParams
        (exampleState 1 (1 / 2)) emptyHessianObjective) exampleParams
      (exampleState 1 (1 / 2)) emptyHessianObjective).H 0 0 = st.H 0 0 + 1 := by
    rw [b3]
    show (decompose (initializeStepper st (exampleStructure 3)) exampleParams
      (exampleState 1 (1 / 2)) emptyHessianObjective).H 0 0 + 1 / 2 = st.H 0 0 + 1
    rw [e1]
    ring
  refine ⟨e1, e2, ?_, ?_, ?_⟩
  · intro h
    have h2 := congrFun (congrFun h 0) 0
    rw [e1, e2] at h2
    linarith
  · rw [c3]
    simp [exampleObjective]
    norm_num
  · rw [d3]
    simp [exampleObjective]
    norm_num

end OptimumStepper

namespace ResidualVector

/-- C21. After `update`, `canonicalVector()` returns `as = -(g(js) + Asᵀy + Jsᵀz)` on the
`ns = nbs + nns` stable positions (entry `k` is `-(g[js[k]] + Σᵢ A(i, js[k]) y[i] +
Σᵢ J(i, js[k]) z[i])`), `au = 0` on the `nu` unstable positions, and `ap = -v` on the `np`
parameter positions. -/
theorem update_optimality_blocks {nx np ny nz nbs nns nu : ℕ}
    (args : UpdateArgs nx np ny nz nbs nns nu) :
    (canonicalVector (update args)).as =
      -((fun k => args.g (args.js k)) + (cols (topRows args.Wx) args.js)ᵀ *ᵥ args.y +
        (cols (bottomRows args.Wx) args.js)ᵀ *ᵥ args.z) ∧
    (∀ k, (canonicalVector (update args)).as k =
      -(args.g (args.js k) + ∑ i, args.Wx (Sum.inl i) (args.js k) * args.y i +
        ∑ i, args.Wx (Sum.inr i) (args.js k) * args.z i)) ∧
    (∀ k, (canonicalVector (update args)).au k = 0) ∧
    (canonicalVector (update args)).ap = -args.v := by
  refine ⟨rfl, ?_, fun _ => rfl, rfl⟩
  intro k
  simp [canonicalVector, update, head, vjoin, cols, topRows, bottomRows, Matrix.mulVec,
    Matrix.dotProduct]

/-- C22. `update` fails on an assertion, and returns no residual, if and only if at least
one of the eight size conditions `x.size = nx`, `p.size = np`, `y.size = ny`,
`z.size = nz`, `g.size = nx`, `v.size = np`, `b.size = ny`, `h.size = nz` is violated;
when all hold it completes with the residual of lines 68-117. -/
theorem update_fails_iff_size_mismatch {nx np ny nz nbs nns nu : ℕ}
    (args : UncheckedUpdateArgs nx np ny nz nbs nns nu) :
    ((∃ e, updateAsserted args = .error e) ↔
      ¬ (args.x.length = nx ∧ args.p.length = np ∧ args.y.length = ny ∧
        args.z.length = nz ∧ args.g.length = nx ∧ args.v.length = np ∧
        args.b.length = ny ∧ args.h.length = nz)) ∧
    ((args.x.length = nx ∧ args.p.length = np ∧ args.y.length = ny ∧
        args.z.length = nz ∧ args.g.length = nx ∧ args.v.length = np ∧
        args.b.length = ny ∧ args.h.length = nz) ↔
      updateAsserted args = .ok (update args.checked)) := by
  unfold updateAsserted ResidualFunction.cAssert
  by_cases h1 : args.x.length = nx <;> by_cases h2 : args.p.length = np <;>
  by_cases h3 : args.y.length = ny <;> by_cases h4 : args.z.length = nz <;>
  by_cases h5 : args.g.length = nx <;> by_cases h6 : args.v.length = np <;>
  by_cases h7 : args.b.length = ny <;> by_cases h8 : args.h.length = nz <;>
  simp [h1, h2, h3, h4, h5, h6, h7, h8, bind, Except.bind, pure, Except.pure]

/-- C22, an instance of each case: with `p` of size 2 where `np = 1` the call fails, with
all sizes right it completes. -/
theorem update_fails_iff_size_mismatch_example :
    (∃ e, updateAsserted (exampleUnchecked true) = .error e) ∧
    updateAsserted (exampleUnchecked false) = .ok (update (exampleUnchecked false).checked) :=
  ⟨⟨_, rfl⟩, rfl⟩

end ResidualVector

section SolverDegenerate

variable {nbi : ℕ}

/-- The output of `solve` when `nbe = nns = np = 0`, on a state whose workspace `Hxx` holds
`J.Hss`: `u.xs = a.wbs` and `u.wbs = a.xs - Hss*a.wbs` on the `nbi` positions. -/
theorem solve_degenerate_output (lu : LU (IdxT 0 0 0)) (st : Impl lu nbi)
    (J : CanonicalMatrix 0 nbi 0 0) (a : CanonicalVector 0 nbi 0 0)
    (hxx : st.Hxx = (decomposeWorkspace J).1) :
    (∀ i, (solve lu st J a).2.xs (Sum.inl (Sum.inr i)) = a.wbs (Sum.inr i)) ∧
    (∀ i, (solve lu st J a).2.wbs (Sum.inr i) =
      a.xs (Sum.inl (Sum.inr i)) -
        ∑ j, J.Hss (Sum.inl (Sum.inr i)) (Sum.inl (Sum.inr j)) * a.wbs (Sum.inr j)) := by
  constructor
  · intro i
    simp [solve, solveWorkspace, head, tail, vjoin]
  · intro i
    simp [solve, solveWorkspace, head, tail, vjoin, hxx, decomposeWorkspace, topRows,
      bottomRows, leftCols, rightCols, vcat, hcat, Matrix.mulVec, Matrix.dotProduct]

end SolverDegenerate

section SolverDegenerateClaim

variable {nbi : ℕ}

/-- C28. When `nbe = 0`, `nns = 0` and `np = 0` (reduced order `t = 0`), `decompose` succeeds
whatever the dense solver is and leaves the stored factorisation as it was (`lu.decompose` is
not called), and `solve` on the state it leaves returns `u.xs = a.wbs` and
`u.wbs = a.xs - Hss*a.wbs`, which satisfies the canonical system (`Hss*u.xs + u.wbs = a.xs`
and `u.xs = a.wbs`). -/
theorem solve_degenerate (lu : LU (IdxT 0 0 0)) (st : Impl lu nbi)
    (J : CanonicalMatrix 0 nbi 0 0) (a : CanonicalVector 0 nbi 0 0) :
    ∃ st1, decompose lu st J = .ok st1 ∧ st1.lu = st.lu ∧
      head (solve lu st1 J a).2.xs = a.wbs ∧
      (solve lu st1 J a).2.wbs = head a.xs - leftCols (topRows J.Hss) *ᵥ a.wbs ∧
      canonicalProduct J (solve lu st1 J a).2 = a := by
  have ht : ¬ (0 + 0 + 0 + 0 ≠ 0) := by simp
  have hdec : decompose lu st J = .ok
      { st with Hxx := (decomposeWorkspace J).1, Hxp := (decomposeWorkspace J).2.1,
                Vpx := (decomposeWorkspace J).2.2.1, Vpp := (decomposeWorkspace J).2.2.2.1,
                Mw := (decomposeWorkspace J).2.2.2.2 } := by
    unfold decompose
    simp only [if_neg ht]
  obtain ⟨h1, h2⟩ := solve_degenerate_output lu
    { st with Hxx := (decomposeWorkspace J).1, Hxp := (decomposeWorkspace J).2.1,
              Vpx := (decomposeWorkspace J).2.2.1, Vpp := (decomposeWorkspace J).2.2.2.1,
              Mw := (decomposeWorkspace J).2.2.2.2 } J a rfl
  refine ⟨_, hdec, rfl, ?_, ?_, ?_⟩
  · funext i
    rcases i with i | i
    · exact i.elim0
    · exact h1 i
  · funext i
    rcases i with i | i
    · exact i.elim0
    · rw [h2 i]
      simp [head, leftCols, topRows, Matrix.mulVec, Matrix.dotProduct]
  · apply canonicalVector_ext
    · funext i
      rcases i with (i | i) | i
      · exact i.elim0
      · simp only [canonicalProduct]
        simp [Matrix.mulVec, Matrix.dotProduct, hcat, h1, h2, Matrix.one_apply]
      · exact i.elim0
    · funext i
      exact i.elim0
    · funext i
      rcases i with i | i
      · exact i.elim0
      · simp only [canonicalProduct]
        simp [Matrix.mulVec, Matrix.dotProduct, hcat, h1, Matrix.one_apply]

end SolverDegenerateClaim

namespace Math

namespace CanonicalMatrix

variable {m n r : ℕ}

/-- The method `swap` does not touch the row permutation `P`. -/
theorem swap_P (C : CanonicalMatrix m n r) (ib : Fin r) (inn : Fin (n - r)) :
    (swap C ib inn).2.m_P = C.m_P := by
  unfold swap
  simp only
  split <;> rfl

/-- C29. `swap` is an involution: for every state and every `ib`, `in` with
`S(ib, in) ≠ 0`, both of two successive calls `swap(ib, in)` succeed and the second
restores `R`, `Rinv`, `S` and `Q` (and leaves `P`) as they were before the first. -/
theorem swap_swap (C : CanonicalMatrix m n r) (ib : Fin r) (inn : Fin (n - r))
    (hp : C.m_S ib inn ≠ 0) :
    (swap C ib inn).1 = .ok () ∧ (swap (swap C ib inn).2 ib inn).1 = .ok () ∧
    (swap (swap C ib inn).2 ib inn).2.m_R = C.m_R ∧
    (swap (swap C ib inn).2 ib inn).2.m_Rinv = C.m_Rinv ∧
    (swap (swap C ib inn).2 ib inn).2.m_S = C.m_S ∧
    (swap (swap C ib inn).2 ib inn).2.m_Q = C.m_Q ∧
    (swap (swap C ib inn).2 ib inn).2.m_P = C.m_P := by
  obtain ⟨hok, hR, hS, hQ⟩ := swap_of_pivot_ne_zero C ib inn hp
  have hRinv := swap_Rinv_of_pivot_ne_zero C ib inn hp
  have hpiv : (swap C ib inn).2.m_S ib inn = 1 / C.m_S ib inn := by
    rw [hS]; simp
  have hp2 : (swap C ib inn).2.m_S ib inn ≠ 0 := by
    rw [hpiv]
    exact one_div_ne_zero hp
  obtain ⟨hok2, hR2, hS2, hQ2⟩ := swap_of_pivot_ne_zero (swap C ib inn).2 ib inn hp2
  have hRinv2 := swap_Rinv_of_pivot_ne_zero (swap C ib inn).2 ib inn hp2
  have hP : (swap (swap C ib inn).2 ib inn).2.m_P = C.m_P := by
    rw [swap_P, swap_P]
  refine ⟨hok, hok2, ?_, ?_, ?_, ?_, hP⟩
  · funext i j
    rw [hR2, hpiv]
    by_cases hi : i = ib
    · subst hi
      rw [if_pos rfl, hR, if_pos rfl]
      field_simp
    · rw [if_neg hi, hR, hR, hS, if_neg hi, if_neg hi, if_pos rfl, if_pos rfl]
      field_simp
  · rw [hRinv2, hRinv]
    funext k l
    by_cases hl : l = ib
    · subst hl
      rw [Matrix.updateColumn_self]
      simp only [Matrix.mulVec, Matrix.dotProduct]
      have hterm : ∀ i, (C.m_Rinv.updateColumn l (C.m_Rinv *ᵥ fun i => C.m_S i inn)) k i *
          (swap C l inn).2.m_S i inn =
          -(C.m_Rinv k i * C.m_S i inn) * (1 / C.m_S l inn) +
            (if i = l then ((C.m_Rinv *ᵥ fun i => C.m_S i inn) k + C.m_Rinv k l * C.m_S l inn)
              * (1 / C.m_S l inn) else 0) := by
        intro i
        rw [hS]
        by_cases hi : i = l
        · subst hi
          rw [Matrix.updateColumn_self, if_pos rfl, if_pos rfl, if_pos rfl]
          ring
        · rw [Matrix.updateColumn_ne hi, if_neg hi, if_neg hi, if_pos rfl]
          ring
      rw [Finset.sum_congr rfl fun i _ => hterm i, Finset.sum_add_distrib,
        Finset.sum_ite_eq' Finset.univ l, if_pos (Finset.mem_univ l), ← Finset.sum_mul,
        Finset.sum_neg_distrib]
      simp only [Matrix.mulVec, Matrix.dotProduct]
      field_simp
      ring
    · rw [Matrix.updateColumn_ne hl, Matrix.updateColumn_ne hl]
  · funext i j
    rw [hS2, hpiv]
    by_cases hi : i = ib
    · subst hi
      by_cases hj : j = inn
      · subst hj
        rw [if_pos rfl, if_pos rfl]
        field_simp
      · rw [if_pos rfl, if_neg hj, hS, if_pos rfl, if_neg hj]
        field_simp
    · by_cases hj : j = inn
      · subst hj
        rw [if_neg hi, if_pos rfl, hS, if_neg hi, if_pos rfl]
        field_simp
      · rw [if_neg hi, if_neg hj, hS, hS, hS, if_neg hi, if_neg hj, if_neg hi, if_pos rfl,
          if_pos rfl, if_neg hj]
        field_simp
  · rw [hQ2, hQ]
    funext k
    by_cases h1 : k = Sum.inr inn
    · subst h1
      simp
    · by_cases h2 : k = Sum.inl ib
      · subst h2
        simp
      · simp [Function.update_noteq h1, Function.update_noteq h2]

theorem swap_swap_witness :
    exampleCanonical.m_S 0 0 ≠ 0 ∧
    (swap (swap exampleCanonical 0 0).2 0 0).2.m_R = exampleCanonical.m_R ∧
    (swap (swap exampleCanonical 0 0).2 0 0).2.m_Rinv = exampleCanonical.m_Rinv ∧
    (swap (swap exampleCanonical 0 0).2 0 0).2.m_S = exampleCanonical.m_S ∧
    (swap (swap exampleCanonical 0 0).2 0 0).2.m_Q = exampleCanonical.m_Q :=
  have hp : exampleCanonical.m_S 0 0 ≠ 0 := by simp [exampleCanonical]
  have h := swap_swap exampleCanonical 0 0 hp
  ⟨hp, h.2.2.1, h.2.2.2.1, h.2.2.2.2.1, h.2.2.2.2.2.1⟩

end CanonicalMatrix

end Math

/-! ### `IpSaddlePointMatrix`: the dense conversion -/

namespace IpSaddlePointMatrix

variable {n mu ml : ℕ}

theorem ofMatrix_apply {p q : ℕ} (X : Matrix (Fin p) (Fin q) ℚ) (i : Fin p) (j : Fin q) :
    ofMatrix X i j = X i j := by
  simp [ofMatrix]

theorem ofVector_apply {p : ℕ} (d : Fin p → ℚ) (i : Fin p) : ofVector d i = d i := by
  simp [ofVector]

theorem fillCols_nil (res : ℕ → ℕ → ℚ) (B : Block) (v : ℚ) : fillCols res B [] v = res := by
  funext i j
  simp [fillCols]

theorem fillRows_nil (res : ℕ → ℕ → ℚ) (B : Block) (v : ℚ) : fillRows res B [] v = res := by
  funext i j
  simp [fillRows]

theorem fillDiagonalAt_nil (res : ℕ → ℕ → ℚ) (B : Block) (v : ℚ) :
    fillDiagonalAt res B [] v = res := by
  funext i j
  simp [fillDiagonalAt]

theorem position_lt (a : Idx n mu ml) : position a < 3 * n + (mu + ml) := by
  rcases a with i | i | i | i | i <;> simp only [position] <;> omega

theorem position_injective : Function.Injective (position : Idx n mu ml → ℕ) := by
  intro a b h
  rcases a with i | i | i | i | i <;> rcases b with j | j | j | j | j <;>
    simp only [position] at h <;>
    first
    | omega
    | (congr; apply Fin.ext; omega)

theorem position_surjective (k : ℕ) (hk : k < 3 * n + (mu + ml)) :
    ∃ a : Idx n mu ml, position a = k := by
  by_cases h1 : k < n
  · exact ⟨.inl ⟨k, h1⟩, rfl⟩
  by_cases h2 : k < n + mu
  · exact ⟨.inr (.inl ⟨k - n, by omega⟩), by simp only [position]; omega⟩
  by_cases h3 : k < n + mu + ml
  · exact ⟨.inr (.inr (.inl ⟨k - (n + mu), by omega⟩)), by simp only [position]; omega⟩
  by_cases h4 : k < n + (mu + ml) + n
  · exact ⟨.inr (.inr (.inr (.inl ⟨k - (n + (mu + ml)), by omega⟩))),
      by simp only [position]; omega⟩
  · exact ⟨.inr (.inr (.inr (.inr ⟨k - (n + (mu + ml) + n), by omega⟩))),
      by simp only [position]; omega⟩

end IpSaddlePointMatrix
namespace IpSaddlePointMatrix

variable {n mu ml : ℕ}

set_option maxHeartbeats 1000000 in
/-- The coefficients of the converted matrix for a dense `H` and no fixed variables, segment
by segment, are those of the block matrix. -/
theorem toMatrix_coeff_dense (H : Matrix (Fin n) (Fin n) ℚ)
    (Au : Matrix (Fin mu) (Fin n) ℚ) (Al : Matrix (Fin ml) (Fin n) ℚ) (Z W L U : Fin n → ℚ)
    (a b : Idx n mu ml) :
    (toMatrix { H := .dense H, Au := Au, Al := Al, Z := Z, W := W, L := L, U := U,
                jf := [] }).coeff (position a) (position b) =
      blockMatrix H Au Al Z W L U a b := by
  simp only [toMatrix, fillCols_nil, fillRows_nil, fillDiagonalAt_nil]
  rcases a with i | i | i | i | i <;> rcases b with j | j | j | j | j <;>
    simp only [position, assign, assignDiagonal, fillDiagonal, Block.whole,
      Block.topLeftCorner, Block.topRightCorner, Block.bottomLeftCorner, Block.middleCols,
      Block.middleRows, Block.leftCols, Block.rightCols, Block.bottomRows, blockMatrix,
      vcat, hcat, Sum.elim_inl, Sum.elim_inr, ite_apply] <;>
    simp (disch := omega) only [if_pos, if_neg, ite_self] <;>
    try simp [ofMatrix_apply, ofVector_apply]
  all_goals first
    | (intro h; exact absurd j.isLt (by omega))
    | (have e : n + (mu + ml) + n + ↑i - (3 * n + (mu + ml) - n) = (i : ℕ) := by omega
       by_cases hij : i = j
       · subst hij
         simp (disch := omega) [e, ofVector_apply, Matrix.diagonal_apply, Matrix.one_apply,
           if_pos]
       · have hne : ¬ ((j : ℕ) = i) := fun h => hij (Fin.ext h.symm)
         simp (disch := omega) [e, hij, ofVector_apply, Matrix.diagonal_apply,
           Matrix.one_apply, if_neg])

/-- C23. For a dense `H` (`n × n`), `Au` (`mu × n`), `Al` (`ml × n`), vectors `Z`, `W`, `L`,
`U` of length `n` and an empty fixed set, the converted matrix is square of order
`3n + m`, `m = mu + ml`, and, its range cut into the segments of lengths `n`, `mu`, `ml`,
`n`, `n`, it is the block matrix with rows `[H, Auᵀ, Alᵀ, -I, -I]`, `[Au, 0, 0, 0, 0]`,
`[Al, 0, 0, 0, 0]`, `[diag(Z), 0, 0, diag(L), 0]`, `[diag(W), 0, 0, 0, diag(U)]`. -/
theorem toMatrix_dense_no_fixed (H : Matrix (Fin n) (Fin n) ℚ)
    (Au : Matrix (Fin mu) (Fin n) ℚ) (Al : Matrix (Fin ml) (Fin n) ℚ) (Z W L U : Fin n → ℚ) :
    (toMatrix { H := .dense H, Au := Au, Al := Al, Z := Z, W := W, L := L, U := U,
                jf := [] }).rows = 3 * n + (mu + ml) ∧
    (toMatrix { H := .dense H, Au := Au, Al := Al, Z := Z, W := W, L := L, U := U,
                jf := [] }).cols = 3 * n + (mu + ml) ∧
    Function.Injective (position : Idx n mu ml → ℕ) ∧
    (∀ k : Fin (3 * n + (mu + ml)), ∃ a : Idx n mu ml, position a = k) ∧
    ∀ a b : Idx n mu ml,
      (toMatrix { H := .dense H, Au := Au, Al := Al, Z := Z, W := W, L := L, U := U,
                  jf := [] }).coeff (position a) (position b) =
        blockMatrix H Au Al Z W L U a b :=
  ⟨rfl, rfl, position_injective, fun k => position_surjective k k.isLt,
    toMatrix_coeff_dense H Au Al Z W L U⟩

end IpSaddlePointMatrix

/-! ### `IPFilterSolver`: boundary step, multiplier reset and merit function -/

namespace IPFilterSolver

/-- The loop of `CalculateLargestBoundaryStep` over a range `l`, started from `acc`: the result is
`INF` exactly when `acc` is and no quotient of the range is positive; a finite result is
`acc` or one of the positive quotients of the range, and is below `acc` and all of them. -/
theorem foldl_minStep {ι : Type} (aux : ι → ℚ) (l : List ι) (acc : Option ℚ) :
    (l.foldl (fun step i => if aux i > 0 then minStep step (aux i) else step) acc = none ↔
      acc = none ∧ ∀ i ∈ l, ¬ aux i > 0) ∧
    ∀ s, l.foldl (fun step i => if aux i > 0 then minStep step (aux i) else step) acc = some s →
      (acc = some s ∨ ∃ i ∈ l, aux i > 0 ∧ s = aux i) ∧
      (∀ a, acc = some a → s ≤ a) ∧ ∀ i ∈ l, aux i > 0 → s ≤ aux i := by
  induction l generalizing acc with
  | nil =>
    refine ⟨by simp, ?_⟩
    intro s hs
    simp only [List.foldl_nil] at hs
    refine ⟨Or.inl hs, ?_, by simp⟩
    intro a ha
    rw [hs] at ha
    injection ha with ha
    exact ha.le
  | cons j l ih =>
    rw [List.foldl_cons]
    by_cases hj : aux j > 0
    · rw [if_pos hj]
      obtain ⟨ih1, ih2⟩ := ih (minStep acc (aux j))
      constructor
      · rw [ih1]
        constructor
        · rintro ⟨h, -⟩
          cases acc <;> simp [minStep] at h
        · rintro ⟨-, h⟩
          exact absurd hj (h j (List.mem_cons_self _ _))
      · intro s hs
        obtain ⟨h1, h2, h3⟩ := ih2 s hs
        cases acc with
        | none =>
          simp only [minStep] at h1 h2
          refine ⟨Or.inr ?_, by simp, ?_⟩
          · rcases h1 with h1 | ⟨i, hi, hpos, hsi⟩
            · injection h1 with h1
              exact ⟨j, List.mem_cons_self _ _, hj, h1.symm⟩
            · exact ⟨i, List.mem_cons_of_mem _ hi, hpos, hsi⟩
          · intro i hi hpos
            rcases List.mem_cons.mp hi with rfl | hi
            · exact h2 _ rfl
            · exact h3 i hi hpos
        | some a =>
          simp only [minStep] at h1 h2
          have hle := h2 _ rfl
          refine ⟨?_, ?_, ?_⟩
          · rcases h1 with h1 | ⟨i, hi, hpos, hsi⟩
            · injection h1 with h1
              by_cases hlt : aux j < a
              · rw [if_pos hlt] at h1
                exact Or.inr ⟨j, List.mem_cons_self _ _, hj, h1.symm⟩
              · rw [if_neg hlt] at h1
                exact Or.inl (by rw [h1])
            · exact Or.inr ⟨i, List.mem_cons_of_mem _ hi, hpos, hsi⟩
          · intro b hb
            injection hb with hb
            subst hb
            refine hle.trans ?_
            split_ifs with hlt
            · exact hlt.le
            · exact le_refl _
          · intro i hi hpos
            rcases List.mem_cons.mp hi with rfl | hi
            · refine hle.trans ?_
              split_ifs with hlt
              · exact le_refl _
              · exact not_lt.mp hlt
            · exact h3 i hi hpos
    · rw [if_neg hj]
      obtain ⟨ih1, ih2⟩ := ih acc
      constructor
      · rw [ih1]
        constructor
        · rintro ⟨h1, h2⟩
          refine ⟨h1, ?_⟩
          intro i hi
          rcases List.mem_cons.mp hi with rfl | hi
          · exact hj
          · exact h2 i hi
        · rintro ⟨h1, h2⟩
          exact ⟨h1, fun i hi => h2 i (List.mem_cons_of_mem _ hi)⟩
      · intro s hs
        obtain ⟨h1, h2, h3⟩ := ih2 s hs
        refine ⟨?_, h2, ?_⟩
        · rcases h1 with h1 | ⟨i, hi, hpos, hsi⟩
          · exact Or.inl h1
          · exact Or.inr ⟨i, List.mem_cons_of_mem _ hi, hpos, hsi⟩
        · intro i hi hpos
          rcases List.mem_cons.mp hi with rfl | hi
          · exact absurd hpos hj
          · exact h3 i hi hpos

/-- For a positive `p[i]` the quotient `-p[i]/dp[i]` is positive exactly when `dp[i] < 0`. -/
theorem quotient_pos_iff (a b : ℚ) (ha : 0 < a) : -a / b > 0 ↔ b < 0 := by
  rw [gt_iff_lt, div_pos_iff]
  constructor
  · rintro (⟨h, -⟩ | ⟨-, h⟩)
    · linarith
    · exact h
  · intro h
    exact Or.inr ⟨by linarith, h⟩

/-- C35. For every `p` with all components strictly positive and every direction `dp`, the
step returned by `CalculateLargestBoundaryStep` is infinite exactly when no `dp[i]` is negative,
and otherwise it is the minimum of `-p[i]/dp[i]` over the components with `dp[i] < 0`
(attained at one of them and below all of them); and for every `t` with `0 ≤ t ≤ s` the
point `p + t*dp` has all components `≥ 0`. -/
theorem largest_boundary_step {dimx : ℕ} (p dp : Fin dimx → ℚ) (hp : ∀ i, 0 < p i) :
    (CalculateLargestBoundaryStep p dp = INF ↔ ∀ i, ¬ dp i < 0) ∧
    (∀ s, CalculateLargestBoundaryStep p dp = some s →
      (∃ i, dp i < 0 ∧ s = -(p i) / dp i) ∧ ∀ i, dp i < 0 → s ≤ -(p i) / dp i) ∧
    (∀ t, 0 ≤ t → (∀ s, CalculateLargestBoundaryStep p dp = some s → t ≤ s) →
      ∀ i, 0 ≤ p i + t * dp i) := by
  obtain ⟨h1, h2⟩ := foldl_minStep (fun i => -(p i) / dp i) (List.finRange dimx) INF
  have hnone : CalculateLargestBoundaryStep p dp = INF ↔ ∀ i, ¬ dp i < 0 := by
    unfold CalculateLargestBoundaryStep
    show _ = none ↔ _
    rw [h1]
    constructor
    · rintro ⟨-, h⟩ i
      rw [← quotient_pos_iff (p i) (dp i) (hp i)]
      exact h i (List.mem_finRange i)
    · intro h
      refine ⟨rfl, fun i _ => ?_⟩
      rw [quotient_pos_iff (p i) (dp i) (hp i)]
      exact h i
  have hsome : ∀ s, CalculateLargestBoundaryStep p dp = some s →
      (∃ i, dp i < 0 ∧ s = -(p i) / dp i) ∧ ∀ i, dp i < 0 → s ≤ -(p i) / dp i := by
    intro s hs
    obtain ⟨h3, -, h5⟩ := h2 s hs
    constructor
    · rcases h3 with h3 | ⟨i, -, hpos, hsi⟩
      · cases h3
      · exact ⟨i, (quotient_pos_iff (p i) (dp i) (hp i)).mp hpos, hsi⟩
    · intro i hi
      exact h5 i (List.mem_finRange i) ((quotient_pos_iff (p i) (dp i) (hp i)).mpr hi)
  refine ⟨hnone, hsome, ?_⟩
  intro t ht hts i
  by_cases hi : dp i < 0
  · cases hr : CalculateLargestBoundaryStep p dp with
    | none => exact absurd hi (hnone.mp hr i)
    | some s =>
      have h6 := (hsome s hr).2 i hi
      have h7 : t ≤ -(p i) / dp i := (hts s hr).trans h6
      have h8 : -(p i) / dp i * dp i ≤ t * dp i := mul_le_mul_of_nonpos_right h7 hi.le
      rw [div_mul_cancel₀ _ hi.ne] at h8
      linarith
  · have h9 : 0 ≤ t * dp i := mul_nonneg ht (not_lt.mp hi)
    have := hp i
    linarith

theorem largest_boundary_step_witness :
    (∀ i, 0 < exampleP i) ∧
    (CalculateLargestBoundaryStep exampleP exampleDp = INF ↔ ∀ i, ¬ exampleDp i < 0) ∧
    (∀ t, 0 ≤ t → (∀ s, CalculateLargestBoundaryStep exampleP exampleDp = some s → t ≤ s) →
      ∀ i, 0 ≤ exampleP i + t * exampleDp i) :=
  have hp : ∀ i, 0 < exampleP i := by
    intro i
    fin_cases i <;> simp [exampleP]
  have h := largest_boundary_step exampleP exampleDp hp
  ⟨hp, h.1, h.2.2⟩

/-- The example step: from `p = (1, 2)` along `dp = (-2, 1)` the boundary is reached at
`s = 1/2`. -/
theorem largest_boundary_step_example :
    CalculateLargestBoundaryStep exampleP exampleDp = some (1 / 2) := by
  simp [CalculateLargestBoundaryStep, List.finRange, INF, minStep, exampleP, exampleDp]

end IPFilterSolver
namespace IPFilterSolver

/-- C36. For every state with `x[i] > 0`, `mu ≥ 0` and `kappa_zreset ≥ 1`: after
`ResetLagrangeMultipliersZ` every component satisfies
`mu/kappa_zreset ≤ x[i]*z[i] ≤ mu*kappa_zreset`, a component already inside that range is
unchanged, and applying the reset twice gives the same state as applying it once. Only `z`
is written. -/
theorem reset_multipliers_clamps {dimx dimy : ℕ} (kappa_zreset : ℚ) (state : State dimx dimy)
    (hx : ∀ i, 0 < state.x i) (hmu : 0 ≤ state.mu) (hk : 1 ≤ kappa_zreset) :
    (∀ i, state.mu / kappa_zreset ≤
        state.x i * (ResetLagrangeMultipliersZ kappa_zreset state).z i ∧
      state.x i * (ResetLagrangeMultipliersZ kappa_zreset state).z i ≤
        state.mu * kappa_zreset) ∧
    (∀ i, state.mu / kappa_zreset ≤ state.x i * state.z i →
      state.x i * state.z i ≤ state.mu * kappa_zreset →
      (ResetLagrangeMultipliersZ kappa_zreset state).z i = state.z i) ∧
    ResetLagrangeMultipliersZ kappa_zreset (ResetLagrangeMultipliersZ kappa_zreset state) =
      ResetLagrangeMultipliersZ kappa_zreset state ∧
    (ResetLagrangeMultipliersZ kappa_zreset state).x = state.x ∧
    (ResetLagrangeMultipliersZ kappa_zreset state).mu = state.mu := by
  have hk0 : 0 < kappa_zreset := by linarith
  have hLU : ∀ i, state.mu / kappa_zreset / state.x i ≤
      state.mu * kappa_zreset / state.x i := by
    intro i
    apply div_le_div_of_nonneg_right _ (hx i).le
    rw [div_le_iff₀ hk0]
    nlinarith [mul_nonneg hmu hk0.le]
  have hz : ∀ i, (ResetLagrangeMultipliersZ kappa_zreset state).z i =
      max (min (state.z i) (state.mu * kappa_zreset / state.x i))
        (state.mu / kappa_zreset / state.x i) := fun _ => rfl
  have hlow : ∀ i, state.mu / kappa_zreset / state.x i ≤
      (ResetLagrangeMultipliersZ kappa_zreset state).z i := by
    intro i
    rw [hz]
    exact le_max_right _ _
  have hupp : ∀ i, (ResetLagrangeMultipliersZ kappa_zreset state).z i ≤
      state.mu * kappa_zreset / state.x i := by
    intro i
    rw [hz]
    exact max_le (min_le_right _ _) (hLU i)
  have hfix : ∀ (z : ℚ) (i : Fin dimx), state.mu / kappa_zreset / state.x i ≤ z →
      z ≤ state.mu * kappa_zreset / state.x i →
      max (min z (state.mu * kappa_zreset / state.x i))
        (state.mu / kappa_zreset / state.x i) = z := by
    intro z i h1 h2
    rw [min_eq_left h2, max_eq_left h1]
  refine ⟨?_, ?_, ?_, rfl, rfl⟩
  · intro i
    constructor
    · have h := hlow i
      rw [div_le_iff₀ (hx i)] at h
      linarith
    · have h := hupp i
      rw [le_div_iff₀ (hx i)] at h
      linarith
  · intro i h1 h2
    rw [hz]
    apply hfix
    · rw [div_le_iff₀ (hx i)]
      linarith
    · rw [le_div_iff₀ (hx i)]
      linarith
  · have hzz : (ResetLagrangeMultipliersZ kappa_zreset
        (ResetLagrangeMultipliersZ kappa_zreset state)).z =
        (ResetLagrangeMultipliersZ kappa_zreset state).z := by
      funext i
      exact hfix _ i (hlow i) (hupp i)
    show ({ ResetLagrangeMultipliersZ kappa_zreset state with
        z := (ResetLagrangeMultipliersZ kappa_zreset
          (ResetLagrangeMultipliersZ kappa_zreset state)).z } : State dimx dimy) = _
    rw [hzz]

theorem reset_multipliers_clamps_witness :
    (∀ i, 0 < exampleState.x i) ∧ 0 ≤ exampleState.mu ∧ (1 : ℚ) ≤ 2 ∧
    (∀ i, exampleState.mu / 2 ≤
        exampleState.x i * (ResetLagrangeMultipliersZ 2 exampleState).z i ∧
      exampleState.x i * (ResetLagrangeMultipliersZ 2 exampleState).z i ≤
        exampleState.mu * 2) :=
  have hx : ∀ i, 0 < exampleState.x i := by
    intro i
    fin_cases i <;> simp [exampleState]
  have hmu : 0 ≤ exampleState.mu := by simp [exampleState]
  ⟨hx, hmu, by norm_num,
    (reset_multipliers_clamps 2 exampleState hx hmu (by norm_num)).1⟩

/-- The example state has `x*z = (5, 1/5)` and `mu = 1`; with `kappa_zreset = 2` the reset
moves both products into `[1/2, 2]`: `z` becomes `(2, 1/4)`. -/
theorem reset_multipliers_example :
    (ResetLagrangeMultipliersZ 2 exampleState).z 0 = 2 ∧
    (ResetLagrangeMultipliersZ 2 exampleState).z 1 = 1 / 4 := by
  constructor <;> norm_num [ResetLagrangeMultipliersZ, exampleState]

/-- C37. `CalculatePsi` returns a value for each of the three merit options `Objective`,
`Lagrange` and `GradLagrange`, and has no return value for any other value of
`options.psi`. -/
theorem calculatePsi_cases {dimx dimy : ℕ} (E : PsiEnumerators) (c : ℚ)
    (state : State dimx dimy) :
    CalculatePsi E E.Objective c state = some (state.f.func + c * state.mu) ∧
    CalculatePsi E E.Lagrange c state =
      some (state.f.func + c * state.mu + state.h.func ⬝ᵥ state.y) ∧
    CalculatePsi E E.GradLagrange c state =
      some (squaredNorm (state.f.grad + state.h.gradᵀ *ᵥ state.y - state.z) + state.mu) ∧
    ∀ psi : ℤ, (CalculatePsi E psi c state = none ↔
      psi ≠ E.Objective ∧ psi ≠ E.Lagrange ∧ psi ≠ E.GradLagrange) := by
  obtain ⟨h1, h2, h3⟩ := E.distinct
  refine ⟨?_, ?_, ?_, ?_⟩
  · simp [CalculatePsi]
  · simp [CalculatePsi, Ne.symm h1]
  · simp [CalculatePsi, Ne.symm h2, Ne.symm h3]
  · intro psi
    unfold CalculatePsi
    by_cases e1 : psi = E.Objective
    · simp [e1]
    · by_cases e2 : psi = E.Lagrange
      · rw [if_neg e1, if_pos e2]
        simp [e2]
      · by_cases e3 : psi = E.GradLagrange
        · rw [if_neg e1, if_neg e2, if_pos e3]
          simp [e3]
        · simp [e1, e2, e3]

/-- An instance of `CalculatePsi`: with the enumerators `0`, `1`, `2` the option `3` has no
value, the option `0` has the value `f + c*mu`. -/
theorem calculatePsi_example :
    CalculatePsi exampleEnumerators 3 1 exampleState = none ∧
    CalculatePsi exampleEnumerators 0 1 exampleState = some 4 := by
  constructor
  · simp [CalculatePsi, exampleEnumerators]
  · simp [CalculatePsi, exampleEnumerators, exampleState]
    norm_num

end IPFilterSolver

/-! ### `IpSaddlePointVector` and `IpSaddlePointSolution`: round trips -/

namespace IpSaddlePointMatrix

end IpSaddlePointMatrix

namespace IpSaddlePointVector

open IpSaddlePointMatrix

end IpSaddlePointVector

/-! ### `BlockDiagonalMatrix`: `coeff` against the dense conversion -/

namespace Math

namespace BlockDiagonalMatrix

/-- The blocks written by the conversion loop from row offset `irow` on leave the rows
above `irow` as they are. -/
theorem plainLoop_of_lt (blocks : List Block) (irow icol : ℕ) (res : ℕ → ℕ → ℚ) (i j : ℕ)
    (hi : i < irow) : plainLoop blocks irow icol res i j = res i j := by
  induction blocks generalizing irow icol res with
  | nil => rfl
  | cons block rest ih =>
    rw [plainLoop, ih _ _ _ (by omega)]
    simp only [assignBlock]
    rw [if_neg]
    omega

/-- At a position where the matrix under construction holds zero and whose row is not
above the current offset, the conversion loop leaves what the loop of `coeff` returns. -/
theorem plainLoop_eq_coeffLoop (blocks : List Block) (irow icol : ℕ) (res : ℕ → ℕ → ℚ)
    (i j : ℕ) (hi : irow ≤ i) (hres : res i j = 0) :
    plainLoop blocks irow icol res i j = coeffLoop blocks irow icol i j := by
  induction blocks generalizing irow icol res with
  | nil => exact hres
  | cons block rest ih =>
    rw [plainLoop, coeffLoop]
    by_cases h : i < irow + block.rows
    · rw [plainLoop_of_lt _ _ _ _ _ _ h]
      simp only [assignBlock, h, hi, true_and, if_true]
      split_ifs
      · rfl
      · exact hres
    · simp only [h, if_false]
      apply ih _ _ _ (by omega)
      simp only [assignBlock]
      rw [if_neg (by omega)]
      exact hres

/-- Outside the diagonal blocks the loop of `coeff` returns zero. -/
theorem coeffLoop_of_not_inDiagonalBlock (blocks : List Block) (irow icol i j : ℕ)
    (h : inDiagonalBlock blocks irow icol i j = false) (hi : irow ≤ i) :
    coeffLoop blocks irow icol i j = 0 := by
  induction blocks generalizing irow icol with
  | nil => rfl
  | cons block rest ih =>
    simp only [inDiagonalBlock, Bool.or_eq_false_iff, decide_eq_false_iff_not] at h
    rw [coeffLoop]
    by_cases h2 : i < irow + block.rows
    · simp only [h2, if_true]
      rw [if_neg]
      intro h3
      exact h.1 ⟨⟨hi, h2⟩, h3⟩
    · simp only [h2, if_false]
      exact ih _ _ h.2 (by omega)

/-- C34. For every list of blocks (blocks with no row or no column included) and every
`i < rows()`, `j < cols()`, `coeff(i, j)` passes its assertion and equals entry `(i, j)` of
the dense matrix of the conversion to `PlainObject`, a matrix with `rows()` rows and
`cols()` columns, the sums of the row and column counts of the blocks; and it is `0`
outside the diagonal blocks. -/
theorem coeff_eq_toPlainObject (blocks : List Block) (i j : ℕ) (hi : i < rows blocks)
    (hj : j < cols blocks) :
    coeff blocks i j = .ok ((toPlainObject blocks).coeff i j) ∧
    (toPlainObject blocks).rows = (blocks.map Block.rows).sum ∧
    (toPlainObject blocks).cols = (blocks.map Block.cols).sum ∧
    (inDiagonalBlock blocks 0 0 i j = false → coeff blocks i j = .ok 0) := by
  have hsum : ∀ (f : Block → ℕ) (l : List Block) (a : ℕ),
      l.foldl (fun sum block => sum + f block) a = a + (l.map f).sum := by
    intro f l
    induction l with
    | nil => intro a; simp
    | cons b l ih => intro a; rw [List.foldl_cons, ih, List.map_cons, List.sum_cons]; omega
  have hc : coeff blocks i j = .ok (coeffLoop blocks 0 0 i j) := by
    simp only [coeff, hi, hj, and_self, if_true]
  refine ⟨?_, ?_, ?_, ?_⟩
  · rw [hc]
    show _ = Except.ok (plainLoop blocks 0 0 (fun _ _ => 0) i j)
    rw [plainLoop_eq_coeffLoop blocks 0 0 _ i j (Nat.zero_le _) rfl]
  · show rows blocks = _
    rw [rows, hsum Block.rows, Nat.zero_add]
  · show cols blocks = _
    rw [cols, hsum Block.cols, Nat.zero_add]
  · intro h
    rw [hc, coeffLoop_of_not_inDiagonalBlock blocks 0 0 i j h (Nat.zero_le _)]

theorem coeff_eq_toPlainObject_witness :
    1 < rows exampleBlocks ∧ 2 < cols exampleBlocks ∧
    coeff exampleBlocks 1 2 = .ok ((toPlainObject exampleBlocks).coeff 1 2) ∧
    (toPlainObject exampleBlocks).rows = 4 ∧ (toPlainObject exampleBlocks).cols = 3 :=
  have h := coeff_eq_toPlainObject exampleBlocks 1 2 (by decide) (by decide)
  ⟨by decide, by decide, h.1, h.2.1, h.2.2.1⟩

end BlockDiagonalMatrix

end Math

/-! ### `IpSaddlePointMatrix`: the rows and columns of the fixed variables -/

namespace IpSaddlePointMatrix

variable {n mu ml : ℕ}

/-- The stages compose to the conversion. -/
theorem toMatrix_coeff (M : IpSaddlePointMatrix n mu ml) :
    (toMatrix M).coeff = boundStage M := rfl

/-- The top left block after lines 45-62, in a row or a column of a fixed variable: the
row of a fixed variable `j` is the unit vector `e_j` (over all columns), and column `j` of
the block is zero except for the `1` on the diagonal. -/
theorem hessianStage_fixed (M : IpSaddlePointMatrix n mu ml) (j : ℕ) (hj : j ∈ M.jf)
    (hjn : j < n) :
    (∀ k, hessianStage M j k = if k = j then 1 else 0) ∧
    (∀ i, i < n → hessianStage M i j = if i = j then 1 else 0) := by
  rcases M with ⟨H, Au, Al, Z, W, L, U, jf⟩
  simp only at hj
  constructor
  · intro k
    simp only [hessianStage, fillDiagonalAt, fillRows, fillCols, Block.whole,
      Block.topLeftCorner, Nat.zero_add, Nat.sub_zero, Nat.zero_le, true_and, hj, hjn]
    by_cases hk : k = j
    · rw [if_pos hk, if_pos hk]
    · rw [if_neg hk, if_neg hk]
      by_cases hkn : k < n
      · rw [if_pos hkn]
      · rw [if_neg hkn]
        have h0 : ∀ res : ℕ → ℕ → ℚ, res j k = 0 →
            (if k ∈ jf then (0 : ℚ) else res j k) = 0 := by
          intro res hres
          split_ifs
          · rfl
          · exact hres
        apply h0
        cases H with
        | dense H =>
          simp only [assign]
          rw [if_neg (by omega)]
        | diagonal d =>
          simp only [assign]
          rw [if_neg (by omega)]
        | zero => rfl
  · intro i hi
    simp only [hessianStage, fillDiagonalAt, fillRows, fillCols, Block.whole,
      Block.topLeftCorner, Nat.zero_add, Nat.sub_zero, Nat.zero_le, true_and, hj, hjn, hi,
      and_true]
    by_cases hij : i = j
    · subst hij
      simp [hj]
    · have hji : ¬ j = i := fun h => hij h.symm
      simp [hij, hji]

end IpSaddlePointMatrix
namespace IpSaddlePointMatrix

variable {n mu ml : ℕ}

/-- Lines 45-62 write nothing below the first `n` rows, when the fixed variables are among
the `n` variables. -/
theorem hessianStage_of_le (M : IpSaddlePointMatrix n mu ml) (hjf : ∀ i ∈ M.jf, i < n)
    (r k : ℕ) (hr : n ≤ r) : hessianStage M r k = 0 := by
  rcases M with ⟨H, Au, Al, Z, W, L, U, jf⟩
  simp only at hjf
  have hmem : r ∉ jf := fun h => absurd (hjf r h) (by omega)
  have hrn : ¬ r < n := by omega
  simp only [hessianStage, fillDiagonalAt, fillRows, fillCols, Block.whole,
    Block.topLeftCorner, Nat.zero_add, Nat.sub_zero, Nat.zero_le, true_and, hmem, hrn,
    false_and, if_false]
  cases H with
  | dense H =>
    simp only [assign]
    rw [if_neg (by omega)]
  | diagonal d =>
    simp only [assign]
    rw [if_neg (by omega)]
  | zero => rfl

/-- Lines 64-82 in the row of a fixed variable: the entries written from `tr(Au)` and
`tr(Al)` are set to zero again, so the row stays the unit vector. -/
theorem constraintStage_fixed_row (M : IpSaddlePointMatrix n mu ml) (j : ℕ) (hj : j ∈ M.jf)
    (hjn : j < n) (k : ℕ) : constraintStage M j k = if k = j then 1 else 0 := by
  have hH := (hessianStage_fixed M j hj hjn).1
  have a1 : ¬ (n ≤ j) := by omega
  have a2 : ¬ (n + (mu + ml - ml) ≤ j) := by omega
  simp only [constraintStage, assign, fillRows, Block.whole, Block.topLeftCorner,
    Block.topRightCorner, Block.bottomLeftCorner, Block.middleCols, Block.middleRows,
    ite_apply, Nat.zero_add, Nat.sub_zero, Nat.zero_le, true_and, hj, hjn, a1, a2, false_and,
    if_false, hH]
  by_cases hk : k = j
  · subst hk
    simp (disch := omega) only [if_neg, if_pos, ite_self]
  · simp only [hk, if_false]
    split_ifs <;> rfl

/-- Lines 64-82 leave the top left block as it was. -/
theorem constraintStage_topLeft (M : IpSaddlePointMatrix n mu ml) (i k : ℕ) (hi : i < n)
    (hk : k < n) : constraintStage M i k = hessianStage M i k := by
  simp only [constraintStage, assign, fillRows, Block.whole, Block.topLeftCorner,
    Block.topRightCorner, Block.bottomLeftCorner, Block.middleCols, Block.middleRows,
    ite_apply, Nat.zero_add, Nat.sub_zero, Nat.zero_le, true_and]
  simp (disch := omega) only [if_neg, if_pos, ite_self, and_false, false_and]

/-- Lines 64-82 write nothing below the first `n + m` rows. -/
theorem constraintStage_of_le (M : IpSaddlePointMatrix n mu ml) (hjf : ∀ i ∈ M.jf, i < n)
    (r k : ℕ) (hr : n + (mu + ml) ≤ r) : constraintStage M r k = 0 := by
  have hH := hessianStage_of_le M hjf r k (by omega)
  have hmem : r ∉ M.jf := fun h => absurd (hjf r h) (by omega)
  simp only [constraintStage, assign, fillRows, Block.whole, Block.topLeftCorner,
    Block.topRightCorner, Block.bottomLeftCorner, Block.middleCols, Block.middleRows,
    ite_apply, Nat.zero_add, Nat.sub_zero, Nat.zero_le, true_and, hmem, false_and, if_false,
    hH]
  simp (disch := omega) only [if_neg, if_pos, ite_self, and_false, false_and]

end IpSaddlePointMatrix
namespace IpSaddlePointMatrix

variable {n mu ml : ℕ}

/-- Lines 84-90 in the row of a fixed variable: the two entries `-1` are set to zero
again. -/
theorem identityStage_fixed_row (M : IpSaddlePointMatrix n mu ml) (j : ℕ) (hj : j ∈ M.jf)
    (hjn : j < n) (k : ℕ) : identityStage M j k = if k = j then 1 else 0 := by
  have hC := constraintStage_fixed_row M j hj hjn
  simp only [identityStage, fillDiagonal, fillDiagonalAt, Block.whole, Block.middleCols,
    Block.rightCols, Nat.zero_add, Nat.sub_zero, Nat.zero_le, true_and, hj, hC]
  by_cases hk : k = j
  · subst hk
    simp (disch := omega) only [if_neg, if_pos, ite_self, and_false]
  · simp only [hk, if_false]
    split_ifs <;> first | rfl | omega

/-- Lines 84-90 leave the top left block as it was. -/
theorem identityStage_topLeft (M : IpSaddlePointMatrix n mu ml) (i k : ℕ) (hk : k < n) :
    identityStage M i k = constraintStage M i k := by
  simp only [identityStage, fillDiagonal, fillDiagonalAt, Block.whole, Block.middleCols,
    Block.rightCols, Nat.zero_add, Nat.sub_zero, Nat.zero_le, true_and]
  simp (disch := omega) only [if_neg, if_pos, ite_self, and_false]

/-- Lines 84-90 write nothing below the first `n` rows. -/
theorem identityStage_of_le (M : IpSaddlePointMatrix n mu ml) (hjf : ∀ i ∈ M.jf, i < n)
    (r k : ℕ) (hr : n ≤ r) : identityStage M r k = constraintStage M r k := by
  have hmem : r ∉ M.jf := fun h => absurd (hjf r h) (by omega)
  simp only [identityStage, fillDiagonal, fillDiagonalAt, Block.whole, Block.middleCols,
    Block.rightCols, Nat.zero_add, Nat.sub_zero, Nat.zero_le, true_and, hmem, false_and,
    if_false]
  simp (disch := omega) only [if_neg, if_pos, ite_self, and_false, false_and]

/-- Lines 92-106 write nothing above row `n + m`. -/
theorem boundStage_of_lt (M : IpSaddlePointMatrix n mu ml) (i k : ℕ)
    (hi : i < n + (mu + ml)) : boundStage M i k = identityStage M i k := by
  simp only [boundStage, assignDiagonal, fillDiagonalAt, Block.whole, Block.middleCols,
    Block.middleRows, Block.leftCols, Block.rightCols, Block.bottomRows, Nat.zero_add,
    Nat.sub_zero, Nat.zero_le, true_and]
  simp (disch := omega) only [if_neg, if_pos, ite_self, and_false, false_and]

end IpSaddlePointMatrix
namespace IpSaddlePointMatrix

variable {n mu ml : ℕ}

/-- Lines 92-98 in the row `n + m + j` of a fixed variable `j`: the entry from `Z` is set
to zero and the entry from `L` to one. -/
theorem boundStage_fixed_lower (M : IpSaddlePointMatrix n mu ml) (hjf : ∀ i ∈ M.jf, i < n)
    (j : ℕ) (hj : j ∈ M.jf) (k : ℕ) :
    boundStage M (n + (mu + ml) + j) k = if k = n + (mu + ml) + j then 1 else 0 := by
  have hjn := hjf j hj
  have hI : identityStage M (n + (mu + ml) + j) k = 0 := by
    rw [identityStage_of_le M hjf _ _ (by omega), constraintStage_of_le M hjf _ _ (by omega)]
  have e1 : n + (mu + ml) + j - (n + (mu + ml)) = j := by omega
  have a1 : ¬ (3 * n + (mu + ml) - n ≤ n + (mu + ml) + j) := by omega
  simp only [boundStage, assignDiagonal, fillDiagonalAt, Block.whole, Block.middleCols,
    Block.middleRows, Block.leftCols, Block.rightCols, Block.bottomRows, Nat.zero_add,
    Nat.sub_zero, Nat.zero_le, true_and, a1, false_and, if_false, e1, hj, hI,
    Nat.le_add_right]
  by_cases hk : k = n + (mu + ml) + j
  · rw [if_pos hk, if_pos hk]
  · rw [if_neg hk, if_neg hk]
    split_ifs <;> first | rfl | omega

/-- Lines 100-106 in the row `2n + m + j` of a fixed variable `j`: the entry from `W` is
set to zero and the entry from `U` to one. -/
theorem boundStage_fixed_upper (M : IpSaddlePointMatrix n mu ml) (hjf : ∀ i ∈ M.jf, i < n)
    (j : ℕ) (hj : j ∈ M.jf) (k : ℕ) :
    boundStage M (2 * n + (mu + ml) + j) k = if k = 2 * n + (mu + ml) + j then 1 else 0 := by
  have hjn := hjf j hj
  have hI : identityStage M (2 * n + (mu + ml) + j) k = 0 := by
    rw [identityStage_of_le M hjf _ _ (by omega), constraintStage_of_le M hjf _ _ (by omega)]
  have e1 : 2 * n + (mu + ml) + j - (3 * n + (mu + ml) - n) = j := by omega
  have e2 : 3 * n + (mu + ml) - n + j = 2 * n + (mu + ml) + j := by omega
  have a1 : 3 * n + (mu + ml) - n ≤ 2 * n + (mu + ml) + j := by omega
  have a2 : n + (mu + ml) ≤ 2 * n + (mu + ml) + j := by omega
  have a3 : ¬ (2 * n + (mu + ml) + j - (n + (mu + ml)) < n) := by omega
  have a4 : 2 * n + (mu + ml) + j - (n + (mu + ml)) ∉ M.jf :=
    fun h => absurd (hjf _ h) (by omega)
  simp only [boundStage, assignDiagonal, fillDiagonalAt, Block.whole, Block.middleCols,
    Block.middleRows, Block.leftCols, Block.rightCols, Block.bottomRows, Nat.zero_add,
    Nat.sub_zero, Nat.zero_le, true_and, a1, a2, a3, a4, and_false, false_and, if_false, e1,
    e2, hj, hI]
  by_cases hk : k = 2 * n + (mu + ml) + j
  · rw [if_pos hk, if_pos hk]
  · rw [if_neg hk, if_neg hk]
    split_ifs <;> first | rfl | omega

/-- C32. When the entries of `jf` are indices of variables (`< n`), then for every index
`j` in `jf`: row `j` of the converted matrix is the unit vector `e_j`, row `n + m + j` is
the unit vector `e_(n+m+j)`, row `2n + m + j` is the unit vector `e_(2n+m+j)`, and column
`j` of the top left `H` block is zero except for the `1` on the diagonal. -/
theorem toMatrix_fixed (M : IpSaddlePointMatrix n mu ml) (hjf : ∀ i ∈ M.jf, i < n) (j : ℕ)
    (hj : j ∈ M.jf) :
    (∀ k, (toMatrix M).coeff j k = if k = j then 1 else 0) ∧
    (∀ k, (toMatrix M).coeff (n + (mu + ml) + j) k =
      if k = n + (mu + ml) + j then 1 else 0) ∧
    (∀ k, (toMatrix M).coeff (2 * n + (mu + ml) + j) k =
      if k = 2 * n + (mu + ml) + j then 1 else 0) ∧
    (∀ i, i < n → (toMatrix M).coeff i j = if i = j then 1 else 0) := by
  have hjn := hjf j hj
  rw [toMatrix_coeff]
  refine ⟨?_, boundStage_fixed_lower M hjf j hj, boundStage_fixed_upper M hjf j hj, ?_⟩
  · intro k
    rw [boundStage_of_lt M j k (by omega), identityStage_fixed_row M j hj hjn]
  · intro i hi
    rw [boundStage_of_lt M i j (by omega), identityStage_topLeft M i j hjn,
      constraintStage_topLeft M i j hi hjn, (hessianStage_fixed M j hj hjn).2 i hi]

theorem toMatrix_fixed_witness :
    (∀ i ∈ exampleFixed.jf, i < 2) ∧ 0 ∈ exampleFixed.jf ∧
    (∀ k, (toMatrix exampleFixed).coeff 0 k = if k = 0 then 1 else 0) ∧
    (∀ k, (toMatrix exampleFixed).coeff (2 + (1 + 1) + 0) k =
      if k = 2 + (1 + 1) + 0 then 1 else 0) ∧
    (∀ k, (toMatrix exampleFixed).coeff (2 * 2 + (1 + 1) + 0) k =
      if k = 2 * 2 + (1 + 1) + 0 then 1 else 0) ∧
    (∀ i, i < 2 → (toMatrix exampleFixed).coeff i 0 = if i = 0 then 1 else 0) :=
  have hjf : ∀ i ∈ exampleFixed.jf, i < 2 := by
    intro i hi
    simp only [exampleFixed, List.mem_singleton] at hi
    omega
  have hj : 0 ∈ exampleFixed.jf := by simp [exampleFixed]
  ⟨hjf, hj, toMatrix_fixed exampleFixed hjf 0 hj⟩

end IpSaddlePointMatrix

/-! ### `ResidualFunction`: the assertion on the priority weights -/

namespace ResidualFunction

/-- The running minimum of `minCoeff` over finite non-negative coefficients is finite and
non-negative. -/
theorem foldl_min_nonneg (vs : List Double) (v : Double)
    (hv : ∃ q : ℚ, v = Double.fin q ∧ 0 ≤ q)
    (hvs : ∀ w ∈ vs, ∃ q : ℚ, w = Double.fin q ∧ 0 ≤ q) :
    ∃ q : ℚ, vs.foldl (fun res w => if Double.lt w res then w else res) v = Double.fin q ∧
      0 ≤ q := by
  induction vs generalizing v with
  | nil => exact hv
  | cons w vs ih =>
    rw [List.foldl_cons]
    apply ih
    · split_ifs
      · exact hvs w (List.mem_cons_self _ _)
      · exact hv
    · intro u hu
      exact hvs u (List.mem_cons_of_mem _ hu)

/-- The weight of a variable with a finite value inside its bounds (which may be infinite),
after the replacement of an infinite weight by `|x|`, is finite and non-negative. -/
theorem weight_nonneg (x xlower xupper : Double) (a : ℚ) (hx : x = Double.fin a)
    (hl : Double.le xlower x = true) (hu : Double.le x xupper = true) :
    ∃ q : ℚ, (if (Double.min (Double.sub x xlower) (Double.sub xupper x)).isInf then x.abs
      else Double.min (Double.sub x xlower) (Double.sub xupper x)) = Double.fin q ∧ 0 ≤ q := by
  subst hx
  cases xlower with
  | fin l =>
    have hl2 : l ≤ a := by simpa [Double.le] using hl
    cases xupper with
    | fin u =>
      have hu2 : a ≤ u := by simpa [Double.le] using hu
      simp only [Double.sub, Double.min, Double.lt]
      by_cases h : u - a < a - l
      · simp only [h, decide_True, if_true, Double.isInf, Bool.false_eq_true, if_false]
        exact ⟨_, rfl, by linarith⟩
      · simp only [h, decide_False, Bool.false_eq_true, if_false, Double.isInf]
        exact ⟨_, rfl, by linarith⟩
    | posInf =>
      simp only [Double.sub, Double.min, Double.lt, Bool.false_eq_true, if_false,
        Double.isInf]
      exact ⟨_, rfl, by linarith⟩
    | negInf => simp [Double.le] at hu
    | nan => simp [Double.le] at hu
  | negInf =>
    cases xupper with
    | fin u =>
      have hu2 : a ≤ u := by simpa [Double.le] using hu
      simp only [Double.sub, Double.min, Double.lt, if_true, Double.isInf, Bool.false_eq_true,
        if_false]
      exact ⟨_, rfl, by linarith⟩
    | posInf =>
      simp only [Double.sub, Double.min, Double.lt, Bool.false_eq_true, if_false,
        Double.isInf, if_true, Double.abs]
      exact ⟨_, rfl, abs_nonneg a⟩
    | negInf => simp [Double.le] at hu
    | nan => simp [Double.le] at hu
  | posInf => simp [Double.le] at hl
  | nan => simp [Double.le] at hl

end ResidualFunction

namespace ResidualFunction

/-- C31, amended. For finite `x` with `xlower[i] ≤ x[i] ≤ xupper[i]` for every `i` (the
bounds may be infinite), the assertion `wx.minCoeff() >= 0.0`, evaluated after the
replacement of the infinite weights, does not fail: `updateEchelonFormMatrixW` never stops
on it, and with at least one variable it completes and hands its weights on. -/
theorem assertion_unreachable {nx : ℕ} (x xlower xupper : Fin nx → Double)
    (hx : ∀ i, ∃ a : ℚ, x i = Double.fin a)
    (hl : ∀ i, Double.le (xlower i) (x i) = true)
    (hu : ∀ i, Double.le (x i) (xupper i) = true) :
    updateEchelonFormMatrixW x xlower xupper ≠ .error "assertion failed" ∧
    (0 < nx → ∃ wx, updateEchelonFormMatrixW x xlower xupper = .ok wx) := by
  have hw : ∀ i, ∃ q : ℚ,
      (if (Double.min (Double.sub (x i) (xlower i)) (Double.sub (xupper i) (x i))).isInf
        then (x i).abs
        else Double.min (Double.sub (x i) (xlower i)) (Double.sub (xupper i) (x i))) =
        Double.fin q ∧ 0 ≤ q := by
    intro i
    obtain ⟨a, ha⟩ := hx i
    exact weight_nonneg (x i) (xlower i) (xupper i) a ha (hl i) (hu i)
  have hmc : ∀ mc, minCoeff (List.ofFn fun i =>
      if (Double.min (Double.sub (x i) (xlower i)) (Double.sub (xupper i) (x i))).isInf
        then (x i).abs
        else Double.min (Double.sub (x i) (xlower i)) (Double.sub (xupper i) (x i))) =
        some mc → Double.le (Double.fin 0) mc = true := by
    intro mc hmc
    have hall : ∀ w ∈ List.ofFn (fun i =>
        if (Double.min (Double.sub (x i) (xlower i)) (Double.sub (xupper i) (x i))).isInf
          then (x i).abs
          else Double.min (Double.sub (x i) (xlower i)) (Double.sub (xupper i) (x i))),
        ∃ q : ℚ, w = Double.fin q ∧ 0 ≤ q := by
      intro w hw2
      obtain ⟨i, rfl⟩ := (List.mem_ofFn _ _).mp hw2
      exact hw i
    revert hmc hall
    generalize List.ofFn (fun i =>
        if (Double.min (Double.sub (x i) (xlower i)) (Double.sub (xupper i) (x i))).isInf
          then (x i).abs
          else Double.min (Double.sub (x i) (xlower i)) (Double.sub (xupper i) (x i))) = l
    intro hmc hall
    cases l with
    | nil => simp [minCoeff] at hmc
    | cons v vs =>
      simp only [minCoeff, Option.some.injEq] at hmc
      obtain ⟨q, hq, hq0⟩ := foldl_min_nonneg vs v (hall v (List.mem_cons_self _ _))
        (fun w hw2 => hall w (List.mem_cons_of_mem _ hw2))
      rw [← hmc, hq]
      simpa [Double.le] using hq0
  constructor
  · unfold updateEchelonFormMatrixW
    simp only
    split
    · intro h
      injection h with h
      exact absurd h (by decide)
    · rename_i mc hmceq
      rw [hmc mc hmceq]
      simp [cAssert]
  · intro hn
    unfold updateEchelonFormMatrixW
    simp only
    split
    · rename_i hnone
      exfalso
      have hlen := congrArg List.length (show List.ofFn _ = [] from by
        cases hl2 : List.ofFn (fun i =>
          if (Double.min (Double.sub (x i) (xlower i)) (Double.sub (xupper i) (x i))).isInf
            then (x i).abs
            else Double.min (Double.sub (x i) (xlower i)) (Double.sub (xupper i) (x i))) with
        | nil => rfl
        | cons v vs => rw [hl2] at hnone; simp [minCoeff] at hnone)
      simp at hlen
      omega
    · rename_i mc hmceq
      rw [hmc mc hmceq]
      simp [cAssert]

theorem assertion_unreachable_witness :
    (∀ i, ∃ a : ℚ, exampleX i = Double.fin a) ∧
    (∀ i, Double.le (exampleLower i) (exampleX i) = true) ∧
    (∀ i, Double.le (exampleX i) (exampleUpper i) = true) ∧
    updateEchelonFormMatrixW exampleX exampleLower exampleUpper ≠ .error "assertion failed" :=
  have hx : ∀ i, ∃ a : ℚ, exampleX i = Double.fin a := by
    intro i
    fin_cases i
    · exact ⟨0, rfl⟩
    · exact ⟨1, rfl⟩
  have hl : ∀ i, Double.le (exampleLower i) (exampleX i) = true := by
    intro i
    fin_cases i <;> simp [exampleLower, exampleX, Double.le]
  have hu : ∀ i, Double.le (exampleX i) (exampleUpper i) = true := by
    intro i
    fin_cases i <;> simp [exampleUpper, exampleX, Double.le]
  ⟨hx, hl, hu, (assertion_unreachable exampleX exampleLower exampleUpper hx hl hu).1⟩

end ResidualFunction

namespace ResidualFunction

/-- C31, counterexample. One variable at `x = -inf` with the bounds `-inf` and `+inf`: the
precondition `xlower ≤ x ≤ xupper` holds, the weight `min(x - xlower, xupper - x)` is
not-a-number, no infinite weight is replaced, and the assertion of line 157 fails. -/
theorem assertion_fails_at_infinite_x :
    (∀ i, Double.le (infiniteLower i) (infiniteX i) = true) ∧
    (∀ i, Double.le (infiniteX i) (infiniteUpper i) = true) ∧
    updateEchelonFormMatrixW infiniteX infiniteLower infiniteUpper =
      .error "assertion failed" :=
  ⟨fun _ => rfl, fun _ => rfl, rfl⟩

end ResidualFunction

namespace OptimumStepper

theorem initialStepper_fields :
    initialStepper.iordering = [0, 1, 2] ∧ initialStepper.n = 3 ∧ initialStepper.ns = 3 ∧
    initialStepper.nu = 0 ∧ initialStepper.nf = 0 ∧ initialStepper.options.mu = 1 ∧
    initialStepper.m = 1 :=
  ⟨by decide, rfl, rfl, rfl, rfl, rfl, rfl⟩

theorem three_partition_low (x0 z0 : ℚ) (hz : z0 < 1) :
    stdPartition (fun i => decide ((exampleState x0 z0).z i < 1)) [0, 1, 2] =
      ([0, 1, 2], 3) := by
  simp [stdPartition, partitionAux, exampleState, hz]

theorem three_partition_high (x0 z0 : ℚ) (hz : 1 ≤ z0) :
    stdPartition (fun i => decide ((exampleState x0 z0).z i < 1)) [0, 1, 2] =
      ([2, 1, 0], 2) := by
  simp [stdPartition, partitionAux, exampleState, not_lt.mpr hz]

/-- After `initialize` with `n = 3` and `decompose` at a dual `z[0] < 1` all three
variables are stable, in the order `[0, 1, 2]`. -/
theorem initial_decompose_low (x0 z0 : ℚ) (hz : z0 < 1) :
    istable (decompose initialStepper exampleParams (exampleState x0 z0) exampleObjective)
      = [0, 1, 2] ∧
    iunstable (decompose initialStepper exampleParams (exampleState x0 z0) exampleObjective)
      = [] ∧
    ifixed (decompose initialStepper exampleParams (exampleState x0 z0) exampleObjective)
      = [] := by
  obtain ⟨h1, h2⟩ := decompose_segments initialStepper exampleParams (exampleState x0 z0)
    exampleObjective (by decide)
  have hp := three_partition_low x0 z0 hz
  have ht : List.take (initialStepper.n - exampleParams.ifixed.length)
      initialStepper.iordering = [0, 1, 2] := by decide
  rw [ht, hp] at h1 h2
  refine ⟨h1, h2, ?_⟩
  rw [decompose_ifixed initialStepper exampleParams (exampleState x0 z0) exampleObjective
    (by decide) (by decide)]
  decide

/-- After `initialize` with `n = 3` and `decompose` at a dual `z[0] ≥ 1` variable `0` is
the only unstable variable. -/
theorem initial_decompose_high (x0 z0 : ℚ) (hz : 1 ≤ z0) :
    istable (decompose initialStepper exampleParams (exampleState x0 z0) exampleObjective)
      = [2, 1] ∧
    iunstable (decompose initialStepper exampleParams (exampleState x0 z0) exampleObjective)
      = [0] := by
  obtain ⟨h1, h2⟩ := decompose_segments initialStepper exampleParams (exampleState x0 z0)
    exampleObjective (by decide)
  have hp := three_partition_high x0 z0 hz
  have ht : List.take (initialStepper.n - exampleParams.ifixed.length)
      initialStepper.iordering = [0, 1, 2] := by decide
  rw [ht, hp] at h1 h2
  exact ⟨h1, h2⟩

/-- C9, counterexample. After `initialize` with three variables, variable `0` is not fixed,
sits exactly on its bound (`x = 0`) and has the positive dual `z = 1/2`; `decompose` places
it in `istable()`, not in `iunstable()`. -/
theorem decompose_positive_dual_stable :
    (exampleState 0 (1 / 2)).x 0 = 0 ∧ 0 < (exampleState 0 (1 / 2)).z 0 ∧
    0 ∉ exampleParams.ifixed ∧
    0 ∉ iunstable
      (decompose initialStepper exampleParams (exampleState 0 (1 / 2)) exampleObjective) ∧
    0 ∈ istable
      (decompose initialStepper exampleParams (exampleState 0 (1 / 2)) exampleObjective) := by
  obtain ⟨h1, h2, -⟩ := initial_decompose_low 0 (1 / 2) (by norm_num)
  rw [h1, h2]
  refine ⟨by simp [exampleState], by simp [exampleState], by simp [exampleParams], by simp,
    by simp⟩

/-- C8, counterexample. After `initialize` with three variables, with `x = (1, 1, 1)`,
`z = 0`, `y = 0`, zero gradient and `mu = 1` the optimality residual `-(g - Aᵀy - z)` of the
stable variable `0` is `0`, but after `solve` the optimality block of `residual` holds `1`
there. -/
theorem solve_optimality_block_differs :
    0 ∈ istable (decompose initialStepper exampleParams (exampleState 1 0) exampleObjective) ∧
    (solve (decompose initialStepper exampleParams (exampleState 1 0) exampleObjective)
        exampleParams (exampleState 1 0) exampleObjective).residual.a 0 = 1 ∧
    -(exampleObjective.grad 0 - trMulVec 1 initialStepper.structure_.A (exampleState 1 0).y 0
        - (exampleState 1 0).z 0) = 0 := by
  obtain ⟨h1, h2, h3⟩ := initial_decompose_low 1 0 (by norm_num)
  have hs : 0 ∈ istable
      (decompose initialStepper exampleParams (exampleState 1 0) exampleObjective) := by
    rw [h1]; simp
  refine ⟨hs, ?_, ?_⟩
  · rw [solve_residual_a_stable _ exampleParams (exampleState 1 0) exampleObjective 0
      (by rw [h1]; decide) hs (by rw [h2]; simp) (by rw [h3]; simp)]
    simp [exampleState, exampleObjective, trMulVec, decompose, initialStepper,
      initializeStepper, exampleStepper, exampleStructure]
  · simp [exampleState, exampleObjective, trMulVec]

/-- C10, counterexample. After `initialize` with three variables, variable `0` is unstable
after `decompose` (`z = 2`), sits exactly on its bound (`x = 0`) and `mu = 1`: the primal
step returned by `solve` is `dx = 1/2`, not `0`. -/
theorem solve_dx_unstable_nonzero :
    0 ∈ iunstable
      (decompose initialStepper exampleParams (exampleState 0 2) exampleObjective) ∧
    (exampleState 0 2).x 0 = 0 ∧ (exampleState 0 2).z 0 ≠ 0 ∧
    (solve (decompose initialStepper exampleParams (exampleState 0 2) exampleObjective)
        exampleParams (exampleState 0 2) exampleObjective).solution.dx 0 = 1 / 2 := by
  obtain ⟨-, h2⟩ := initial_decompose_high 0 2 (by norm_num)
  have hu : 0 ∈ iunstable
      (decompose initialStepper exampleParams (exampleState 0 2) exampleObjective) := by
    rw [h2]; simp
  refine ⟨hu, by simp [exampleState], by simp [exampleState], ?_⟩
  rw [solve_dx_unstable _ exampleParams (exampleState 0 2) exampleObjective 0 hu]
  simp [exampleState, decompose, initialStepper, initializeStepper, exampleStepper]

end OptimumStepper

namespace OptimumStepper

/-- For a single entry `setLinSpaced(1, 0, 1)` is `[1]`: the sequence of one entry starts
at `high`. -/
theorem setLinSpaced_one : setLinSpaced 1 0 1 = [1] := rfl

end OptimumStepper

end Optima
